import Mathlib

/-
Verification of the sharded-slab concurrent allocator core.

The definitions below are a shallow embedding of the Rust sources:
 - src/lib.rs        (Slab, Shard, Guard, the Pack trait)
 - src/cfg.rs        (configuration constants: next_pow2, page_size, validate)
 - src/tid.rs        (thread id field layout)
 - src/page/mod.rs   (Addr, Local, Shared, free list plumbing)
 - src/page/slot.rs  (Slot lifecycle word, Generation, RefCount, Guard release)
 - src/page/stack.rs (TransferStack)

Machine integers (usize on a 64-bit target) are modelled as Nat with
explicit masking; operations that can panic or spin forever are modelled
in Option, with none standing for a panicked or diverging execution.
The operational model is the single-threaded projection of the slab: the
one running thread holds thread id 0, and a guard returned by get is
released immediately after the value is read, exactly as the Rust drop
glue does at the end of the borrow.
-/

namespace ShardedSlab

/-- Word width of the target: 64-bit usize (cfg::WIDTH). -/
def WIDTH : Nat := 64

/-! ### Bit-field packing (the Pack trait, src/lib.rs lines 663-747) -/

/-- Pack::BITS for a field of length len: a number of len one bits
(for len = 0 the source expression also yields 0 via wrapping, matching
the dedicated () instance). -/
def fieldBits (len : Nat) : Nat := 2 ^ len - 1

/-- Pack::MASK: BITS shifted into position. -/
def fieldMask (len shift : Nat) : Nat := fieldBits len <<< shift

/-- Pack::pack: (to & !MASK) | (value << SHIFT). The Rust ! on usize is
complement within the word, i.e. xor with 2^WIDTH - 1. -/
def packField (len shift dst value : Nat) : Nat :=
  (dst &&& ((2 ^ WIDTH - 1) ^^^ fieldMask len shift)) ||| (value <<< shift)

/-- Pack::from_packed: (from & MASK) >> SHIFT. -/
def unpackField (len shift w : Nat) : Nat := (w &&& fieldMask len shift) >>> shift

theorem unpackField_lt_two_pow (len shift w : Nat) :
    unpackField len shift w < 2 ^ len := by
  have h1 : w &&& fieldMask len shift ≤ fieldMask len shift := Nat.and_le_right
  have h2 : (w &&& fieldMask len shift) >>> shift ≤ fieldMask len shift >>> shift := by
    simp only [Nat.shiftRight_eq_div_pow]
    exact Nat.div_le_div_right h1
  have h3 : fieldMask len shift >>> shift = fieldBits len := by
    simp only [fieldMask, Nat.shiftLeft_eq, Nat.shiftRight_eq_div_pow]
    exact Nat.mul_div_cancel _ (Nat.pos_pow_of_pos shift (by norm_num))
  have h4 : fieldBits len < 2 ^ len := by
    have : 0 < 2 ^ len := Nat.pos_pow_of_pos len (by norm_num)
    simp only [fieldBits]
    omega
  simp only [unpackField]
  omega

theorem testBit_fieldMask (len shift i : Nat) :
    (fieldMask len shift).testBit i = (decide (shift ≤ i) && decide (i < shift + len)) := by
  simp only [fieldMask, fieldBits, Nat.testBit_shiftLeft, Nat.testBit_two_pow_sub_one]
  rcases Nat.lt_or_ge i shift with h | h
  · simp [Nat.not_le.mpr h]
  · simp [h]
    omega

/-- Round trip: unpacking a freshly packed field recovers the value, for
values that fit the field and fields inside the word. -/
theorem unpackField_packField (len shift dst value : Nat)
    (hv : value ≤ fieldBits len) (hfit : shift + len ≤ WIDTH) :
    unpackField len shift (packField len shift dst value) = value := by
  have hvlt : value < 2 ^ len := by
    have : 0 < 2 ^ len := Nat.pos_pow_of_pos len (by norm_num)
    simp only [fieldBits] at hv; omega
  have hmasked : packField len shift dst value &&& fieldMask len shift
      = value <<< shift := by
    apply Nat.eq_of_testBit_eq
    intro i
    simp only [packField, Nat.testBit_land, Nat.testBit_lor, Nat.testBit_xor,
      Nat.testBit_shiftLeft, testBit_fieldMask, Nat.testBit_two_pow_sub_one]
    rcases Nat.lt_or_ge i shift with h | h
    · simp [Nat.not_le.mpr h]
    · rcases Nat.lt_or_ge i (shift + len) with h2 | h2
      · have hiw : i < WIDTH := lt_of_lt_of_le h2 hfit
        simp [h, h2, hiw]
      · have : value.testBit (i - shift) = false :=
          Nat.testBit_lt_two_pow (lt_of_lt_of_le hvlt (Nat.pow_le_pow_right (by norm_num) (by omega)))
        simp [h, Nat.not_lt.mpr h2, this]
  simp only [unpackField, hmasked, Nat.shiftLeft_eq, Nat.shiftRight_eq_div_pow]
  exact Nat.mul_div_cancel _ (Nat.pos_pow_of_pos shift (by norm_num))

/-- Frame property of pack: bits of the carrier outside the field are not
modified (the carrier is a word, i.e. below 2^WIDTH). -/
theorem packField_testBit_outside (len shift dst value i : Nat)
    (hv : value ≤ fieldBits len) (hdst : dst < 2 ^ WIDTH)
    (hi : i < shift ∨ shift + len ≤ i) :
    (packField len shift dst value).testBit i = dst.testBit i := by
  have hvlt : value < 2 ^ len := by
    have : 0 < 2 ^ len := Nat.pos_pow_of_pos len (by norm_num)
    simp only [fieldBits] at hv; omega
  have hshl : (value <<< shift).testBit i = false := by
    simp only [Nat.testBit_shiftLeft]
    rcases hi with h | h
    · simp [Nat.not_le.mpr h]
    · have hz : value.testBit (i - shift) = false :=
        Nat.testBit_lt_two_pow (lt_of_lt_of_le hvlt (Nat.pow_le_pow_right (by norm_num) (by omega)))
      simp [hz]
  rcases Nat.lt_or_ge i WIDTH with hiw | hiw
  · have hnm : ((2 ^ WIDTH - 1) ^^^ fieldMask len shift).testBit i = true := by
      simp only [Nat.testBit_xor, testBit_fieldMask, Nat.testBit_two_pow_sub_one]
      rcases hi with h | h
      · simp [hiw, Nat.not_le.mpr h]
      · simp [hiw, Nat.not_lt.mpr h]
    simp [packField, Nat.testBit_lor, Nat.testBit_land, hshl, hnm]
  · have hdst' : dst.testBit i = false :=
      Nat.testBit_lt_two_pow (lt_of_lt_of_le hdst (Nat.pow_le_pow_right (by norm_num) hiw))
    simp [packField, Nat.testBit_lor, Nat.testBit_land, hshl, hdst']

/-- The packed word stays inside the machine word. -/
theorem packField_lt_two_pow (len shift dst value : Nat)
    (hv : value ≤ fieldBits len) (hdst : dst < 2 ^ WIDTH) (hfit : shift + len ≤ WIDTH) :
    packField len shift dst value < 2 ^ WIDTH := by
  have hvlt : value < 2 ^ len := by
    have : 0 < 2 ^ len := Nat.pos_pow_of_pos len (by norm_num)
    simp only [fieldBits] at hv; omega
  have h1 : dst &&& ((2 ^ WIDTH - 1) ^^^ fieldMask len shift) ≤ dst := Nat.and_le_left
  have h2 : value <<< shift < 2 ^ WIDTH := by
    simp only [Nat.shiftLeft_eq]
    calc value * 2 ^ shift < 2 ^ len * 2 ^ shift :=
          mul_lt_mul_of_pos_right hvlt (Nat.pos_pow_of_pos shift (by norm_num))
    _ = 2 ^ (len + shift) := by rw [Nat.pow_add]
    _ ≤ 2 ^ WIDTH := Nat.pow_le_pow_right (by norm_num) (by omega)
  exact Nat.lt_of_lt_of_le (Nat.or_lt_two_pow (by omega) h2) (le_refl _)

/-! ### Word-level helpers: bit length, leading and trailing zeros, popcount.
These model the usize intrinsics used by src/cfg.rs. They recurse on an
explicit fuel of WIDTH binary digits, which is exact for any usize value. -/

/-- Bit length of n computed with the given amount of fuel. -/
def sizeGo : Nat → Nat → Nat
  | 0, _ => 0
  | f + 1, n => if n = 0 then 0 else sizeGo f (n / 2) + 1

/-- Bit length of a usize value (position of the highest set bit, plus one). -/
def bitLength (n : Nat) : Nat := sizeGo WIDTH n

/-- usize::leading_zeros. -/
def leadingZeros (n : Nat) : Nat := WIDTH - bitLength n

/-- Ones count computed with the given amount of fuel. -/
def popGo : Nat → Nat → Nat
  | 0, _ => 0
  | f + 1, n => n % 2 + popGo f (n / 2)

/-- usize::count_ones. -/
def popCount (n : Nat) : Nat := popGo WIDTH n

/-- Trailing zero count computed with the given amount of fuel. -/
def tzGo : Nat → Nat → Nat
  | 0, _ => 0
  | f + 1, n => if n % 2 = 1 then 0 else tzGo f (n / 2) + 1

/-- usize::trailing_zeros (64 for n = 0, as in Rust). -/
def trailingZeros (n : Nat) : Nat := tzGo WIDTH n

theorem sizeGo_le (f n : Nat) : sizeGo f n ≤ f := by
  induction f generalizing n with
  | zero => simp [sizeGo]
  | succ f ih =>
    simp only [sizeGo]
    split
    · omega
    · have := ih (n / 2); omega

theorem sizeGo_zero (f : Nat) : sizeGo f 0 = 0 := by
  cases f <;> simp [sizeGo]

theorem lt_two_pow_sizeGo (f n : Nat) (h : n < 2 ^ f) : n < 2 ^ sizeGo f n := by
  induction f generalizing n with
  | zero => simpa [sizeGo] using h
  | succ f ih =>
    simp only [sizeGo]
    split
    · omega
    · have hh : n / 2 < 2 ^ f := by
        rw [Nat.pow_succ] at h
        omega
      have := ih (n / 2) hh
      rw [Nat.pow_succ]
      omega

theorem two_pow_sizeGo_pred_le (f n : Nat) (hn : n ≠ 0) (h : n < 2 ^ f) :
    2 ^ (sizeGo f n - 1) ≤ n := by
  induction f generalizing n with
  | zero => simp at h; omega
  | succ f ih =>
    simp only [sizeGo, if_neg hn]
    rcases Nat.eq_zero_or_pos (n / 2) with h2 | h2
    · rw [h2, sizeGo_zero]
      simpa using Nat.one_le_iff_ne_zero.mpr hn
    · have hh : n / 2 < 2 ^ f := by
        rw [Nat.pow_succ] at h
        omega
      have hrec := ih (n / 2) (by omega) hh
      have hpos : 1 ≤ sizeGo f (n / 2) := by
        cases f with
        | zero => simp at hh; omega
        | succ f => simp only [sizeGo, if_neg (by omega : ¬ n / 2 = 0)]; omega
      have : 2 ^ (sizeGo f (n / 2) - 1) * 2 ≤ (n / 2) * 2 := by omega
      calc 2 ^ (sizeGo f (n / 2) + 1 - 1) = 2 ^ (sizeGo f (n / 2) - 1) * 2 := by
            rw [← Nat.pow_succ]
            congr 1
            omega
      _ ≤ (n / 2) * 2 := this
      _ ≤ n := by omega

/-- Bridge between the fueled bit length and Nat.log2: the bit length of
y / 2 is the floored binary logarithm of y, for y inside the word. -/
theorem bitLength_half_eq_log2 (y : Nat) (hy : 1 ≤ y) (hw : y < 2 ^ WIDTH) :
    bitLength (y / 2) = Nat.log2 y := by
  rcases Nat.lt_or_ge y 2 with h2 | h2
  · have hy1 : y = 1 := by omega
    subst hy1
    simp [bitLength, sizeGo_zero, Nat.log2]
  · have hhalf : y / 2 ≠ 0 := by omega
    have hhw : y / 2 < 2 ^ WIDTH := by
      have : y / 2 ≤ y := Nat.div_le_self y 2
      omega
    set s := bitLength (y / 2) with hs
    have hub : y / 2 < 2 ^ s := lt_two_pow_sizeGo WIDTH (y / 2) hhw
    have hlb : 2 ^ (s - 1) ≤ y / 2 := two_pow_sizeGo_pred_le WIDTH (y / 2) hhalf hhw
    have hspos : 1 ≤ s := by
      by_contra hc
      have : s = 0 := by omega
      rw [this] at hub
      simp at hub
      omega
    have hylb : 2 ^ s ≤ y := by
      have h1 : 2 ^ (s - 1) * 2 ≤ (y / 2) * 2 := by omega
      have h2' : 2 ^ (s - 1) * 2 = 2 ^ s := by
        rw [← Nat.pow_succ]
        congr 1
        omega
      omega
    have hyub : y < 2 ^ (s + 1) := by
      have : y ≤ 2 * (y / 2) + 1 := by omega
      rw [Nat.pow_succ]
      omega
    have hne : y ≠ 0 := by omega
    have hle : s ≤ Nat.log2 y := (Nat.le_log2 hne).mpr hylb
    have hlt : Nat.log2 y < s + 1 := (Nat.log2_lt hne).mpr hyub
    omega

theorem tzGo_two_pow (f k : Nat) (h : k < f) : tzGo f (2 ^ k) = k := by
  induction f generalizing k with
  | zero => omega
  | succ f ih =>
    cases k with
    | zero => simp [tzGo]
    | succ k =>
      have hmod : 2 ^ (k + 1) % 2 = 0 := by
        rw [Nat.pow_succ]
        omega
      simp only [tzGo, hmod]
      rw [if_neg (by omega : ¬ (0 : Nat) = 1)]
      rw [show 2 ^ (k + 1) / 2 = 2 ^ k by rw [Nat.pow_succ]; omega]
      rw [ih k (by omega)]

theorem popGo_two_pow (f k : Nat) (h : k < f) : popGo f (2 ^ k) = 1 := by
  induction f generalizing k with
  | zero => omega
  | succ f ih =>
    cases k with
    | zero =>
      simp only [pow_zero, popGo]
      have : ∀ g, popGo g 0 = 0 := by
        intro g
        induction g with
        | zero => rfl
        | succ g ihg => simp [popGo, ihg]
      simp [this]
    | succ k =>
      have hmod : 2 ^ (k + 1) % 2 = 0 := by
        rw [Nat.pow_succ]; omega
      simp only [popGo, hmod]
      rw [show 2 ^ (k + 1) / 2 = 2 ^ k by rw [Nat.pow_succ]; omega]
      rw [ih k (by omega)]

theorem sizeGo_two_pow (f k : Nat) (h : k < f) : sizeGo f (2 ^ k) = k + 1 := by
  induction f generalizing k with
  | zero => omega
  | succ f ih =>
    cases k with
    | zero => simp [sizeGo, sizeGo_zero]
    | succ k =>
      have hne : ¬ (2 ^ (k + 1) = 0) := by positivity
      simp only [sizeGo, if_neg hne]
      rw [show 2 ^ (k + 1) / 2 = 2 ^ k by rw [Nat.pow_succ]; omega]
      rw [ih k (by omega)]

/-! ### Configuration (src/cfg.rs) and the key field layout
(src/page/mod.rs Addr, src/tid.rs Tid, src/page/slot.rs Generation). -/

/-- cfg::next_pow2: 1 << (bits - ctlz - pow2), with pow2 the indicator
that n has exactly one set bit. -/
def nextPow2 (n : Nat) : Nat :=
  1 <<< (WIDTH - leadingZeros n - (if popCount n = 1 then 1 else 0))

/-- Configuration parameters supplied by the user (the Config trait). -/
structure Params where
  maxThreads : Nat
  maxPages : Nat
  initialPageSize : Nat
  reservedBits : Nat
deriving DecidableEq

/-- cfg::ACTUAL_INITIAL_SZ = next_pow2(INITIAL_PAGE_SIZE); this is the
INITIAL_SZ constant used by Addr::index. -/
def actualInitialSz (c : Params) : Nat := nextPow2 c.initialPageSize

/-- cfg::MAX_SHARDS = next_pow2(MAX_THREADS). -/
def maxShards (c : Params) : Nat := nextPow2 c.maxThreads

/-- cfg::ADDR_INDEX_SHIFT = ACTUAL_INITIAL_SZ.trailing_zeros() + 1. -/
def addrIndexShift (c : Params) : Nat := trailingZeros (actualInitialSz c) + 1

/-- cfg::page_size(n) = ACTUAL_INITIAL_SZ * 2^n. -/
def pageSize (c : Params) (n : Nat) : Nat := actualInitialSz c * 2 ^ n

/-- Addr::LEN = MAX_PAGES + ADDR_INDEX_SHIFT (src/page/mod.rs line 47). -/
def addrLen (c : Params) : Nat := c.maxPages + addrIndexShift c

/-- Addr::BITS, the largest representable address. -/
def addrBits (c : Params) : Nat := fieldBits (addrLen c)

/-- Addr::NULL = Addr::BITS + 1, the free list sentinel. -/
def addrNull (c : Params) : Nat := addrBits c + 1

/-- Tid::LEN = MAX_SHARDS.trailing_zeros() + 1 (src/tid.rs line 47). -/
def tidLen (c : Params) : Nat := trailingZeros (maxShards c) + 1

/-- Tid shift: the thread id is packed directly above the address. -/
def tidShift (c : Params) : Nat := addrLen c

/-- Generation shift: above the thread id. -/
def genShift (c : Params) : Nat := tidShift c + tidLen c

/-- Generation::LEN = (WIDTH - RESERVED_BITS) - SHIFT (src/page/slot.rs line 54). -/
def genLen (c : Params) : Nat := (WIDTH - c.reservedBits) - genShift c

/-- cfg::USED_BITS = Generation::LEN + Generation::SHIFT. -/
def usedBits (c : Params) : Nat := genLen c + genShift c

/-- Unpack the address field of a key (Addr::from_packed). -/
def unpackAddr (c : Params) (k : Nat) : Nat := unpackField (addrLen c) 0 k

/-- Unpack the thread id field of a key (Tid::from_packed). -/
def unpackTid (c : Params) (k : Nat) : Nat := unpackField (tidLen c) (tidShift c) k

/-- Unpack the generation field of a key (Generation::from_packed). -/
def unpackGen (c : Params) (k : Nat) : Nat := unpackField (genLen c) (genShift c) k

/-- Pack an address value into a key word. -/
def packAddrK (c : Params) (a w : Nat) : Nat := packField (addrLen c) 0 w a

/-- Pack a thread id value into a key word. -/
def packTidK (c : Params) (t w : Nat) : Nat := packField (tidLen c) (tidShift c) w t

/-- Pack a generation value into a key word. -/
def packGenK (c : Params) (g w : Nat) : Nat := packField (genLen c) (genShift c) w g

/-! Lifecycle word layout (src/page/slot.rs): two state bits at the
bottom, then the reference count, then the generation at the top. -/

/-- Lifecycle::LEN = 2. -/
def stateLen : Nat := 2

/-- RefCount shift = Lifecycle::SHIFT + Lifecycle::LEN = 2. -/
def refShift : Nat := 2

/-- RefCount::LEN = WIDTH - (Lifecycle::LEN + Generation::LEN). -/
def refLen (c : Params) : Nat := WIDTH - (stateLen + genLen c)

/-- RefCount::MAX = RefCount::BITS. -/
def refMax (c : Params) : Nat := fieldBits (refLen c)

/-- LifecycleGen shift = RefCount::SHIFT + RefCount::LEN. -/
def lcGenShift (c : Params) : Nat := refShift + refLen c

/-- Lifecycle state bits of a lifecycle word (Lifecycle::from_packed
masks with 0b11; the variants are 0b00, 0b01 and 0b11, and the value
0b10 makes the source panic). -/
def lcState (w : Nat) : Nat := w &&& 3

/-- Reference count field of a lifecycle word. -/
def wRefs (c : Params) (w : Nat) : Nat := unpackField (refLen c) refShift w

/-- Generation field of a lifecycle word (LifecycleGen::from_packed). -/
def wGen (c : Params) (w : Nat) : Nat := unpackField (genLen c) (lcGenShift c) w

/-- Pack a state value into a lifecycle word. -/
def packStateW (st w : Nat) : Nat := packField stateLen 0 w st

/-- Pack a reference count into a lifecycle word. -/
def packRefW (c : Params) (r w : Nat) : Nat := packField (refLen c) refShift w r

/-- Pack a generation into a lifecycle word (LifecycleGen::pack). -/
def packGenW (c : Params) (g w : Nat) : Nat := packField (genLen c) (lcGenShift c) w g

/-- Generation::advance: (value + 1) % Self::BITS (src/page/slot.rs
lines 387-391). Note the modulus is BITS = 2^LEN - 1, not 2^LEN. -/
def genAdvance (c : Params) (g : Nat) : Nat := (g + 1) % fieldBits (genLen c)

/-- State encoding (src/page/slot.rs enum State). -/
def stNotRemoved : Nat := 0

/-- State Marked = 0b01. -/
def stMarked : Nat := 1

/-- State Removing = 0b11. -/
def stRemoving : Nat := 3

/-- The checks of cfg::validate(), together with the usize range side
conditions that are implicit in the Rust constants (the inputs are usize
values, and the constant Generation::LEN must not underflow). The
power-of-two assertion of validate() holds for every input because
ACTUAL_INITIAL_SZ is produced by next_pow2, so it is not recorded. -/
def cfgOk (c : Params) : Prop :=
  actualInitialSz c ≤ addrBits c ∧
  usedBits c ≤ WIDTH ∧
  c.reservedBits ≤ WIDTH - usedBits c ∧
  genShift c ≤ WIDTH - c.reservedBits ∧
  c.initialPageSize < 2 ^ WIDTH ∧
  c.maxThreads < 2 ^ WIDTH

instance (c : Params) : Decidable (cfgOk c) := by
  unfold cfgOk
  infer_instance

/-- The default configuration (cfg::DefaultConfig on a 64-bit target). -/
def defaultParams : Params := ⟨4096, 32, 32, 0⟩

/-- A miniature configuration: one shard, one page of two slots. -/
def tinyParams : Params := ⟨1, 1, 2, 0⟩

/-- A miniature configuration whose generation field is a single bit
(reserved bits push the generation down to one bit). -/
def oneGenBitParams : Params := ⟨1, 1, 2, 59⟩

/-- A configuration whose thread count and page size are not powers of
two. -/
def nonPow2Params : Params := ⟨3, 1, 3, 0⟩

example : cfgOk defaultParams := by decide
example : cfgOk tinyParams := by decide
example : cfgOk oneGenBitParams := by decide
example : cfgOk nonPow2Params := by decide
example : actualInitialSz defaultParams = 32 := by decide
example : addrLen defaultParams = 38 ∧ tidLen defaultParams = 13 ∧
    genLen defaultParams = 13 := by decide
example : addrLen tinyParams = 3 ∧ tidLen tinyParams = 1 ∧
    genLen tinyParams = 60 := by decide
example : genLen oneGenBitParams = 1 := by decide

/-! ### Field algebra -/

theorem packField_testBit_inside (len shift dst value i : Nat)
    (hv : value ≤ fieldBits len) (hfit : shift + len ≤ WIDTH)
    (h1 : shift ≤ i) (h2 : i < shift + len) :
    (packField len shift dst value).testBit i = value.testBit (i - shift) := by
  have hiw : i < WIDTH := by omega
  have hnm : ((2 ^ WIDTH - 1) ^^^ fieldMask len shift).testBit i = false := by
    simp only [Nat.testBit_xor, testBit_fieldMask, Nat.testBit_two_pow_sub_one]
    simp [hiw, h1, h2]
  simp [packField, Nat.testBit_lor, Nat.testBit_land, hnm, Nat.testBit_shiftLeft, h1]

theorem unpackField_testBit (len shift w j : Nat) :
    (unpackField len shift w).testBit j = (w.testBit (shift + j) && decide (j < len)) := by
  simp only [unpackField, Nat.testBit_shiftRight, Nat.testBit_land, testBit_fieldMask]
  congr 1
  rcases Nat.lt_or_ge j len with h | h
  · simp [h, Nat.le_add_right]
  · simp [h]

/-- Unpacking a field that is disjoint from a packed field reads the
original carrier. -/
theorem unpackField_packField_disjoint (len1 shift1 len2 shift2 dst value : Nat)
    (hv : value ≤ fieldBits len2) (hdst : dst < 2 ^ WIDTH)
    (hdisj : shift1 + len1 ≤ shift2 ∨ shift2 + len2 ≤ shift1) :
    unpackField len1 shift1 (packField len2 shift2 dst value)
      = unpackField len1 shift1 dst := by
  apply Nat.eq_of_testBit_eq
  intro j
  simp only [unpackField_testBit]
  rcases Nat.lt_or_ge j len1 with hj | hj
  · have : (packField len2 shift2 dst value).testBit (shift1 + j) = dst.testBit (shift1 + j) := by
      apply packField_testBit_outside _ _ _ _ _ hv hdst
      omega
    rw [this]
  · simp [Nat.not_lt.mpr hj]

/-- A lifecycle word is exactly its three fields repacked from zero:
the state bits, the reference count and the generation tile the word. -/
theorem lcRebuild (c : Params) (h2 : stateLen + refLen c + genLen c = WIDTH)
    (w : Nat) (hw : w < 2 ^ WIDTH) :
    packRefW c (wRefs c w) (packGenW c (wGen c w) (packStateW (lcState w) 0)) = w := by
  have hstw : lcState w ≤ fieldBits stateLen := by
    have : w &&& 3 ≤ 3 := Nat.and_le_right
    simp only [lcState, fieldBits, stateLen]
    omega
  have hrefsw : wRefs c w ≤ fieldBits (refLen c) := by
    have := unpackField_lt_two_pow (refLen c) refShift w
    simp only [wRefs, fieldBits] at *
    omega
  have hgenw : wGen c w ≤ fieldBits (genLen c) := by
    have := unpackField_lt_two_pow (genLen c) (lcGenShift c) w
    simp only [wGen, fieldBits] at *
    omega
  have hsfit : (0 : Nat) + stateLen ≤ WIDTH := by simp only [stateLen, WIDTH]; omega
  have hgfit : lcGenShift c + genLen c ≤ WIDTH := by
    simp only [lcGenShift, refShift, stateLen] at *
    omega
  have hrfit : refShift + refLen c ≤ WIDTH := by
    simp only [refShift, stateLen] at *
    omega
  have hst0 : packStateW (lcState w) 0 < 2 ^ WIDTH :=
    packField_lt_two_pow _ _ _ _ hstw (Nat.pos_pow_of_pos WIDTH (by norm_num)) hsfit
  have hg0 : packGenW c (wGen c w) (packStateW (lcState w) 0) < 2 ^ WIDTH :=
    packField_lt_two_pow _ _ _ _ hgenw hst0 hgfit
  apply Nat.eq_of_testBit_eq
  intro i
  rcases Nat.lt_or_ge i WIDTH with hiw | hiw
  · rcases Nat.lt_or_ge i stateLen with hcase | hge2
    · -- state bits
      have f1 : (packRefW c (wRefs c w) (packGenW c (wGen c w) (packStateW (lcState w) 0))).testBit i
          = (packGenW c (wGen c w) (packStateW (lcState w) 0)).testBit i := by
        apply packField_testBit_outside _ _ _ _ _ hrefsw hg0
        left
        simp only [refShift, stateLen] at *
        omega
      have f2 : (packGenW c (wGen c w) (packStateW (lcState w) 0)).testBit i
          = (packStateW (lcState w) 0).testBit i := by
        apply packField_testBit_outside _ _ _ _ _ hgenw hst0
        left
        simp only [lcGenShift, refShift, stateLen] at *
        omega
      have f3 : (packStateW (lcState w) 0).testBit i = (lcState w).testBit i := by
        have := packField_testBit_inside stateLen 0 0 (lcState w) i hstw hsfit (by omega) (by
          simp only [stateLen] at *
          omega)
        simpa using this
      have f4 : (lcState w).testBit i = w.testBit i := by
        simp only [lcState, Nat.testBit_land]
        have hi2 : i = 0 ∨ i = 1 := by
          simp only [stateLen] at hcase
          omega
        have h3 : (3 : Nat).testBit i = true := by
          rcases hi2 with h | h <;> subst h <;> decide
        simp [h3]
      rw [f1, f2, f3, f4]
    · rcases Nat.lt_or_ge i (refShift + refLen c) with hcase | hge3
      · -- refcount bits
        have f1 : (packRefW c (wRefs c w) (packGenW c (wGen c w) (packStateW (lcState w) 0))).testBit i
            = (wRefs c w).testBit (i - refShift) := by
          apply packField_testBit_inside _ _ _ _ _ hrefsw hrfit
          · simp only [refShift, stateLen] at *
            omega
          · exact hcase
        rw [f1, wRefs, unpackField_testBit]
        have hrange : i - refShift < refLen c := by
          simp only [refShift, stateLen] at *
          omega
        have heq : refShift + (i - refShift) = i := by
          simp only [refShift, stateLen] at *
          omega
        simp [hrange, heq]
      · -- generation bits
        have f1 : (packRefW c (wRefs c w) (packGenW c (wGen c w) (packStateW (lcState w) 0))).testBit i
            = (packGenW c (wGen c w) (packStateW (lcState w) 0)).testBit i := by
          apply packField_testBit_outside _ _ _ _ _ hrefsw hg0
          right
          exact hge3
        have f2 : (packGenW c (wGen c w) (packStateW (lcState w) 0)).testBit i
            = (wGen c w).testBit (i - lcGenShift c) := by
          apply packField_testBit_inside _ _ _ _ _ hgenw hgfit
          · simp only [lcGenShift] at *
            omega
          · simp only [lcGenShift, refShift, stateLen] at *
            omega
        rw [f1, f2, wGen, unpackField_testBit]
        have hrange : i - lcGenShift c < genLen c := by
          simp only [lcGenShift, refShift, stateLen] at *
          omega
        have heq : lcGenShift c + (i - lcGenShift c) = i := by
          simp only [lcGenShift] at *
          omega
        simp [hrange, heq]
  · -- above the word: both sides are zero
    have hl : (packRefW c (wRefs c w) (packGenW c (wGen c w) (packStateW (lcState w) 0))).testBit i = false := by
      apply Nat.testBit_lt_two_pow
      have := packField_lt_two_pow (refLen c) refShift
        (packGenW c (wGen c w) (packStateW (lcState w) 0)) (wRefs c w) hrefsw hg0 hrfit
      exact lt_of_lt_of_le this (Nat.pow_le_pow_right (by norm_num) hiw)
    have hr : w.testBit i = false :=
      Nat.testBit_lt_two_pow (lt_of_lt_of_le hw (Nat.pow_le_pow_right (by norm_num) hiw))
    rw [hl, hr]

/-! ### Derived configuration facts -/

/-- Exponent produced by next_pow2. -/
def npExp (n : Nat) : Nat :=
  WIDTH - leadingZeros n - (if popCount n = 1 then 1 else 0)

theorem nextPow2_eq_pow (n : Nat) : nextPow2 n = 2 ^ npExp n := by
  simp [nextPow2, npExp, Nat.shiftLeft_eq]

/-- Exponent of the actual initial page size. -/
def szExp (c : Params) : Nat := npExp c.initialPageSize

theorem actualInitialSz_eq_pow (c : Params) : actualInitialSz c = 2 ^ szExp c := by
  simp [actualInitialSz, szExp, nextPow2_eq_pow]

/-- Bundle of arithmetic facts derivable from a validated configuration. -/
theorem cfgFacts (c : Params) (h : cfgOk c) :
    szExp c < addrLen c ∧
    addrIndexShift c = szExp c + 1 ∧
    addrLen c = c.maxPages + szExp c + 1 ∧
    addrLen c + 1 ≤ genShift c ∧
    genShift c + genLen c ≤ WIDTH ∧
    2 ≤ genShift c ∧
    genLen c + stateLen ≤ WIDTH ∧
    stateLen + refLen c + genLen c = WIDTH ∧
    lcGenShift c + genLen c = WIDTH := by
  obtain ⟨h1, h2, h3, h4, h5, h6⟩ := h
  have hpow := actualInitialSz_eq_pow c
  have htid : 1 ≤ tidLen c := by simp [tidLen]
  have hused : usedBits c = genLen c + genShift c := rfl
  have hgs2 : 2 ≤ genShift c := by
    have : 1 ≤ addrLen c := by
      simp [addrLen, addrIndexShift]
      omega
    simp only [genShift, tidShift] at *
    omega
  have hgw : genShift c + genLen c ≤ WIDTH := by
    simp only [usedBits] at h2
    omega
  have hElt : szExp c < addrLen c := by
    have hlt : (2 : Nat) ^ szExp c < 2 ^ addrLen c := by
      have hb : addrBits c = 2 ^ addrLen c - 1 := rfl
      have hp : (0 : Nat) < 2 ^ addrLen c := Nat.pos_pow_of_pos _ (by norm_num)
      rw [hpow] at h1
      simp only [hb, addrBits, fieldBits] at h1 ⊢
      omega
    exact (Nat.pow_lt_pow_iff_right (by norm_num)).mp hlt
  have hEw : szExp c < WIDTH := by
    have : addrLen c < genShift c := by
      simp only [genShift, tidShift] at *
      omega
    omega
  have hshift : addrIndexShift c = szExp c + 1 := by
    simp only [addrIndexShift, hpow, trailingZeros]
    rw [tzGo_two_pow WIDTH (szExp c) hEw]
  have haddr : addrLen c = c.maxPages + szExp c + 1 := by
    simp only [addrLen, hshift]
    omega
  have hreftile : stateLen + refLen c + genLen c = WIDTH := by
    simp only [refLen, stateLen] at *
    omega
  refine ⟨hElt, hshift, haddr, ?_, hgw, hgs2, ?_, hreftile, ?_⟩
  · simp only [genShift, tidShift] at *
    omega
  · simp only [stateLen] at *
    omega
  · simp only [lcGenShift, refShift, refLen, stateLen] at *
    omega

/-! ### The page index computation (src/page/mod.rs Addr::index) -/

/-- Addr::index: WIDTH - ((addr + INITIAL_SZ) >> ADDR_INDEX_SHIFT).leading_zeros(). -/
def addrIndex (c : Params) (addr : Nat) : Nat :=
  WIDTH - leadingZeros ((addr + actualInitialSz c) >>> addrIndexShift c)

/-- The reference page index: floor(log2((addr + INITIAL_SZ) / INITIAL_SZ)),
written with the floored operations of Nat (this is the specification
formula, stated independently of the shift-and-count-zeros trick). -/
def addrIndexSpec (c : Params) (addr : Nat) : Nat :=
  Nat.log2 ((addr + actualInitialSz c) / actualInitialSz c)

theorem addrIndex_eq_bitLength (c : Params) (addr : Nat) :
    addrIndex c addr = bitLength ((addr + actualInitialSz c) >>> addrIndexShift c) := by
  have h := sizeGo_le WIDTH ((addr + actualInitialSz c) >>> addrIndexShift c)
  simp only [addrIndex, leadingZeros, bitLength] at *
  omega

/-- Core computation: for any address inside the word, the bit trick of
Addr::index equals the log2 reference formula. -/
theorem addrIndex_eq_spec (c : Params) (h : cfgOk c) (addr : Nat)
    (haddr : addr ≤ addrBits c) :
    addrIndex c addr = addrIndexSpec c addr := by
  obtain ⟨hElt, hshift, haddrlen, hgs, hgw, _, _, _, _⟩ := cfgFacts c h
  have hpow := actualInitialSz_eq_pow c
  have halw : addrLen c < WIDTH := by
    simp only [genShift, tidShift] at *
    omega
  set p := szExp c with hp
  set x := addr + actualInitialSz c with hx
  have hxw : x < 2 ^ WIDTH := by
    have h1 : addr < 2 ^ addrLen c := by
      simp only [addrBits, fieldBits] at haddr
      have : (0:Nat) < 2 ^ addrLen c := Nat.pos_pow_of_pos _ (by norm_num)
      omega
    have h2 : actualInitialSz c ≤ 2 ^ addrLen c := by
      rw [hpow]
      exact Nat.pow_le_pow_right (by norm_num) (by omega)
    have h3 : (2:Nat) ^ addrLen c + 2 ^ addrLen c ≤ 2 ^ WIDTH := by
      have : (2:Nat) ^ (addrLen c + 1) ≤ 2 ^ WIDTH :=
        Nat.pow_le_pow_right (by norm_num) (by omega)
      rw [Nat.pow_succ] at this
      omega
    omega
  set y := x / 2 ^ p with hy
  have hy1 : 1 ≤ y := by
    have : 2 ^ p ≤ x := by
      rw [hx, hpow]
      omega
    rw [hy]
    exact Nat.one_le_div_iff (Nat.pos_pow_of_pos _ (by norm_num)) |>.mpr this
  have hyw : y < 2 ^ WIDTH := by
    have : y ≤ x := Nat.div_le_self x (2 ^ p)
    omega
  have hshr : x >>> addrIndexShift c = y / 2 := by
    rw [hshift, Nat.shiftRight_eq_div_pow, hy]
    rw [Nat.pow_succ]
    rw [Nat.div_div_eq_div_mul]
  rw [addrIndex_eq_bitLength, addrIndexSpec]
  rw [← hx, ← hpow] at *
  rw [hshr]
  rw [show x / actualInitialSz c = y by rw [hy, hpow]]
  exact bitLength_half_eq_log2 y hy1 hyw

/-! ### Page geometry (Shard::new prev_sz fold, src/shard.rs lines 76-88) -/

/-- Sum of the sizes of all pages before page i: the running total_sz in
Shard::new, which becomes each page's prev_sz. -/
def prevSzSum (c : Params) : Nat → Nat
  | 0 => 0
  | i + 1 => prevSzSum c i + pageSize c i

theorem prevSzSum_eq (c : Params) (i : Nat) :
    prevSzSum c i = actualInitialSz c * (2 ^ i - 1) := by
  induction i with
  | zero => simp [prevSzSum]
  | succ i ih =>
    simp only [prevSzSum, ih, pageSize]
    have h1 : (1 : Nat) ≤ 2 ^ i := Nat.one_le_two_pow
    have : (2:Nat) ^ (i + 1) = 2 ^ i + 2 ^ i := by rw [Nat.pow_succ]; omega
    rw [this]
    rw [Nat.mul_sub_one, Nat.mul_sub_one]
    have h2 : actualInitialSz c ≤ actualInitialSz c * 2 ^ i :=
      Nat.le_mul_of_pos_right _ (Nat.pos_pow_of_pos _ (by norm_num))
    rw [Nat.mul_add]
    omega

theorem pageSize_pos (c : Params) (i : Nat) : 0 < pageSize c i := by
  rw [pageSize, actualInitialSz_eq_pow]
  exact Nat.mul_pos (Nat.pos_pow_of_pos _ (by norm_num)) (Nat.pos_pow_of_pos _ (by norm_num))

/-- An address formed from a page-local offset decodes back to that page:
addresses prev_sz(i) + off with off < page_size(i) have page index i. -/
theorem addrIndex_of_offset (c : Params) (h : cfgOk c) (i off : Nat)
    (hi : i < c.maxPages) (hoff : off < pageSize c i) :
    addrIndex c (prevSzSum c i + off) = i := by
  obtain ⟨hElt, hshift, haddrlen, hgs, hgw, hgs2, hgtile, hreftile, hlcw⟩ := cfgFacts c h
  have hpow := actualInitialSz_eq_pow c
  have hIpos : 0 < actualInitialSz c := by
    rw [hpow]; exact Nat.pos_pow_of_pos _ (by norm_num)
  have hprev := prevSzSum_eq c i
  have hoffX : off < actualInitialSz c * 2 ^ i := by simpa [pageSize] using hoff
  have hIle : actualInitialSz c ≤ actualInitialSz c * 2 ^ i :=
    Nat.le_mul_of_pos_right _ (Nat.pos_pow_of_pos _ (by norm_num))
  have hprevX : prevSzSum c i + actualInitialSz c = actualInitialSz c * 2 ^ i := by
    rw [hprev, Nat.mul_sub, Nat.mul_one]
    omega
  have hdouble : actualInitialSz c * 2 ^ (i + 1) = actualInitialSz c * 2 ^ i * 2 := by
    rw [Nat.pow_succ, Nat.mul_assoc]
  have hbound : actualInitialSz c * 2 ^ (i + 1) ≤ 2 ^ addrLen c := by
    rw [hpow, ← Nat.pow_add]
    exact Nat.pow_le_pow_right (by norm_num) (by omega)
  have h2X : actualInitialSz c * 2 ^ i * 2 ≤ 2 ^ addrLen c := hdouble ▸ hbound
  have hbits : addrBits c = 2 ^ addrLen c - 1 := rfl
  have hpw : (0:Nat) < 2 ^ addrLen c := Nat.pos_pow_of_pos _ (by norm_num)
  have haddr_le : prevSzSum c i + off ≤ addrBits c := by
    rw [hbits]
    omega
  rw [addrIndex_eq_spec c h _ haddr_le, addrIndexSpec]
  have hnum : prevSzSum c i + off + actualInitialSz c
      = actualInitialSz c * 2 ^ i + off := by
    omega
  rw [hnum]
  have hdiv : (actualInitialSz c * 2 ^ i + off) / actualInitialSz c
      = 2 ^ i + off / actualInitialSz c := by
    rw [Nat.add_comm, Nat.mul_comm, Nat.add_mul_div_right off (2 ^ i) hIpos, Nat.add_comm]
  rw [hdiv]
  have hoffI : off / actualInitialSz c < 2 ^ i := by
    apply Nat.div_lt_iff_lt_mul hIpos |>.mpr
    rw [Nat.mul_comm]
    exact hoffX
  have hpos : (0:Nat) < 2 ^ i := Nat.pos_pow_of_pos _ (by norm_num)
  have hne : 2 ^ i + off / actualInitialSz c ≠ 0 := by
    have h0 : 0 < 2 ^ i + off / actualInitialSz c :=
      Nat.lt_of_lt_of_le hpos (Nat.le_add_right _ _)
    exact Nat.pos_iff_ne_zero.mp h0
  have hlb : (2:Nat) ^ i ≤ 2 ^ i + off / actualInitialSz c := Nat.le_add_right _ _
  have hub : 2 ^ i + off / actualInitialSz c < 2 ^ (i + 1) := by
    rw [Nat.pow_succ]
    omega
  have hle := (Nat.le_log2 hne).mpr hlb
  have hlt := (Nat.log2_lt hne).mpr hub
  omega

/-- The previous-pages total of the page an address decodes to never
exceeds the address itself: the local-offset subtraction is safe. -/
theorem prevSzSum_addrIndex_le (c : Params) (h : cfgOk c) (addr : Nat)
    (haddr : addr ≤ addrBits c) :
    prevSzSum c (addrIndex c addr) ≤ addr := by
  have hpow := actualInitialSz_eq_pow c
  have hIpos : 0 < actualInitialSz c := by
    rw [hpow]; exact Nat.pos_pow_of_pos _ (by norm_num)
  rw [addrIndex_eq_spec c h addr haddr, addrIndexSpec, prevSzSum_eq]
  have hy1 : (addr + actualInitialSz c) / actualInitialSz c ≠ 0 := by
    have h1 : actualInitialSz c ≤ addr + actualInitialSz c := Nat.le_add_left _ _
    have h2 := Nat.one_le_div_iff hIpos |>.mpr h1
    omega
  have hlog : 2 ^ Nat.log2 ((addr + actualInitialSz c) / actualInitialSz c)
      ≤ (addr + actualInitialSz c) / actualInitialSz c := Nat.log2_self_le hy1
  have hmul : (addr + actualInitialSz c) / actualInitialSz c * actualInitialSz c
      ≤ addr + actualInitialSz c := Nat.div_mul_le_self _ _
  have h2 : actualInitialSz c * 2 ^ Nat.log2 ((addr + actualInitialSz c) / actualInitialSz c)
      ≤ actualInitialSz c * ((addr + actualInitialSz c) / actualInitialSz c) :=
    Nat.mul_le_mul_left _ hlog
  have hcomm : actualInitialSz c * ((addr + actualInitialSz c) / actualInitialSz c)
      = (addr + actualInitialSz c) / actualInitialSz c * actualInitialSz c := Nat.mul_comm _ _
  have hms : actualInitialSz c * (2 ^ Nat.log2 ((addr + actualInitialSz c) / actualInitialSz c) - 1)
      = actualInitialSz c * 2 ^ Nat.log2 ((addr + actualInitialSz c) / actualInitialSz c)
        - actualInitialSz c := by
    rw [Nat.mul_sub]
    omega
  omega

/-! ### Slot state and operations (src/page/slot.rs)

Operations return in Option, with none standing for a panicked or (in a
single-threaded execution) forever-spinning run. Compare-exchange loops
take their first branch: in the sequential model no other thread can
modify the word between the load and the CAS. -/

/-- One slot: the atomic lifecycle word, the free list link, the value. -/
structure SlotState (α : Type) where
  lifecycle : Nat
  next : Nat
  item : Option α
deriving DecidableEq

/-- The refcount-incremented lifecycle word in the aligned layout: the
generation is re-packed at LifecycleGen's position, where it was read
from. This is the word the successful CAS in Slot::get installs when
RESERVED_BITS = 0; the source expression itself (getCasWord below)
packs the generation through Generation's Pack impl at the key-layout
position, which sits RESERVED_BITS bits lower. The two agree exactly
when RESERVED_BITS = 0, the layout in which every generation-advancing
path of the code terminates and which the sequential model therefore
uses throughout. -/
def getAcquireWord (c : Params) (w : Nat) : Nat :=
  packRefW c (wRefs c w + 1) (packGenW c (wGen c w) (packStateW (lcState w) 0))

/-- The word installed by the successful CAS in Slot::get, embedding the
source expression new_refs.pack(current_gen.pack(state.pack(0)))
(src/page/slot.rs line 129) verbatim: current_gen is a Generation
value, so its pack uses Generation's Pack impl, whose shift is the
key-layout shift Tid::SHIFT + Tid::LEN (src/page/slot.rs lines 51-56)
rather than LifecycleGen's shift of 2 + RefCount::LEN at which the
generation was read on line 95. -/
def getCasWord (c : Params) (w : Nat) : Nat :=
  packRefW c (wRefs c w + 1)
    (packField (genLen c) (genShift c) (packStateW (lcState w) 0) (wGen c w))

/-- Slot::get (src/page/slot.rs lines 90-158). The returned pair is the
updated slot and the value the guard dereferences to (none when the get
fails). The outer none models the unreachable! panic on lifecycle state
0b10. -/
def slotGet (c : Params) (gen : Nat) (s : SlotState α) : Option (SlotState α × Option α) :=
  let w := s.lifecycle
  if lcState w = 2 then none
  else if gen ≠ wGen c w ∨ lcState w ≠ stNotRemoved then some (s, none)
  else if refMax c ≤ wRefs c w then some (s, none)
  else some ({ s with lifecycle := getAcquireWord c w }, s.item)

/-- Slot::insert (src/page/slot.rs lines 166-216): fails when the slot
is referenced; otherwise sets state NOT_REMOVED at the current
generation and stores the value, returning the generation. -/
def slotInsertOp (c : Params) (s : SlotState α) (v : α) : SlotState α × Option Nat :=
  let w := s.lifecycle
  let gen := wGen c w
  if wRefs c w ≠ 0 then (s, none)
  else ({ s with lifecycle := packGenW c gen (packStateW stNotRemoved 0), item := some v },
        some gen)

/-- Slot::remove_value (src/page/slot.rs lines 287-352), sequential:
advance the generation, then (the reference count being zero, since no
other thread can drop a reference) take the value. The third component
tells the caller to push the offset onto its free list. The outer none
covers the modulus-zero panic of Generation::advance and the spin loop
that never terminates when a reference is outstanding. -/
def slotRemoveValueSeq (c : Params) (gen : Nat) (s : SlotState α) :
    Option (SlotState α × Option α × Bool) :=
  if fieldBits (genLen c) = 0 then none
  else
    let w := s.lifecycle
    if gen ≠ wGen c w then some (s, none, false)
    else if wRefs c w ≠ 0 then none
    else some ({ s with lifecycle := packGenW c (genAdvance c gen) w, item := none },
               s.item, true)

/-- Slot::remove (src/page/slot.rs lines 224-284), sequential: mark the
slot, then if no references are outstanding remove the value at once.
Returns (slot, reported success, pushed-to-free-list). -/
def slotRemoveSeq (c : Params) (gen : Nat) (s : SlotState α) :
    Option (SlotState α × Bool × Bool) :=
  let w := s.lifecycle
  if gen ≠ wGen c w then some (s, false, false)
  else
    let marked : SlotState α := { s with lifecycle := packStateW stMarked w }
    if 0 < wRefs c w then some (marked, true, false)
    else
      match slotRemoveValueSeq c (wGen c w) marked with
      | none => none
      | some (s2, item, pushed) => some (s2, item.isSome, pushed)

/-- Guard::release (src/page/slot.rs lines 424-466): if this is the last
reference and the slot is marked, move to Removing and report that the
deferred removal is owed; otherwise decrement the count. -/
def slotReleaseOp (c : Params) (s : SlotState α) : SlotState α × Bool :=
  let w := s.lifecycle
  if wRefs c w = 1 ∧ lcState w = stMarked then
    ({ s with lifecycle := packGenW c (wGen c w) stRemoving }, true)
  else
    ({ s with lifecycle := packRefW c (wRefs c w - 1) w }, false)

/-! ### Page state and operations (src/page/mod.rs, src/page/stack.rs) -/

/-- Shared page state plus the local free list head (page::Local is kept
in a parallel list on the shard, as in the source). -/
structure PageState (α : Type) where
  remote : Nat
  size : Nat
  prevSz : Nat
  slab : Option (List (SlotState α))
deriving DecidableEq

/-- The slot array built by Shared::allocate: slots 0..size-2 link to
their successor, the last slot links to NULL. -/
def freshSlots (c : Params) (size : Nat) : List (SlotState α) :=
  ((List.range (size - 1)).map (fun j => ⟨0, j + 1, none⟩)) ++ [⟨0, addrNull c, none⟩]

/-- Shared::new. -/
def pageNew (c : Params) (size prevSz : Nat) : PageState α :=
  ⟨addrNull c, size, prevSz, none⟩

/-- TransferStack::pop_all: swap the head with NULL. -/
def popAll (c : Params) (P : PageState α) : PageState α × Option Nat :=
  ({ P with remote := addrNull c },
   if P.remote = addrNull c then none else some P.remote)

/-- Shared::get_head: local head if the local list is nonempty, else
drain the transfer stack; either way a NULL head means the page is full. -/
def getHead (c : Params) (lh : Nat) (P : PageState α) : PageState α × Option Nat :=
  let step := if lh < P.size then (P, some lh) else popAll c P
  match step with
  | (P1, none) => (P1, none)
  | (P1, some hd) => (P1, if hd = addrNull c then none else some hd)

/-- Shared::insert (src/page/mod.rs lines 249-267): take a free slot,
lazily allocating the slot array, insert into it, advance the local
head to the slot's next link, and pack the new index. Returns
(new local head, new page, optional packed index); outer none is the
slab[head] index panic. -/
def pageInsert (c : Params) (lh : Nat) (P : PageState α) (v : α) :
    Option (Nat × PageState α × Option Nat) :=
  match getHead c lh P with
  | (P1, none) => some (lh, P1, none)
  | (P1, some head) =>
    let P2 := if P1.slab.isNone then { P1 with slab := some (freshSlots c P1.size) } else P1
    match P2.slab with
    | none => none
    | some slots =>
      match slots.get? head with
      | none => none
      | some slot =>
        let (slot2, genOpt) := slotInsertOp c slot v
        let newLh := slot2.next
        let P3 := { P2 with slab := some (slots.set head slot2) }
        match genOpt with
        | none => some (newLh, P3, none)
        | some gen => some (newLh, P3, some (packGenK c gen (head + P3.prevSz)))

/-- Shared::get (src/page/mod.rs lines 269-281). -/
def pageGet (c : Params) (P : PageState α) (addr key : Nat) :
    Option (PageState α × Option α) :=
  let poff := addr - P.prevSz
  match P.slab with
  | none => some (P, none)
  | some slots =>
    match slots.get? poff with
    | none => some (P, none)
    | some slot =>
      match slotGet c (unpackGen c key) slot with
      | none => none
      | some (slot2, res) => some ({ P with slab := some (slots.set poff slot2) }, res)

/-- Shared::remove (src/page/mod.rs lines 283-301) with the caller's
choice of free list: the local list (isLocal, updating the local head)
or the page transfer stack. -/
def pageRemove (c : Params) (isLocal : Bool) (lh : Nat) (P : PageState α)
    (addr gen : Nat) : Option (Nat × PageState α × Bool) :=
  let offset := addr - P.prevSz
  match P.slab with
  | none => some (lh, P, false)
  | some slots =>
    match slots.get? offset with
    | none => some (lh, P, false)
    | some slot =>
      match slotRemoveSeq c gen slot with
      | none => none
      | some (slot2, ok, pushed) =>
        if pushed then
          if isLocal then
            some (offset, { P with slab := some (slots.set offset { slot2 with next := lh }) }, ok)
          else
            let P2 : PageState α :=
              { remote := offset, size := P.size, prevSz := P.prevSz,
                slab := some (slots.set offset { slot2 with next := P.remote }) }
            some (lh, P2, ok)
        else
          some (lh, { P with slab := some (slots.set offset slot2) }, ok)

/-- Shared::take (src/page/mod.rs lines 303-321) with the caller's
choice of free list. -/
def pageTake (c : Params) (isLocal : Bool) (lh : Nat) (P : PageState α)
    (addr gen : Nat) : Option (Nat × PageState α × Option α) :=
  let offset := addr - P.prevSz
  match P.slab with
  | none => some (lh, P, none)
  | some slots =>
    match slots.get? offset with
    | none => some (lh, P, none)
    | some slot =>
      match slotRemoveValueSeq c gen slot with
      | none => none
      | some (slot2, res, pushed) =>
        if pushed then
          if isLocal then
            some (offset, { P with slab := some (slots.set offset { slot2 with next := lh }) }, res)
          else
            let P2 : PageState α :=
              { remote := offset, size := P.size, prevSz := P.prevSz,
                slab := some (slots.set offset { slot2 with next := P.remote }) }
            some (lh, P2, res)
        else
          some (lh, { P with slab := some (slots.set offset slot2) }, res)

/-! ### Shard and slab states and operations (src/shard.rs, src/lib.rs) -/

/-- A shard: thread id, local free list heads, shared page states. -/
structure ShardState (α : Type) where
  tid : Nat
  localHeads : List Nat
  shared : List (PageState α)
deriving DecidableEq

/-- The whole slab: one shard per possible thread id. -/
structure SlabState (α : Type) where
  shards : List (ShardState α)
deriving DecidableEq

/-- Shard::new (src/shard.rs lines 76-88): pages of doubling sizes with
running previous-size totals, local heads all zero. -/
def shardNew (c : Params) (tid : Nat) : ShardState α :=
  ⟨tid, List.replicate c.maxPages 0,
   (List.range c.maxPages).map (fun i => pageNew c (pageSize c i) (prevSzSum c i))⟩

/-- Slab::new_with_config (src/lib.rs lines 259-266): MAX_SHARDS shards. -/
def slabNew (c : Params) : SlabState α :=
  ⟨(List.range (maxShards c)).map (fun i => shardNew c i)⟩

/-- Shard::insert (src/lib.rs lines 513-528): first-fit over pages in
ascending order; the loop is fueled by the page count. -/
def shardInsertLoop (c : Params) (v : α) : Nat → Nat → ShardState α →
    Option (ShardState α × Option Nat)
  | 0, _, sh => some (sh, none)
  | fuel + 1, i, sh =>
    match sh.shared.get? i with
    | none => some (sh, none)
    | some P =>
      match sh.localHeads.get? i with
      | none => none
      | some lh =>
        match pageInsert c lh P v with
        | none => none
        | some (lh2, P2, res) =>
          let sh2 : ShardState α := ⟨sh.tid, sh.localHeads.set i lh2, sh.shared.set i P2⟩
          match res with
          | none => shardInsertLoop c v fuel (i + 1) sh2
          | some packed => some (sh2, some packed)

/-- Entry point of the page loop. -/
def shardInsert (c : Params) (sh : ShardState α) (v : α) :
    Option (ShardState α × Option Nat) :=
  shardInsertLoop c v sh.shared.length 0 sh

/-- Shard::get (src/lib.rs lines 530-546): bound check with a strict
greater-than (the off-by-one), then index into the pages. The outer
none is the panic of self.shared[page_index] when page_index equals the
page count. -/
def shardGet (c : Params) (sh : ShardState α) (key : Nat) :
    Option (ShardState α × Option α) :=
  let addr := unpackAddr c key
  let pageIndex := addrIndex c addr
  if sh.shared.length < pageIndex then some (sh, none)
  else
    match sh.shared.get? pageIndex with
    | none => none
    | some P =>
      match pageGet c P addr key with
      | none => none
      | some (P2, res) => some ({ sh with shared := sh.shared.set pageIndex P2 }, res)

/-- Shard::remove_local (src/shard.rs lines 120-129): same bound check
pattern, local free list. -/
def shardRemoveLocal (c : Params) (sh : ShardState α) (key : Nat) :
    Option (ShardState α × Bool) :=
  let addr := unpackAddr c key
  let pageIndex := addrIndex c addr
  if sh.shared.length < pageIndex then some (sh, false)
  else
    match sh.shared.get? pageIndex, sh.localHeads.get? pageIndex with
    | some P, some lh =>
      match pageRemove c true lh P addr (unpackGen c key) with
      | none => none
      | some (lh2, P2, ok) =>
        some (⟨sh.tid, sh.localHeads.set pageIndex lh2, sh.shared.set pageIndex P2⟩, ok)
    | _, _ => none

/-- Shard::remove_remote (src/shard.rs lines 131-141): remote path,
pushes onto the page transfer stack. -/
def shardRemoveRemote (c : Params) (sh : ShardState α) (key : Nat) :
    Option (ShardState α × Bool) :=
  let addr := unpackAddr c key
  let pageIndex := addrIndex c addr
  if sh.shared.length < pageIndex then some (sh, false)
  else
    match sh.shared.get? pageIndex with
    | none => none
    | some P =>
      match pageRemove c false 0 P addr (unpackGen c key) with
      | none => none
      | some (_, P2, ok) => some ({ sh with shared := sh.shared.set pageIndex P2 }, ok)

/-- Shard::take_local (src/shard.rs lines 97-106): checked page lookup,
local free list. -/
def shardTakeLocal (c : Params) (sh : ShardState α) (key : Nat) :
    Option (ShardState α × Option α) :=
  let addr := unpackAddr c key
  let pageIndex := addrIndex c addr
  match sh.shared.get? pageIndex with
  | none => some (sh, none)
  | some P =>
    match sh.localHeads.get? pageIndex with
    | none => none
    | some lh =>
      match pageTake c true lh P addr (unpackGen c key) with
      | none => none
      | some (lh2, P2, res) =>
        some (⟨sh.tid, sh.localHeads.set pageIndex lh2, sh.shared.set pageIndex P2⟩, res)

/-- Shard::take_remote (src/shard.rs lines 108-118). -/
def shardTakeRemote (c : Params) (sh : ShardState α) (key : Nat) :
    Option (ShardState α × Option α) :=
  let addr := unpackAddr c key
  let pageIndex := addrIndex c addr
  match sh.shared.get? pageIndex with
  | none => some (sh, none)
  | some P =>
    match pageTake c false 0 P addr (unpackGen c key) with
    | none => none
    | some (_, P2, res) => some ({ sh with shared := sh.shared.set pageIndex P2 }, res)

/-- Slab::insert (src/lib.rs lines 300-306): the current thread (id 0 in
this model) inserts into its own shard and packs its thread id. -/
def slabInsert (c : Params) (S : SlabState α) (v : α) :
    Option (SlabState α × Option Nat) :=
  match S.shards.get? 0 with
  | none => none
  | some sh =>
    match shardInsert c sh v with
    | none => none
    | some (sh2, res) =>
      some (⟨S.shards.set 0 sh2⟩, res.map (fun idx => packTidK c 0 idx))

/-- Slab::get (src/lib.rs lines 434-439): checked shard lookup, then
Shard::get. The result is the value the returned guard dereferences to. -/
def slabGet (c : Params) (S : SlabState α) (key : Nat) :
    Option (SlabState α × Option α) :=
  let tid := unpackTid c key
  match S.shards.get? tid with
  | none => some (S, none)
  | some sh =>
    match shardGet c sh key with
    | none => none
    | some (sh2, res) => some (⟨S.shards.set tid sh2⟩, res)

/-- Slab::take (src/lib.rs lines 408-418): an unchecked index into the
shard table (the panic for out-of-range thread ids), then the local or
remote removal path depending on the calling thread. -/
def slabTake (c : Params) (S : SlabState α) (key : Nat) :
    Option (SlabState α × Option α) :=
  let tid := unpackTid c key
  match S.shards.get? tid with
  | none => none
  | some sh =>
    match (if tid = 0 then shardTakeLocal c sh key else shardTakeRemote c sh key) with
    | none => none
    | some (sh2, res) => some (⟨S.shards.set tid sh2⟩, res)

/-- Slab::remove (src/lib.rs lines 351-359): checked shard lookup
(false when absent), then the mark-removal path on the shard, local or
remote by calling thread as in src/shard.rs. -/
def slabRemove (c : Params) (S : SlabState α) (key : Nat) :
    Option (SlabState α × Bool) :=
  let tid := unpackTid c key
  match S.shards.get? tid with
  | none => some (S, false)
  | some sh =>
    match (if tid = 0 then shardRemoveLocal c sh key else shardRemoveRemote c sh key) with
    | none => none
    | some (sh2, ok) => some (⟨S.shards.set tid sh2⟩, ok)

/-- Guard::drop (src/lib.rs lines 629-641): release the slot reference;
if this was the last reference of a marked slot, run the deferred
removal through the local or remote take path, discarding the value. -/
def slabReleaseGuard (c : Params) (S : SlabState α) (key : Nat) :
    Option (SlabState α) :=
  let tid := unpackTid c key
  let addr := unpackAddr c key
  let pageIndex := addrIndex c addr
  match S.shards.get? tid with
  | none => none
  | some sh =>
    match sh.shared.get? pageIndex with
    | none => none
    | some P =>
      match P.slab with
      | none => none
      | some slots =>
        match slots.get? (addr - P.prevSz) with
        | none => none
        | some slot =>
          let (slot2, dropping) := slotReleaseOp c slot
          let P2 := { P with slab := some (slots.set (addr - P.prevSz) slot2) }
          let sh2 := { sh with shared := sh.shared.set pageIndex P2 }
          let S2 : SlabState α := ⟨S.shards.set tid sh2⟩
          if dropping then
            match S2.shards.get? tid with
            | none => none
            | some sh3 =>
              match (if tid = 0 then shardTakeLocal c sh3 key else shardTakeRemote c sh3 key) with
              | none => none
              | some (sh4, _) => some ⟨S2.shards.set tid sh4⟩
          else some S2

/-! ### Operation sequences -/

/-- One public slab operation. -/
inductive Op (α : Type) where
  | ins : α → Op α
  | get : Nat → Op α
  | rm : Nat → Op α
  | take : Nat → Op α
deriving DecidableEq

/-- The result of one operation. -/
inductive OpResult (α : Type) where
  | key : Option Nat → OpResult α
  | got : Option α → OpResult α
  | removed : Bool → OpResult α
  | took : Option α → OpResult α
deriving DecidableEq

/-- Execute one operation. A get is the full guard lifecycle: acquire,
read, and release (including any deferred removal the release owes). -/
def stepOp (c : Params) (S : SlabState α) : Op α → Option (SlabState α × OpResult α)
  | .ins v => (slabInsert c S v).map (fun p => (p.1, .key p.2))
  | .get k =>
    match slabGet c S k with
    | none => none
    | some (S1, none) => some (S1, .got none)
    | some (S1, some v) =>
      match slabReleaseGuard c S1 k with
      | none => none
      | some S2 => some (S2, .got (some v))
  | .rm k => (slabRemove c S k).map (fun p => (p.1, .removed p.2))
  | .take k => (slabTake c S k).map (fun p => (p.1, .took p.2))

/-- Execute a list of operations, collecting the results. -/
def runOps (c : Params) : SlabState α → List (Op α) →
    Option (SlabState α × List (OpResult α))
  | S, [] => some (S, [])
  | S, op :: ops =>
    match stepOp c S op with
    | none => none
    | some (S1, r) => (runOps c S1 ops).map (fun p => (p.1, r :: p.2))

/-! ### Supporting lemmas for the packing claims -/

/-- The complement of a field mask inside the word. -/
def notMask (len shift : Nat) : Nat := (2 ^ WIDTH - 1) ^^^ fieldMask len shift

theorem testBit_notMask (len shift i : Nat) (hfit : shift + len ≤ WIDTH) :
    (notMask len shift).testBit i
      = (decide (i < WIDTH) && !(decide (shift ≤ i) && decide (i < shift + len))) := by
  simp only [notMask, Nat.testBit_xor, testBit_fieldMask, Nat.testBit_two_pow_sub_one]
  rcases Nat.lt_or_ge i WIDTH with h | h
  · simp [h]
  · have hnot : ¬ i < WIDTH := Nat.not_lt.mpr h
    simp [hnot]
    omega

/-- Pack as a masked equation: all bits outside the packed field are the
bits of the carrier. -/
theorem packField_and_notMask (len shift dst value : Nat)
    (hv : value ≤ fieldBits len) (hdst : dst < 2 ^ WIDTH) (hfit : shift + len ≤ WIDTH) :
    packField len shift dst value &&& notMask len shift = dst &&& notMask len shift := by
  apply Nat.eq_of_testBit_eq
  intro i
  simp only [Nat.testBit_land]
  rcases Nat.lt_or_ge i WIDTH with hiw | hiw
  · by_cases hfield : shift ≤ i ∧ i < shift + len
    · have : (notMask len shift).testBit i = false := by
        rw [testBit_notMask len shift i hfit]
        simp [hiw, hfield.1, hfield.2]
      simp [this]
    · have hout : i < shift ∨ shift + len ≤ i := by omega
      rw [packField_testBit_outside len shift dst value i hv hdst hout]
  · have : (notMask len shift).testBit i = false := by
      rw [testBit_notMask len shift i hfit]
      simp [Nat.not_lt.mpr hiw]
    simp [this]

/-- Packing the same field twice: the first write is fully overwritten. -/
theorem packField_packField_same (len shift dst v1 v2 : Nat)
    (hv1 : v1 ≤ fieldBits len) (hv2 : v2 ≤ fieldBits len)
    (hdst : dst < 2 ^ WIDTH) (hfit : shift + len ≤ WIDTH) :
    packField len shift (packField len shift dst v1) v2 = packField len shift dst v2 := by
  have h1 : packField len shift dst v1 < 2 ^ WIDTH :=
    packField_lt_two_pow len shift dst v1 hv1 hdst hfit
  apply Nat.eq_of_testBit_eq
  intro i
  by_cases hfield : shift ≤ i ∧ i < shift + len
  · rw [packField_testBit_inside len shift _ v2 i hv2 hfit hfield.1 hfield.2,
        packField_testBit_inside len shift dst v2 i hv2 hfit hfield.1 hfield.2]
  · have hout : i < shift ∨ shift + len ≤ i := by omega
    rw [packField_testBit_outside len shift _ v2 i hv2 h1 hout,
        packField_testBit_outside len shift dst v1 i hv1 hdst hout,
        packField_testBit_outside len shift dst v2 i hv2 hdst hout]

/-- next_pow2 is the identity on powers of two inside the word. -/
theorem nextPow2_two_pow (k : Nat) (hk : k < WIDTH) : nextPow2 (2 ^ k) = 2 ^ k := by
  have hpop : popCount (2 ^ k) = 1 := popGo_two_pow WIDTH k hk
  have hsz : sizeGo WIDTH (2 ^ k) = k + 1 := sizeGo_two_pow WIDTH k hk
  have hlz : leadingZeros (2 ^ k) = WIDTH - (k + 1) := by
    rw [leadingZeros, bitLength, hsz]
  have he : npExp (2 ^ k) = k := by
    simp only [npExp, hpop, hlz, if_pos]
    omega
  rw [nextPow2_eq_pow, he]

/-- Total size of one shard: the total_sz accumulated by the Shard::new
fold over all MAX_PAGES pages. -/
def shardTotalSz (c : Params) : Nat := prevSzSum c c.maxPages

/-- Total addressable slots of the slab: MAX_SHARDS shards (from
Slab::new_with_config) of shardTotalSz slots each. -/
def slabTotalSlots (c : Params) : Nat := maxShards c * shardTotalSz c

/-- Iterating Generation::advance from zero counts modulo BITS
(BITS = 2^LEN - 1). -/
theorem genAdvance_iterate (c : Params) (n : Nat) :
    (genAdvance c)^[n] 0 = n % fieldBits (genLen c) := by
  induction n with
  | zero => simp
  | succ n ih =>
    rw [Function.iterate_succ_apply', ih, genAdvance]
    have hdm := Nat.div_add_mod n (fieldBits (genLen c))
    have hsplit : n + 1 = (n % fieldBits (genLen c) + 1)
        + fieldBits (genLen c) * (n / fieldBits (genLen c)) := by omega
    rw [hsplit, Nat.add_mul_mod_self_left]

/-! ### Claim theorems: the bit-packing and geometry claims -/

/-- Claim C6: for every (address, thread id, generation) triple fitting
its declared field widths and every carrier word, packing all three and
unpacking each yields the original values, and each single pack leaves
every carrier bit outside that field's own mask unchanged. -/
theorem c6_key_pack_roundtrip_and_frame (c : Params) (h : cfgOk c)
    (a t g w : Nat)
    (ha : a ≤ fieldBits (addrLen c)) (ht : t ≤ fieldBits (tidLen c))
    (hg : g ≤ fieldBits (genLen c)) (hw : w < 2 ^ WIDTH) :
    unpackAddr c (packTidK c t (packGenK c g (packAddrK c a w))) = a ∧
    unpackTid c (packTidK c t (packGenK c g (packAddrK c a w))) = t ∧
    unpackGen c (packTidK c t (packGenK c g (packAddrK c a w))) = g ∧
    packAddrK c a w &&& notMask (addrLen c) 0 = w &&& notMask (addrLen c) 0 ∧
    packGenK c g (packAddrK c a w) &&& notMask (genLen c) (genShift c)
      = packAddrK c a w &&& notMask (genLen c) (genShift c) ∧
    packTidK c t (packGenK c g (packAddrK c a w)) &&& notMask (tidLen c) (tidShift c)
      = packGenK c g (packAddrK c a w) &&& notMask (tidLen c) (tidShift c) := by
  obtain ⟨hElt, hshift, haddrlen, hgs, hgw, hgs2, hgtile, hreftile, hlcw⟩ := cfgFacts c h
  have hfitA : 0 + addrLen c ≤ WIDTH := by
    simp only [genShift, tidShift, tidLen] at *
    omega
  have hfitT : tidShift c + tidLen c ≤ WIDTH := by
    simp only [genShift] at hgw
    omega
  have hfitG : genShift c + genLen c ≤ WIDTH := hgw
  have hw1 : packAddrK c a w < 2 ^ WIDTH :=
    packField_lt_two_pow _ _ _ _ ha hw hfitA
  have hw2 : packGenK c g (packAddrK c a w) < 2 ^ WIDTH :=
    packField_lt_two_pow _ _ _ _ hg hw1 hfitG
  refine ⟨?_, ?_, ?_, ?_, ?_, ?_⟩
  · -- address: the tid and gen fields sit strictly above the address field
    rw [unpackAddr, packTidK,
      unpackField_packField_disjoint _ _ _ _ _ _ ht hw2 (by
        left
        simp only [tidShift]
        omega)]
    rw [packGenK,
      unpackField_packField_disjoint _ _ _ _ _ _ hg hw1 (by
        left
        simp only [genShift, tidShift] at *
        omega)]
    exact unpackField_packField _ _ _ _ ha hfitA
  · rw [unpackTid, packTidK, unpackField_packField _ _ _ _ ht hfitT]
  · rw [unpackGen, packTidK,
      unpackField_packField_disjoint _ _ _ _ _ _ ht hw2 (by
        right
        simp only [genShift]
        omega)]
    rw [packGenK, unpackField_packField _ _ _ _ hg hfitG]
  · exact packField_and_notMask _ _ _ _ ha hw hfitA
  · exact packField_and_notMask _ _ _ _ hg hw1 hfitG
  · exact packField_and_notMask _ _ _ _ ht hw2 hfitT

/-- Witness for claim C6 at a concrete input on the default
configuration. -/
theorem c6_witness :
    cfgOk defaultParams ∧ 12345 ≤ fieldBits (addrLen defaultParams) ∧
    unpackAddr defaultParams
      (packTidK defaultParams 77 (packGenK defaultParams 99
        (packAddrK defaultParams 12345 6148914691236517205))) = 12345 :=
  ⟨by decide, by decide,
   (c6_key_pack_roundtrip_and_frame defaultParams (by decide) 12345 77 99
     6148914691236517205 (by decide) (by decide) (by decide) (by decide)).1⟩

/-- Claim C7: the shift-and-leading-zeros page index computation of
Addr::index equals the reference floor(log2((addr + INITIAL_SZ) /
INITIAL_SZ)) for every address representable in the address field. -/
theorem c7_addr_index_eq_log2 (c : Params) (h : cfgOk c) (addr : Nat)
    (haddr : addr ≤ addrBits c) :
    addrIndex c addr = addrIndexSpec c addr :=
  addrIndex_eq_spec c h addr haddr

/-- Witness for claim C7: a concrete address on the default
configuration (page 3 of the ladder). -/
theorem c7_witness :
    cfgOk defaultParams ∧ 300 ≤ addrBits defaultParams ∧
    addrIndex defaultParams 300 = addrIndexSpec defaultParams 300 ∧
    addrIndex defaultParams 300 = 3 :=
  ⟨by decide, by decide, c7_addr_index_eq_log2 defaultParams (by decide) 300 (by decide),
   by decide⟩

/-- Claim C10: for every representable address whose page index is in
range, the prev_sz of the page it decodes to is at most the address, so
the local offset subtraction addr.offset() - prev_sz cannot underflow. -/
theorem c10_offset_subtraction_safe (c : Params) (h : cfgOk c) (addr : Nat)
    (haddr : addr ≤ addrBits c) (hrange : addrIndex c addr < c.maxPages) :
    prevSzSum c (addrIndex c addr) ≤ addr ∧
    ∀ t P, ((shardNew c t : ShardState Nat)).shared.get? (addrIndex c addr) = some P →
      P.prevSz ≤ addr := by
  have hmain := prevSzSum_addrIndex_le c h addr haddr
  refine ⟨hmain, ?_⟩
  intro t P hP
  have : ((shardNew c t : ShardState Nat)).shared.get? (addrIndex c addr)
      = some (pageNew c (pageSize c (addrIndex c addr)) (prevSzSum c (addrIndex c addr))) := by
    simp only [shardNew, List.get?_map]
    rw [List.get?_range hrange]
    rfl
  rw [this] at hP
  cases hP
  exact hmain

/-- Witness for claim C10: address 100 on the default configuration. -/
theorem c10_witness :
    cfgOk defaultParams ∧ 100 ≤ addrBits defaultParams ∧
    addrIndex defaultParams 100 < defaultParams.maxPages ∧
    prevSzSum defaultParams (addrIndex defaultParams 100) ≤ 100 :=
  ⟨by decide, by decide, by decide,
   (c10_offset_subtraction_safe defaultParams (by decide) 100 (by decide) (by decide)).1⟩

/-! ### Claims C5, C8, C9 -/

/-- Claim C5, counterexample: on the default configuration the
generation field is 13 bits wide, yet advancing generation 8190 yields
0, not (8190 + 1) mod 2^13 = 8191; the value 8191 = 2^13 - 1 is never
reached, because Generation::advance reduces modulo BITS = 2^13 - 1. -/
theorem c5_counterexample :
    genLen defaultParams = 13 ∧
    genAdvance defaultParams 8190 = 0 ∧
    (8190 + 1) % 2 ^ genLen defaultParams = 8191 ∧
    genAdvance defaultParams 8190 ≠ (8190 + 1) % 2 ^ genLen defaultParams := by
  decide

/-- Claim C5 as amended: Generation::advance is the successor modulo
2^GEN_BITS - 1 (the BITS constant of the field), so iterating it from
zero cycles through exactly the values in [0, 2^GEN_BITS - 1), each of
which is reachable. -/
theorem c5_generation_advance_cycle (c : Params) :
    (∀ n, (genAdvance c)^[n] 0 = n % fieldBits (genLen c)) ∧
    (∀ t, t < fieldBits (genLen c) → ∃ n, (genAdvance c)^[n] 0 = t) := by
  refine ⟨genAdvance_iterate c, ?_⟩
  intro t ht
  exact ⟨t, by rw [genAdvance_iterate c t, Nat.mod_eq_of_lt ht]⟩

/-- Witness for claim C5 at a concrete generation on the default
configuration. -/
theorem c5_witness :
    (genAdvance defaultParams)^[5] 0 = 5 % fieldBits (genLen defaultParams) ∧
    (∃ n, (genAdvance defaultParams)^[n] 0 = 8190) :=
  ⟨(c5_generation_advance_cycle defaultParams).1 5,
   (c5_generation_advance_cycle defaultParams).2 8190 (by decide)⟩

/-- Claim C8, counterexample: with MAX_THREADS = 3, MAX_PAGES = 1 and
INITIAL_PAGE_SIZE = 3, the slab holds next_pow2(3) = 4 shards of one
page of next_pow2(3) = 4 slots, i.e. 16 slots, while the claimed
formula INITIAL_PAGE_SIZE x (2^MAX_PAGES - 1) x MAX_THREADS yields 9. -/
theorem c8_counterexample :
    slabTotalSlots nonPow2Params = 16 ∧
    nonPow2Params.initialPageSize * (2 ^ nonPow2Params.maxPages - 1)
      * nonPow2Params.maxThreads = 9 ∧
    slabTotalSlots nonPow2Params
      ≠ nonPow2Params.initialPageSize * (2 ^ nonPow2Params.maxPages - 1)
        * nonPow2Params.maxThreads := by
  decide

/-- Claim C8 as amended: the total number of addressable slots equals
ACTUAL_INITIAL_SZ x (2^MAX_PAGES - 1) x MAX_SHARDS, where the page size
and thread count are first rounded up to powers of two by next_pow2
(so the original formula holds exactly when both inputs are powers of
two, next_pow2 being the identity there). -/
theorem c8_total_capacity (c : Params) :
    slabTotalSlots c
      = nextPow2 c.initialPageSize * (2 ^ c.maxPages - 1) * nextPow2 c.maxThreads := by
  rw [slabTotalSlots, shardTotalSz, prevSzSum_eq, maxShards, actualInitialSz]
  ring

/-- The aligned-layout refcount increment is a frame: it changes only
the refcount field of the lifecycle word, leaving the generation and
the two state bits as they were. -/
theorem getAcquireWord_frame (c : Params) (h : cfgOk c) (w : Nat)
    (hw : w < 2 ^ WIDTH) (hstate : lcState w = stNotRemoved)
    (hrefs : wRefs c w < refMax c) :
    getAcquireWord c w = packRefW c (wRefs c w + 1) w ∧
    wGen c (getAcquireWord c w) = wGen c w ∧
    lcState (getAcquireWord c w) = stNotRemoved ∧
    wRefs c (getAcquireWord c w) = wRefs c w + 1 := by
  obtain ⟨hElt, hshift, haddrlen, hgs, hgw, hgs2, hgtile, hreftile, hlcw⟩ := cfgFacts c h
  have hrfit : refShift + refLen c ≤ WIDTH := by
    simp only [refShift, stateLen] at *
    omega
  have hr1 : wRefs c w ≤ fieldBits (refLen c) := by
    have := unpackField_lt_two_pow (refLen c) refShift w
    simp only [wRefs, fieldBits] at *
    omega
  have hr2 : wRefs c w + 1 ≤ fieldBits (refLen c) := hrefs
  have hrebuild := lcRebuild c hreftile w hw
  have hmain : getAcquireWord c w = packRefW c (wRefs c w + 1) w := by
    have hginner : packGenW c (wGen c w) (packStateW (lcState w) 0) < 2 ^ WIDTH := by
      have hst : lcState w ≤ fieldBits stateLen := by
        have : w &&& 3 ≤ 3 := Nat.and_le_right
        simp only [lcState, fieldBits, stateLen]
        omega
      have hsfit : (0:Nat) + stateLen ≤ WIDTH := by simp only [stateLen, WIDTH]; omega
      have hgfit : lcGenShift c + genLen c ≤ WIDTH := by omega
      have hgb : wGen c w ≤ fieldBits (genLen c) := by
        have := unpackField_lt_two_pow (genLen c) (lcGenShift c) w
        simp only [wGen, fieldBits] at *
        omega
      exact packField_lt_two_pow _ _ _ _ hgb
        (packField_lt_two_pow _ _ _ _ hst (Nat.pos_pow_of_pos WIDTH (by norm_num)) hsfit) hgfit
    rw [getAcquireWord]
    calc packRefW c (wRefs c w + 1) (packGenW c (wGen c w) (packStateW (lcState w) 0))
        = packRefW c (wRefs c w + 1)
            (packRefW c (wRefs c w) (packGenW c (wGen c w) (packStateW (lcState w) 0))) :=
          (packField_packField_same (refLen c) refShift _ (wRefs c w) (wRefs c w + 1)
            hr1 hr2 hginner hrfit).symm
      _ = packRefW c (wRefs c w + 1) w := by rw [hrebuild]
  have hnew : packRefW c (wRefs c w + 1) w < 2 ^ WIDTH :=
    packField_lt_two_pow _ _ _ _ hr2 hw hrfit
  refine ⟨hmain, ?_, ?_, ?_⟩
  · rw [hmain, wGen, packRefW,
      unpackField_packField_disjoint _ _ _ _ _ _ hr2 hw (by
        right
        simp only [lcGenShift]
        omega)]
    rfl
  · rw [hmain]
    have : lcState (packRefW c (wRefs c w + 1) w) = lcState w := by
      have h1 : ∀ u, lcState u = unpackField 2 0 u := by
        intro u
        simp [lcState, unpackField, fieldMask, fieldBits, Nat.shiftLeft_eq, Nat.shiftRight_eq_div_pow]
      rw [h1, h1, packRefW,
        unpackField_packField_disjoint _ _ _ _ _ _ hr2 hw (by
          left
          simp only [refShift]
          omega)]
    rw [this, hstate]
  · rw [hmain, wRefs, packRefW, unpackField_packField _ _ _ _ hr2 hrfit]

/-- With no reserved bits, Generation's key-layout shift coincides with
LifecycleGen's shift, so the CAS packs the generation back where it was
read from. -/
theorem genShift_eq_lcGenShift (c : Params) (h : cfgOk c)
    (hrb : c.reservedBits = 0) : genShift c = lcGenShift c := by
  obtain ⟨_, _, _, _, hgw, _, _, _, hlcw⟩ := cfgFacts c h
  have hgl : genLen c = WIDTH - c.reservedBits - genShift c := rfl
  omega

/-- Counterexample to claim C9 as stated: the generation of a lifecycle
word is read at LifecycleGen's position (2 + RefCount::LEN), but the
successful-get CAS word packs it through Generation's Pack impl at the
key-layout position Tid::SHIFT + Tid::LEN, which sits RESERVED_BITS
bits lower, inside the refcount field; the refcount repack then erases
it. On the validated one-generation-bit configuration (RESERVED_BITS =
59), the word 2^63 has state NotRemoved, refcount 0 and stored
generation 1, satisfying every precondition of a successful get, yet
the installed word is 4: the generation field has been zeroed, and the
word is not the old word with only the refcount repacked. -/
theorem c9_counterexample :
    cfgOk oneGenBitParams ∧
    oneGenBitParams.reservedBits = 59 ∧
    lcState (2 ^ 63) = stNotRemoved ∧
    wRefs oneGenBitParams (2 ^ 63) < refMax oneGenBitParams ∧
    (2:Nat) ^ 63 < 2 ^ WIDTH ∧
    wGen oneGenBitParams (2 ^ 63) = 1 ∧
    getCasWord oneGenBitParams (2 ^ 63) = 4 ∧
    wGen oneGenBitParams (getCasWord oneGenBitParams (2 ^ 63)) = 0 ∧
    getCasWord oneGenBitParams (2 ^ 63)
      ≠ packRefW oneGenBitParams (wRefs oneGenBitParams (2 ^ 63) + 1) (2 ^ 63) := by
  decide

/-- Claim C9 (corrected): on configurations with RESERVED_BITS = 0 (the
default), a successful Slot::get CAS changes only the reference count
field of the lifecycle word, incrementing it by one; the generation and
the two state bits are unchanged (the state staying NotRemoved), and
the new word is literally the old word with only the refcount field
repacked. With RESERVED_BITS > 0 the claim fails: the CAS packs the
generation at Generation's key-layout shift rather than LifecycleGen's
read shift, zeroing the stored generation (see the counterexample). -/
theorem c9_get_acquire_frame (c : Params) (h : cfgOk c)
    (hrb : c.reservedBits = 0) (w : Nat)
    (hw : w < 2 ^ WIDTH) (hstate : lcState w = stNotRemoved)
    (hrefs : wRefs c w < refMax c) :
    getCasWord c w = packRefW c (wRefs c w + 1) w ∧
    wGen c (getCasWord c w) = wGen c w ∧
    lcState (getCasWord c w) = stNotRemoved ∧
    wRefs c (getCasWord c w) = wRefs c w + 1 := by
  have heq : getCasWord c w = getAcquireWord c w := by
    simp only [getCasWord, getAcquireWord, packGenW, genShift_eq_lcGenShift c h hrb]
  rw [heq]
  exact getAcquireWord_frame c h w hw hstate hrefs

/-- Witness for the amended claim C9: a lifecycle word with generation
3 and one outstanding reader on the reserved-bits-free miniature
configuration. -/
theorem c9_witness :
    tinyParams.reservedBits = 0 ∧
    lcState 52 = stNotRemoved ∧
    wRefs tinyParams 52 < refMax tinyParams ∧
    wRefs tinyParams (getCasWord tinyParams 52) = wRefs tinyParams 52 + 1 :=
  ⟨by decide, by decide, by decide,
   (c9_get_acquire_frame tinyParams (by decide) (by decide) 52
     (by decide) (by decide) (by decide)).2.2.2⟩

/-! ### Lifecycle word field lemmas -/

theorem lcState_eq_unpackField (w : Nat) : lcState w = unpackField 2 0 w := by
  simp [lcState, unpackField, fieldMask, fieldBits, Nat.shiftLeft_eq,
    Nat.shiftRight_eq_div_pow]

theorem lcState_le_three (w : Nat) : lcState w ≤ 3 := by
  have : w &&& 3 ≤ 3 := Nat.and_le_right
  simpa [lcState] using this

theorem wGen_lt (c : Params) (w : Nat) : wGen c w < 2 ^ genLen c :=
  unpackField_lt_two_pow _ _ w

theorem wRefs_lt (c : Params) (w : Nat) : wRefs c w < 2 ^ refLen c :=
  unpackField_lt_two_pow _ _ w

theorem wGen_le_bits (c : Params) (w : Nat) : wGen c w ≤ fieldBits (genLen c) := by
  have := wGen_lt c w
  simp only [fieldBits] at *
  have : (0:Nat) < 2 ^ genLen c := Nat.pos_pow_of_pos _ (by norm_num)
  omega

theorem wRefs_le_bits (c : Params) (w : Nat) : wRefs c w ≤ fieldBits (refLen c) := by
  have := wRefs_lt c w
  simp only [fieldBits] at *
  have : (0:Nat) < 2 ^ refLen c := Nat.pos_pow_of_pos _ (by norm_num)
  omega

/-- Facts a validated configuration gives about the lifecycle fields. -/
theorem lcFits (c : Params) (h : cfgOk c) :
    refShift + refLen c ≤ WIDTH ∧ lcGenShift c + genLen c ≤ WIDTH ∧
    (0:Nat) + stateLen ≤ WIDTH ∧ 2 ≤ lcGenShift c := by
  obtain ⟨_, _, _, _, hgw, _, _, hreftile, hlcw⟩ := cfgFacts c h
  simp only [refShift, stateLen, lcGenShift] at *
  omega

theorem packStateW_lt (c : Params) (h : cfgOk c) (st w : Nat) (hst : st ≤ 3)
    (hw : w < 2 ^ WIDTH) : packStateW st w < 2 ^ WIDTH :=
  packField_lt_two_pow _ _ _ _ (by simpa [fieldBits, stateLen] using hst) hw
    (lcFits c h).2.2.1

theorem packRefW_lt (c : Params) (h : cfgOk c) (r w : Nat)
    (hr : r ≤ fieldBits (refLen c)) (hw : w < 2 ^ WIDTH) :
    packRefW c r w < 2 ^ WIDTH :=
  packField_lt_two_pow _ _ _ _ hr hw (lcFits c h).1

theorem packGenW_lt (c : Params) (h : cfgOk c) (g w : Nat)
    (hg : g ≤ fieldBits (genLen c)) (hw : w < 2 ^ WIDTH) :
    packGenW c g w < 2 ^ WIDTH :=
  packField_lt_two_pow _ _ _ _ hg hw (lcFits c h).2.1

theorem wGen_packGenW (c : Params) (h : cfgOk c) (g w : Nat)
    (hg : g ≤ fieldBits (genLen c)) : wGen c (packGenW c g w) = g :=
  unpackField_packField _ _ _ _ hg (lcFits c h).2.1

theorem wRefs_packRefW (c : Params) (h : cfgOk c) (r w : Nat)
    (hr : r ≤ fieldBits (refLen c)) : wRefs c (packRefW c r w) = r :=
  unpackField_packField _ _ _ _ hr (lcFits c h).1

theorem lcState_packStateW (c : Params) (h : cfgOk c) (st w : Nat) (hst : st ≤ 3) :
    lcState (packStateW st w) = st := by
  rw [lcState_eq_unpackField]
  exact unpackField_packField _ _ _ _ (by simpa [fieldBits, stateLen] using hst)
    (lcFits c h).2.2.1

theorem wGen_packStateW (c : Params) (h : cfgOk c) (st w : Nat) (hst : st ≤ 3)
    (hw : w < 2 ^ WIDTH) : wGen c (packStateW st w) = wGen c w :=
  unpackField_packField_disjoint _ _ _ _ _ _
    (by simpa [fieldBits, stateLen] using hst) hw
    (Or.inr (by have := (lcFits c h).2.2.2; simp only [stateLen]; omega))

theorem wRefs_packStateW (c : Params) (h : cfgOk c) (st w : Nat) (hst : st ≤ 3)
    (hw : w < 2 ^ WIDTH) : wRefs c (packStateW st w) = wRefs c w :=
  unpackField_packField_disjoint _ _ _ _ _ _
    (by simpa [fieldBits, stateLen] using hst) hw
    (Or.inr (by simp only [stateLen, refShift]; omega))

theorem wRefs_packGenW (c : Params) (h : cfgOk c) (g w : Nat)
    (hg : g ≤ fieldBits (genLen c)) (hw : w < 2 ^ WIDTH) :
    wRefs c (packGenW c g w) = wRefs c w :=
  unpackField_packField_disjoint _ _ _ _ _ _ hg hw
    (Or.inl (by simp only [refShift, lcGenShift]; omega))

theorem lcState_packGenW (c : Params) (h : cfgOk c) (g w : Nat)
    (hg : g ≤ fieldBits (genLen c)) (hw : w < 2 ^ WIDTH) :
    lcState (packGenW c g w) = lcState w := by
  rw [lcState_eq_unpackField, lcState_eq_unpackField]
  exact unpackField_packField_disjoint _ _ _ _ _ _ hg hw
    (Or.inl (by have := (lcFits c h).2.2.2; omega))

theorem wGen_packRefW (c : Params) (h : cfgOk c) (r w : Nat)
    (hr : r ≤ fieldBits (refLen c)) (hw : w < 2 ^ WIDTH) :
    wGen c (packRefW c r w) = wGen c w :=
  unpackField_packField_disjoint _ _ _ _ _ _ hr hw
    (Or.inr (by simp only [refShift, lcGenShift]; omega))

theorem lcState_packRefW (c : Params) (h : cfgOk c) (r w : Nat)
    (hr : r ≤ fieldBits (refLen c)) (hw : w < 2 ^ WIDTH) :
    lcState (packRefW c r w) = lcState w := by
  rw [lcState_eq_unpackField, lcState_eq_unpackField]
  exact unpackField_packField_disjoint _ _ _ _ _ _ hr hw
    (Or.inl (by simp only [refShift]; omega))

/-- On a configuration whose generation field can count at least to two,
advancing a stored generation always changes it. -/
theorem genAdvance_ne (c : Params) (hB : 2 ≤ fieldBits (genLen c)) (g : Nat)
    (hg : g < 2 ^ genLen c) : genAdvance c g ≠ g := by
  have hgB : g ≤ fieldBits (genLen c) := by
    simp only [fieldBits] at *
    have : (0:Nat) < 2 ^ genLen c := Nat.pos_pow_of_pos _ (by norm_num)
    omega
  intro hEq
  rw [genAdvance] at hEq
  rcases Nat.lt_or_ge (g + 1) (fieldBits (genLen c)) with hlt | hge
  · rw [Nat.mod_eq_of_lt hlt] at hEq
    omega
  · have hcases : g + 1 = fieldBits (genLen c) ∨ g = fieldBits (genLen c) := by omega
    rcases hcases with hc | hc
    · rw [← hc, Nat.mod_self] at hEq
      omega
    · rw [hc] at hEq
      rw [show fieldBits (genLen c) + 1 = 1 + fieldBits (genLen c) by omega,
        Nat.add_mod_right] at hEq
      rw [Nat.mod_eq_of_lt (by omega)] at hEq
      omega

/-! ### Claim C4: remove / take serialization -/

/-- A successful sequential take advances the stored generation. -/
theorem slotRemoveValueSeq_success (c : Params) (h : cfgOk c) (gen : Nat)
    (s s2 : SlotState α) (res : Option α) (pushed : Bool)
    (hrun : slotRemoveValueSeq c gen s = some (s2, res, pushed))
    (hres : res.isSome = true) :
    gen = wGen c s.lifecycle ∧ wGen c s2.lifecycle = genAdvance c gen := by
  rw [slotRemoveValueSeq] at hrun
  by_cases hB0 : fieldBits (genLen c) = 0
  · rw [if_pos hB0] at hrun
    exact absurd hrun (by simp)
  · rw [if_neg hB0] at hrun
    by_cases hgen : gen ≠ wGen c s.lifecycle
    · rw [if_pos hgen] at hrun
      simp only [Option.some.injEq, Prod.mk.injEq] at hrun
      obtain ⟨_, hres2, _⟩ := hrun
      rw [← hres2] at hres
      simp at hres
    · rw [if_neg hgen] at hrun
      by_cases hr : wRefs c s.lifecycle ≠ 0
      · rw [if_pos hr] at hrun
        exact absurd hrun (by simp)
      · rw [if_neg hr] at hrun
        simp only [Option.some.injEq, Prod.mk.injEq] at hrun
        obtain ⟨hs2, _, _⟩ := hrun
        push_neg at hgen
        refine ⟨hgen, ?_⟩
        rw [← hs2]
        have hadv : genAdvance c gen ≤ fieldBits (genLen c) := by
          have := Nat.mod_lt (gen + 1) (Nat.pos_of_ne_zero hB0)
          simp only [genAdvance]
          omega
        exact wGen_packGenW c h _ _ hadv

/-- A successful sequential remove on an unreferenced slot advances the
stored generation. -/
theorem slotRemoveSeq_success (c : Params) (h : cfgOk c) (gen : Nat)
    (s s2 : SlotState α) (pushed : Bool)
    (hw : s.lifecycle < 2 ^ WIDTH) (hrefs : wRefs c s.lifecycle = 0)
    (hrun : slotRemoveSeq c gen s = some (s2, true, pushed)) :
    gen = wGen c s.lifecycle ∧ wGen c s2.lifecycle = genAdvance c gen := by
  rw [slotRemoveSeq] at hrun
  by_cases hgen : gen ≠ wGen c s.lifecycle
  · rw [if_pos hgen] at hrun
    simp only [Option.some.injEq, Prod.mk.injEq] at hrun
    obtain ⟨_, hok, _⟩ := hrun
    exact absurd hok.symm (by simp)
  · rw [if_neg hgen] at hrun
    rw [if_neg (by omega : ¬ 0 < wRefs c s.lifecycle)] at hrun
    push_neg at hgen
    have hmark : wGen c (packStateW stMarked s.lifecycle) = wGen c s.lifecycle :=
      wGen_packStateW c h stMarked s.lifecycle (by simp [stMarked]) hw
    have hmarkr : wRefs c (packStateW stMarked s.lifecycle) = 0 := by
      rw [wRefs_packStateW c h stMarked s.lifecycle (by simp [stMarked]) hw]
      exact hrefs
    rcases hval : slotRemoveValueSeq c (wGen c s.lifecycle)
        ({ s with lifecycle := packStateW stMarked s.lifecycle } : SlotState α) with _ | p
    · rw [hval] at hrun
      exact absurd hrun (by simp)
    · rw [hval] at hrun
      obtain ⟨s3, item, pushed2⟩ := p
      simp only [Option.some.injEq, Prod.mk.injEq] at hrun
      obtain ⟨hs2, hok, _⟩ := hrun
      have := slotRemoveValueSeq_success c h (wGen c s.lifecycle) _ s3 item pushed2 hval hok
      rw [← hs2, hgen]
      refine ⟨rfl, ?_⟩
      have h2 := this.2
      rw [h2]

/-- Claim C3 is violated by the code (code bug): the embedding returns
none (a panic) rather than the claimed None/false result.
With INITIAL_PAGE_SIZE=2, MAX_PAGES=1, MAX_THREADS=1: key 2 decodes to
address 2, whose page index is 1 = MAX_PAGES; Shard::get checks
page_index > len (not >=) and then indexes self.shared[page_index],
which panics. Key 8 decodes to thread id 1 (the Tid field is
MAX_SHARDS.trailing_zeros()+1 = 1 bit wide, so ids up to 1 decode),
and Slab::take indexes self.shards[tid] with only one shard, which
panics. Slab::remove on key 2 panics the same way as get. Keys that
stay in range return None as claimed (key 1). -/
theorem c3_panic_on_out_of_range_keys :
    addrIndex tinyParams (unpackAddr tinyParams 2) = tinyParams.maxPages ∧
    slabGet tinyParams (slabNew tinyParams : SlabState Nat) 2 = none ∧
    unpackTid tinyParams 8 = 1 ∧ maxShards tinyParams = 1 ∧
    slabTake tinyParams (slabNew tinyParams : SlabState Nat) 8 = none ∧
    slabRemove tinyParams (slabNew tinyParams : SlabState Nat) 2 = none ∧
    (slabGet tinyParams (slabNew tinyParams : SlabState Nat) 1).map Prod.snd
      = some none := by
  decide

/-! ### List helpers -/

theorem set_same {β : Type} (l : List β) (i : Nat) (x : β)
    (h : l.get? i = some x) : l.set i x = l := by
  induction l generalizing i with
  | nil => simp at h
  | cons a l ih =>
    cases i with
    | zero =>
      simp only [List.get?] at h
      cases h
      rfl
    | succ i =>
      simp only [List.get?] at h
      simp [List.set, ih i h]

theorem get?_set_ne {β : Type} (l : List β) (i j : Nat) (x : β) (h : i ≠ j) :
    (l.set i x).get? j = l.get? j := by
  induction l generalizing i j with
  | nil => simp
  | cons a l ih =>
    cases i with
    | zero =>
      cases j with
      | zero => omega
      | succ j => simp [List.set]
    | succ i =>
      cases j with
      | zero => simp [List.set]
      | succ j => simpa [List.set] using ih i j (by omega)

theorem get?_set_self {β : Type} (l : List β) (i : Nat) (x : β)
    (h : i < l.length) : (l.set i x).get? i = some x := by
  induction l generalizing i with
  | nil => simp at h
  | cons a l ih =>
    cases i with
    | zero => rfl
    | succ i =>
      simp only [List.length] at h
      simpa [List.set] using ih i (by omega)

theorem length_set {β : Type} (l : List β) (i : Nat) (x : β) :
    (l.set i x).length = l.length := by
  simp

theorem mem_of_get? {β : Type} (l : List β) (i : Nat) (x : β)
    (h : l.get? i = some x) : x ∈ l := by
  induction l generalizing i with
  | nil => simp at h
  | cons a l ih =>
    cases i with
    | zero =>
      simp only [List.get?] at h
      cases h
      exact List.mem_cons_self _ _
    | succ i =>
      simp only [List.get?] at h
      exact List.mem_cons_of_mem a (ih i h)

theorem mem_set_of_mem {β : Type} (l : List β) (i : Nat) (x y : β)
    (h : y ∈ l.set i x) : y ∈ l ∨ y = x := by
  induction l generalizing i with
  | nil => simp at h
  | cons a l ih =>
    cases i with
    | zero =>
      simp only [List.set] at h
      rcases List.mem_cons.mp h with h1 | h1
      · right; exact h1
      · left; exact List.mem_cons_of_mem a h1
    | succ i =>
      simp only [List.set] at h
      rcases List.mem_cons.mp h with h1 | h1
      · left; rw [h1]; exact List.mem_cons_self a l
      · rcases ih i h1 with h2 | h2
        · left; exact List.mem_cons_of_mem a h2
        · right; exact h2

/-! ### Key equivalence: two usize keys that agree on all used bits
decode identically, and conversely. -/

/-- Keys equal on the used bits of the configuration. -/
def sameKey (c : Params) (k1 k2 : Nat) : Prop :=
  k1 % 2 ^ usedBits c = k2 % 2 ^ usedBits c

instance (c : Params) (k1 k2 : Nat) : Decidable (sameKey c k1 k2) := by
  unfold sameKey
  infer_instance

theorem unpackField_congr_mod (len shift u k1 k2 : Nat)
    (hfit : shift + len ≤ u) (hmod : k1 % 2 ^ u = k2 % 2 ^ u) :
    unpackField len shift k1 = unpackField len shift k2 := by
  apply Nat.eq_of_testBit_eq
  intro j
  rw [unpackField_testBit, unpackField_testBit]
  rcases Nat.lt_or_ge j len with hj | hj
  · have h1 : k1.testBit (shift + j) = (k1 % 2 ^ u).testBit (shift + j) := by
      rw [Nat.testBit_mod_two_pow]
      simp [show shift + j < u by omega]
    have h2 : k2.testBit (shift + j) = (k2 % 2 ^ u).testBit (shift + j) := by
      rw [Nat.testBit_mod_two_pow]
      simp [show shift + j < u by omega]
    rw [h1, h2, hmod]
  · simp [Nat.not_lt.mpr hj]

/-- Keys that agree on the used bits decode to the same fields. -/
theorem sameKey_decode (c : Params) (h : cfgOk c) (k1 k2 : Nat)
    (hs : sameKey c k1 k2) :
    unpackAddr c k1 = unpackAddr c k2 ∧ unpackTid c k1 = unpackTid c k2 ∧
    unpackGen c k1 = unpackGen c k2 := by
  obtain ⟨hElt, hshift, haddrlen, hgs, hgw, hgs2, _, _, _⟩ := cfgFacts c h
  have hused : usedBits c = genLen c + genShift c := rfl
  refine ⟨?_, ?_, ?_⟩
  · exact unpackField_congr_mod _ _ (usedBits c) _ _ (by
      simp only [hused, genShift, tidShift]
      omega) hs
  · exact unpackField_congr_mod _ _ (usedBits c) _ _ (by
      simp only [hused, genShift, tidShift]
      omega) hs
  · exact unpackField_congr_mod _ _ (usedBits c) _ _ (by
      simp only [hused]
      omega) hs

/-- Conversely, keys that decode to the same three fields agree on all
used bits: the address, thread id and generation fields tile the used
bits exactly. -/
theorem decode_sameKey (c : Params) (h : cfgOk c) (k1 k2 : Nat)
    (ha : unpackAddr c k1 = unpackAddr c k2)
    (ht : unpackTid c k1 = unpackTid c k2)
    (hg : unpackGen c k1 = unpackGen c k2) :
    sameKey c k1 k2 := by
  obtain ⟨hElt, hshift, haddrlen, hgs, hgw, hgs2, _, _, _⟩ := cfgFacts c h
  have htid : 1 ≤ tidLen c := by simp [tidLen]
  rw [sameKey]
  apply Nat.eq_of_testBit_eq
  intro j
  rw [Nat.testBit_mod_two_pow, Nat.testBit_mod_two_pow]
  rcases Nat.lt_or_ge j (usedBits c) with hj | hj
  · simp only [hj, decide_True, Bool.true_and]
    have hused : usedBits c = genLen c + genShift c := rfl
    have hcase : j < addrLen c ∨ (tidShift c ≤ j ∧ j < tidShift c + tidLen c) ∨
        (genShift c ≤ j ∧ j < genShift c + genLen c) := by
      simp only [genShift, tidShift] at *
      omega
    rcases hcase with hc | hc | hc
    · have e1 : (unpackAddr c k1).testBit j = k1.testBit j := by
        rw [unpackAddr, unpackField_testBit]
        simp [hc]
      have e2 : (unpackAddr c k2).testBit j = k2.testBit j := by
        rw [unpackAddr, unpackField_testBit]
        simp [hc]
      rw [← e1, ← e2, ha]
    · have e1 : (unpackTid c k1).testBit (j - tidShift c) = k1.testBit j := by
        rw [unpackTid, unpackField_testBit]
        have : tidShift c + (j - tidShift c) = j := by omega
        rw [this]
        simp [show j - tidShift c < tidLen c by omega]
      have e2 : (unpackTid c k2).testBit (j - tidShift c) = k2.testBit j := by
        rw [unpackTid, unpackField_testBit]
        have : tidShift c + (j - tidShift c) = j := by omega
        rw [this]
        simp [show j - tidShift c < tidLen c by omega]
      rw [← e1, ← e2, ht]
    · have e1 : (unpackGen c k1).testBit (j - genShift c) = k1.testBit j := by
        rw [unpackGen, unpackField_testBit]
        have : genShift c + (j - genShift c) = j := by omega
        rw [this]
        simp [show j - genShift c < genLen c by omega]
      have e2 : (unpackGen c k2).testBit (j - genShift c) = k2.testBit j := by
        rw [unpackGen, unpackField_testBit]
        have : genShift c + (j - genShift c) = j := by omega
        rw [this]
        simp [show j - genShift c < genLen c by omega]
      rw [← e1, ← e2, hg]
  · simp [Nat.not_lt.mpr hj]

/-! ### Word facts for each lifecycle transition -/

theorem unpackField_zero (len shift : Nat) : unpackField len shift 0 = 0 := by
  simp [unpackField]

/-- Packing a field with its own current value is the identity. -/
theorem packField_self (len shift w : Nat) (hw : w < 2 ^ WIDTH)
    (hfit : shift + len ≤ WIDTH) :
    packField len shift w (unpackField len shift w) = w := by
  have hv : unpackField len shift w ≤ fieldBits len := by
    have := unpackField_lt_two_pow len shift w
    simp only [fieldBits] at *
    have : (0:Nat) < 2 ^ len := Nat.pos_pow_of_pos _ (by norm_num)
    omega
  apply Nat.eq_of_testBit_eq
  intro i
  by_cases hfield : shift ≤ i ∧ i < shift + len
  · rw [packField_testBit_inside len shift w _ i hv hfit hfield.1 hfield.2]
    rw [unpackField_testBit]
    have : shift + (i - shift) = i := by omega
    rw [this]
    simp [show i - shift < len by omega]
  · exact packField_testBit_outside len shift w _ i hv hw (by omega)

/-- Field facts for the word written by a successful Slot::get CAS. -/
theorem getAcquireWord_facts (c : Params) (h : cfgOk c) (w : Nat)
    (hw : w < 2 ^ WIDTH) (hrefs : wRefs c w < refMax c) :
    getAcquireWord c w < 2 ^ WIDTH ∧
    wGen c (getAcquireWord c w) = wGen c w ∧
    lcState (getAcquireWord c w) = lcState w ∧
    wRefs c (getAcquireWord c w) = wRefs c w + 1 := by
  have hst : lcState w ≤ 3 := lcState_le_three w
  have hg : wGen c w ≤ fieldBits (genLen c) := wGen_le_bits c w
  have hr : wRefs c w + 1 ≤ fieldBits (refLen c) := hrefs
  have h0 : (0:Nat) < 2 ^ WIDTH := Nat.pos_pow_of_pos _ (by norm_num)
  have hi0 : packStateW (lcState w) 0 < 2 ^ WIDTH := packStateW_lt c h _ _ hst h0
  have hi1 : packGenW c (wGen c w) (packStateW (lcState w) 0) < 2 ^ WIDTH :=
    packGenW_lt c h _ _ hg hi0
  refine ⟨packRefW_lt c h _ _ hr hi1, ?_, ?_, ?_⟩
  · rw [getAcquireWord, wGen_packRefW c h _ _ hr hi1, wGen_packGenW c h _ _ hg]
  · rw [getAcquireWord, lcState_packRefW c h _ _ hr hi1,
      lcState_packGenW c h _ _ hg hi0, lcState_packStateW c h _ _ hst]
  · rw [getAcquireWord, wRefs_packRefW c h _ _ hr]

/-- Field facts for the MARKED.pack(lifecycle) word of Slot::remove. -/
theorem markWord_facts (c : Params) (h : cfgOk c) (w : Nat) (hw : w < 2 ^ WIDTH) :
    packStateW stMarked w < 2 ^ WIDTH ∧
    wGen c (packStateW stMarked w) = wGen c w ∧
    lcState (packStateW stMarked w) = stMarked ∧
    wRefs c (packStateW stMarked w) = wRefs c w :=
  ⟨packStateW_lt c h _ _ (by simp [stMarked]) hw,
   wGen_packStateW c h _ _ (by simp [stMarked]) hw,
   lcState_packStateW c h _ _ (by simp [stMarked]),
   wRefs_packStateW c h _ _ (by simp [stMarked]) hw⟩

/-- Field facts for the generation-advancing word of Slot::remove_value. -/
theorem advanceWord_facts (c : Params) (h : cfgOk c) (g w : Nat)
    (hw : w < 2 ^ WIDTH) (hg : g ≤ fieldBits (genLen c)) :
    packGenW c g w < 2 ^ WIDTH ∧
    wGen c (packGenW c g w) = g ∧
    lcState (packGenW c g w) = lcState w ∧
    wRefs c (packGenW c g w) = wRefs c w :=
  ⟨packGenW_lt c h _ _ hg hw, wGen_packGenW c h _ _ hg,
   lcState_packGenW c h _ _ hg hw, wRefs_packGenW c h _ _ hg hw⟩

/-- Field facts for the word written by Slot::insert:
gen.pack(NOT_REMOVED.pack(0)). -/
theorem insertWord_facts (c : Params) (h : cfgOk c) (g : Nat)
    (hg : g ≤ fieldBits (genLen c)) :
    packGenW c g (packStateW stNotRemoved 0) < 2 ^ WIDTH ∧
    wGen c (packGenW c g (packStateW stNotRemoved 0)) = g ∧
    lcState (packGenW c g (packStateW stNotRemoved 0)) = stNotRemoved ∧
    wRefs c (packGenW c g (packStateW stNotRemoved 0)) = 0 := by
  have h0 : (0:Nat) < 2 ^ WIDTH := Nat.pos_pow_of_pos _ (by norm_num)
  have hi0 : packStateW stNotRemoved 0 < 2 ^ WIDTH :=
    packStateW_lt c h _ _ (by simp [stNotRemoved]) h0
  refine ⟨packGenW_lt c h _ _ hg hi0, wGen_packGenW c h _ _ hg, ?_, ?_⟩
  · rw [lcState_packGenW c h _ _ hg hi0, lcState_packStateW c h _ _ (by simp [stNotRemoved])]
  · rw [wRefs_packGenW c h _ _ hg hi0,
      wRefs_packStateW c h _ _ (by simp [stNotRemoved]) h0, wRefs, unpackField_zero]

/-- Field facts for the dropping word of Guard::release:
gen.pack(Removing as usize). -/
theorem dropWord_facts (c : Params) (h : cfgOk c) (g : Nat)
    (hg : g ≤ fieldBits (genLen c)) :
    packGenW c g stRemoving < 2 ^ WIDTH ∧
    wGen c (packGenW c g stRemoving) = g ∧
    lcState (packGenW c g stRemoving) = stRemoving ∧
    wRefs c (packGenW c g stRemoving) = 0 := by
  have h3 : (stRemoving : Nat) < 2 ^ WIDTH := by simp [stRemoving, WIDTH]
  refine ⟨packGenW_lt c h _ _ hg h3, wGen_packGenW c h _ _ hg, ?_, ?_⟩
  · rw [lcState_packGenW c h _ _ hg h3]
    decide
  · rw [wRefs_packGenW c h _ _ hg h3]
    have h1 : (3:Nat) &&& fieldMask (refLen c) refShift = 0 := by
      apply Nat.eq_of_testBit_eq
      intro i
      simp only [Nat.testBit_land, testBit_fieldMask, Nat.zero_testBit]
      rcases Nat.lt_or_ge i 2 with hi | hi
      · have : ¬ refShift ≤ i := by simp only [refShift]; omega
        simp [this]
      · have h3b : (3:Nat).testBit i = false := by
          have : (3:Nat) < 2 ^ i := by
            calc (3:Nat) < 2 ^ 2 := by norm_num
            _ ≤ 2 ^ i := Nat.pow_le_pow_right (by norm_num) hi
          exact Nat.testBit_lt_two_pow this
        simp [h3b]
    rw [wRefs, stRemoving, unpackField, h1]
    simp

/-! ### Slot operation characterizations -/

theorem slotGet_char (c : Params) (g : Nat) (sl sl2 : SlotState α) (res : Option α)
    (hrun : slotGet c g sl = some (sl2, res)) :
    lcState sl.lifecycle ≠ 2 ∧
    ((sl2 = sl ∧ res = none ∧
      (g ≠ wGen c sl.lifecycle ∨ lcState sl.lifecycle ≠ stNotRemoved ∨
        refMax c ≤ wRefs c sl.lifecycle)) ∨
     (g = wGen c sl.lifecycle ∧ lcState sl.lifecycle = stNotRemoved ∧
      wRefs c sl.lifecycle < refMax c ∧ res = sl.item ∧
      sl2 = { sl with lifecycle := getAcquireWord c sl.lifecycle })) := by
  rw [slotGet] at hrun
  by_cases h2 : lcState sl.lifecycle = 2
  · rw [if_pos h2] at hrun
    exact absurd hrun (by simp)
  · rw [if_neg h2] at hrun
    refine ⟨h2, ?_⟩
    by_cases hcond : g ≠ wGen c sl.lifecycle ∨ lcState sl.lifecycle ≠ stNotRemoved
    · rw [if_pos hcond] at hrun
      simp only [Option.some.injEq, Prod.mk.injEq] at hrun
      left
      refine ⟨hrun.1.symm, hrun.2.symm, ?_⟩
      rcases hcond with hc | hc
      · exact Or.inl hc
      · exact Or.inr (Or.inl hc)
    · rw [if_neg hcond] at hrun
      push_neg at hcond
      by_cases hr : refMax c ≤ wRefs c sl.lifecycle
      · rw [if_pos hr] at hrun
        simp only [Option.some.injEq, Prod.mk.injEq] at hrun
        exact Or.inl ⟨hrun.1.symm, hrun.2.symm, Or.inr (Or.inr hr)⟩
      · rw [if_neg hr] at hrun
        simp only [Option.some.injEq, Prod.mk.injEq] at hrun
        right
        exact ⟨hcond.1, hcond.2, by omega, hrun.2.symm, hrun.1.symm⟩

theorem slotInsertOp_char (c : Params) (sl : SlotState α) (v : α) :
    (wRefs c sl.lifecycle ≠ 0 ∧ slotInsertOp c sl v = (sl, none)) ∨
    (wRefs c sl.lifecycle = 0 ∧
     slotInsertOp c sl v =
       (⟨packGenW c (wGen c sl.lifecycle) (packStateW stNotRemoved 0), sl.next, some v⟩,
        some (wGen c sl.lifecycle))) := by
  by_cases hr : wRefs c sl.lifecycle ≠ 0
  · left
    refine ⟨hr, ?_⟩
    rw [slotInsertOp, if_pos hr]
  · right
    push_neg at hr
    refine ⟨hr, ?_⟩
    rw [slotInsertOp, if_neg (by omega : ¬ wRefs c sl.lifecycle ≠ 0)]

theorem slotRemoveValueSeq_char (c : Params) (g : Nat) (sl sl2 : SlotState α)
    (res : Option α) (pushed : Bool)
    (hrun : slotRemoveValueSeq c g sl = some (sl2, res, pushed)) :
    fieldBits (genLen c) ≠ 0 ∧
    ((g ≠ wGen c sl.lifecycle ∧ sl2 = sl ∧ res = none ∧ pushed = false) ∨
     (g = wGen c sl.lifecycle ∧ wRefs c sl.lifecycle = 0 ∧
      sl2 = ⟨packGenW c (genAdvance c g) sl.lifecycle, sl.next, none⟩ ∧
      res = sl.item ∧ pushed = true)) := by
  rw [slotRemoveValueSeq] at hrun
  by_cases hB0 : fieldBits (genLen c) = 0
  · rw [if_pos hB0] at hrun
    exact absurd hrun (by simp)
  · rw [if_neg hB0] at hrun
    refine ⟨hB0, ?_⟩
    by_cases hg : g ≠ wGen c sl.lifecycle
    · rw [if_pos hg] at hrun
      simp only [Option.some.injEq, Prod.mk.injEq] at hrun
      exact Or.inl ⟨hg, hrun.1.symm, hrun.2.1.symm, hrun.2.2.symm⟩
    · rw [if_neg hg] at hrun
      push_neg at hg
      by_cases hr : wRefs c sl.lifecycle ≠ 0
      · rw [if_pos hr] at hrun
        exact absurd hrun (by simp)
      · rw [if_neg hr] at hrun
        push_neg at hr
        simp only [Option.some.injEq, Prod.mk.injEq] at hrun
        exact Or.inr ⟨hg, hr, hrun.1.symm, hrun.2.1.symm, hrun.2.2.symm⟩

theorem slotRemoveSeq_char (c : Params) (h : cfgOk c) (g : Nat)
    (sl sl2 : SlotState α) (ok pushed : Bool)
    (hw : sl.lifecycle < 2 ^ WIDTH)
    (hrun : slotRemoveSeq c g sl = some (sl2, ok, pushed)) :
    (g ≠ wGen c sl.lifecycle ∧ sl2 = sl ∧ ok = false ∧ pushed = false) ∨
    (g = wGen c sl.lifecycle ∧ 0 < wRefs c sl.lifecycle ∧
     sl2 = { sl with lifecycle := packStateW stMarked sl.lifecycle } ∧
     ok = true ∧ pushed = false) ∨
    (g = wGen c sl.lifecycle ∧ wRefs c sl.lifecycle = 0 ∧
     fieldBits (genLen c) ≠ 0 ∧
     sl2 = ⟨packGenW c (genAdvance c g) (packStateW stMarked sl.lifecycle), sl.next, none⟩ ∧
     ok = sl.item.isSome ∧ pushed = true) := by
  rw [slotRemoveSeq] at hrun
  by_cases hg : g ≠ wGen c sl.lifecycle
  · rw [if_pos hg] at hrun
    simp only [Option.some.injEq, Prod.mk.injEq] at hrun
    exact Or.inl ⟨hg, hrun.1.symm, hrun.2.1.symm, hrun.2.2.symm⟩
  · rw [if_neg hg] at hrun
    push_neg at hg
    obtain ⟨hmlt, hmgen, hmst, hmrefs⟩ := markWord_facts c h sl.lifecycle hw
    by_cases hr : 0 < wRefs c sl.lifecycle
    · rw [if_pos hr] at hrun
      simp only [Option.some.injEq, Prod.mk.injEq] at hrun
      exact Or.inr (Or.inl ⟨hg, hr, hrun.1.symm, hrun.2.1.symm, hrun.2.2.symm⟩)
    · rw [if_neg hr] at hrun
      push_neg at hr
      have hr0 : wRefs c sl.lifecycle = 0 := by omega
      rcases hval : slotRemoveValueSeq c (wGen c sl.lifecycle)
          ({ sl with lifecycle := packStateW stMarked sl.lifecycle } : SlotState α)
          with _ | p
      · rw [hval] at hrun
        exact absurd hrun (by simp)
      · rw [hval] at hrun
        obtain ⟨s3, item, pushed2⟩ := p
        obtain ⟨hB0, hcases⟩ := slotRemoveValueSeq_char c _ _ _ _ _ hval
        simp only [Option.some.injEq, Prod.mk.injEq] at hrun
        obtain ⟨hs2, hok, hp⟩ := hrun
        rcases hcases with ⟨hne, _, _, _⟩ | ⟨_, _, hrec, hitem, hpush⟩
        · exact absurd hmgen.symm hne
        · right; right
          refine ⟨hg, hr0, hB0, ?_, ?_, ?_⟩
          · rw [← hs2, hrec, hg]
          · rw [← hok, hitem]
          · rw [← hp, hpush]

/-! ### The local free list chain -/

/-- The free list of a page: starting from head h, following the next
links of vacant slots (item = none) reaches the NULL sentinel. The list
fl collects the visited offsets in order. -/
inductive Chain (c : Params) (slots : List (SlotState α)) : Nat → List Nat → Prop
  | nil : Chain c slots (addrNull c) []
  | cons (hd : Nat) (sl : SlotState α) (rest : List Nat) :
      slots.get? hd = some sl → sl.item = none →
      Chain c slots sl.next rest → Chain c slots hd (hd :: rest)

/-- Every chain member is a vacant slot of the page. -/
theorem chain_mem (c : Params) (slots : List (SlotState α)) (h0 : Nat) (fl : List Nat)
    (hc : Chain c slots h0 fl) (o : Nat) (ho : o ∈ fl) :
    ∃ sl, slots.get? o = some sl ∧ sl.item = none := by
  induction hc with
  | nil => simp at ho
  | cons hd sl rest hget hitem _ ih =>
    rcases List.mem_cons.mp ho with h1 | h1
    · subst h1
      exact ⟨sl, hget, hitem⟩
    · exact ih h1

/-- Rewriting a slot outside the chain keeps the chain intact. -/
theorem chain_set_outside (c : Params) (slots : List (SlotState α)) (h0 : Nat)
    (fl : List Nat) (hc : Chain c slots h0 fl) (o : Nat) (x : SlotState α)
    (ho : o ∉ fl) : Chain c (slots.set o x) h0 fl := by
  induction hc with
  | nil => exact Chain.nil
  | cons hd sl rest hget hitem _ ih =>
    have hne : o ≠ hd := by
      intro hEq
      exact ho (hEq ▸ List.mem_cons_self hd rest)
    refine Chain.cons hd sl rest ?_ hitem (ih (fun hmem => ho (List.mem_cons_of_mem hd hmem)))
    rw [get?_set_ne slots o hd x hne]
    exact hget

/-- Rewriting a slot with one that has the same item and next link keeps
any chain intact. -/
theorem chain_set_congr (c : Params) (slots : List (SlotState α)) (h0 : Nat)
    (fl : List Nat) (hc : Chain c slots h0 fl) (o : Nat) (sl0 x : SlotState α)
    (hget0 : slots.get? o = some sl0) (hitem : x.item = sl0.item)
    (hnext : x.next = sl0.next) : Chain c (slots.set o x) h0 fl := by
  induction hc with
  | nil => exact Chain.nil
  | cons hd sl rest hget hitemsl _ ih =>
    by_cases he : o = hd
    · subst he
      rw [hget] at hget0
      cases hget0
      refine Chain.cons o x rest ?_ ?_ ?_
      · exact get?_set_self slots o x (by
          have := List.get?_eq_some.mp hget
          exact this.choose)
      · rw [hitem, hitemsl]
      · rw [hnext]
        exact ih
    · refine Chain.cons hd sl rest ?_ hitemsl ih
      rw [get?_set_ne slots o hd x he]
      exact hget

/-- A nonempty chain head is a valid offset of the page. -/
theorem chain_head_lt (c : Params) (slots : List (SlotState α)) (h0 : Nat)
    (fl rest : List Nat) (hc : Chain c slots h0 fl) (hfl : fl = h0 :: rest) :
    h0 < slots.length := by
  cases hc with
  | nil => simp at hfl
  | cons hd sl rest2 hget _ _ =>
    exact List.get?_eq_some.mp hget |>.choose

/-! ### Invariants of the sequential model -/

/-- A well-formed slot word: inside the machine word and never in the
impossible lifecycle state 0b10. -/
def goodSlot (c : Params) (sl : SlotState α) : Prop :=
  sl.lifecycle < 2 ^ WIDTH ∧ lcState sl.lifecycle ≠ 2

/-- Structural facts of page i set up by Shard::new and preserved ever
after. -/
def StructPage (c : Params) (i : Nat) (P : PageState α) : Prop :=
  P.size = pageSize c i ∧ P.prevSz = prevSzSum c i ∧
  ∀ slots, P.slab = some slots → slots.length = P.size ∧ ∀ sl ∈ slots, goodSlot c sl

/-- The free list discipline of one page, relative to its local head:
the transfer stack is empty (a single-threaded run never pushes remote),
an unallocated page still has the initial zero head, and an allocated
page has a well-formed, duplicate-free local chain of vacant slots;
occupied slots carry no references between operations. -/
def pageInv (c : Params) (lh : Nat) (P : PageState α) : Prop :=
  P.remote = addrNull c ∧
  ((P.slab = none ∧ lh = 0) ∨
   (∃ slots fl, P.slab = some slots ∧ Chain c slots lh fl ∧ fl.Nodup ∧
    ∀ sl ∈ slots, sl.item.isSome = true → wRefs c sl.lifecycle = 0))

/-- Invariant of one shard. -/
def shardInv (c : Params) (sh : ShardState α) : Prop :=
  sh.localHeads.length = c.maxPages ∧ sh.shared.length = c.maxPages ∧
  (∀ i P, sh.shared.get? i = some P → StructPage c i P) ∧
  (∀ i P lh, sh.shared.get? i = some P → sh.localHeads.get? i = some lh → pageInv c lh P)

/-- Invariant of the whole slab. Only shard 0 (the only shard the
modelled thread inserts into) ever allocates pages. -/
def Inv (c : Params) (S : SlabState α) : Prop :=
  S.shards.length = maxShards c ∧
  (∀ j sh, S.shards.get? j = some sh → shardInv c sh) ∧
  (∀ j sh, S.shards.get? j = some sh → j ≠ 0 →
    ∀ i P, sh.shared.get? i = some P → P.slab = none)

/-- The page index a key addresses. -/
def keyPage (c : Params) (k : Nat) : Nat := addrIndex c (unpackAddr c k)

/-- The in-page offset a key addresses. -/
def keyOff (c : Params) (k : Nat) : Nat :=
  unpackAddr c k - prevSzSum c (keyPage c k)

/-- Key k currently holds value v: the addressed slot of shard 0 stores
v at the key generation, unreferenced and not removed. -/
def live (c : Params) (S : SlabState α) (k : Nat) (v : α) : Prop :=
  unpackTid c k = 0 ∧ keyPage c k < c.maxPages ∧
  ∃ sh P slots sl,
    S.shards.get? 0 = some sh ∧ sh.shared.get? (keyPage c k) = some P ∧
    P.slab = some slots ∧ slots.get? (keyOff c k) = some sl ∧
    sl.item = some v ∧ wGen c sl.lifecycle = unpackGen c k ∧
    lcState sl.lifecycle = stNotRemoved ∧ wRefs c sl.lifecycle = 0

/-- A remove/take key that addresses a vacant slot at the slot's own
generation: freeing it would push an already-free slot, corrupting the
free list (the double-free the Slab API cannot prevent unsafely forged
keys from causing). -/
def vacantHit (c : Params) (S : SlabState α) (k : Nat) : Prop :=
  ∃ sh P slots sl,
    S.shards.get? (unpackTid c k) = some sh ∧
    sh.shared.get? (keyPage c k) = some P ∧ P.slab = some slots ∧
    slots.get? (unpackAddr c k - P.prevSz) = some sl ∧
    sl.item = none ∧ wGen c sl.lifecycle = unpackGen c k

/-- Benign operations: removals and takes must not address a vacant slot
at a matching generation. -/
def AllowedOp (c : Params) (S : SlabState α) : Op α → Prop
  | .ins _ => True
  | .get _ => True
  | .rm k2 => ¬ vacantHit c S k2
  | .take k2 => ¬ vacantHit c S k2

/-- A run of successful benign operations none of which removes or takes
the protected key k (nor any key aliasing it). -/
inductive SafeRun (c : Params) (k : Nat) : SlabState α → SlabState α → Prop
  | refl (S : SlabState α) : SafeRun c k S S
  | step (S S1 S2 : SlabState α) (op : Op α) (r : OpResult α) :
      AllowedOp c S op →
      (∀ k2, op = Op.rm k2 ∨ op = Op.take k2 → ¬ sameKey c k k2) →
      stepOp c S op = some (S1, r) →
      SafeRun c k S1 S2 → SafeRun c k S S2

/-! ### Fresh pages -/

theorem freshSlots_length (c : Params) (size : Nat) (hsz : 1 ≤ size) :
    (freshSlots c size : List (SlotState α)).length = size := by
  simp [freshSlots]
  omega

theorem freshSlots_get? (c : Params) (size j : Nat) (hj : j < size) :
    (freshSlots c size : List (SlotState α)).get? j
      = some ⟨0, if j = size - 1 then addrNull c else j + 1, none⟩ := by
  rw [freshSlots]
  rcases Nat.lt_or_ge j (size - 1) with h | h
  · rw [List.get?_append (by simp; omega)]
    rw [List.get?_map, List.get?_range h]
    rw [if_neg (by omega : ¬ j = size - 1)]
    rfl
  · have hj2 : j = size - 1 := by omega
    subst hj2
    rw [List.get?_append_right (by simp)]
    simp

theorem freshSlots_mem (c : Params) (size : Nat) (sl : SlotState α)
    (h : sl ∈ (freshSlots c size : List (SlotState α))) : sl.item = none ∧ sl.lifecycle = 0 := by
  rw [freshSlots] at h
  rcases List.mem_append.mp h with h1 | h1
  · obtain ⟨j, _, hj⟩ := List.mem_map.mp h1
    rw [← hj]
    exact ⟨rfl, rfl⟩
  · rw [List.mem_singleton.mp h1]
    exact ⟨rfl, rfl⟩

/-- The chain of a freshly allocated page from any starting offset. -/
theorem freshChain (c : Params) (size : Nat) (hsz : 1 ≤ size)
    (hnull : size < addrNull c) :
    ∀ n j, j + n = size →
      Chain c (freshSlots c size : List (SlotState α))
        (if j = size then addrNull c else j) (List.range' j n) := by
  intro n
  induction n with
  | zero =>
    intro j hj
    rw [if_pos (by omega)]
    exact Chain.nil
  | succ n ih =>
    intro j hj
    rw [if_neg (by omega)]
    have hjlt : j < size := by omega
    rw [List.range'_succ]
    refine Chain.cons j ⟨0, if j = size - 1 then addrNull c else j + 1, none⟩ _
      (freshSlots_get? c size j hjlt) rfl ?_
    have := ih (j + 1) (by omega)
    by_cases hlast : j = size - 1
    · rw [if_pos hlast]
      have : List.range' (j + 1) n = [] := by
        have : n = 0 := by omega
        simp [this]
      rw [this]
      exact Chain.nil
    · rw [if_neg hlast]
      have hne : ¬ (j + 1 = size) := by omega
      rw [if_neg hne] at this
      exact this

theorem pageSize_lt_addrNull (c : Params) (h : cfgOk c) (i : Nat)
    (hi : i < c.maxPages) : pageSize c i < addrNull c := by
  obtain ⟨hElt, hshift, haddrlen, hgs, hgw, hgs2, _, _, _⟩ := cfgFacts c h
  have hpow := actualInitialSz_eq_pow c
  rw [pageSize, hpow, ← Nat.pow_add, addrNull, addrBits, fieldBits]
  have h1 : szExp c + i < addrLen c := by omega
  have h2 : (2:Nat) ^ (szExp c + i) < 2 ^ addrLen c :=
    Nat.pow_lt_pow_right (by norm_num) h1
  have h3 : (0:Nat) < 2 ^ addrLen c := Nat.pos_pow_of_pos _ (by norm_num)
  omega

/-! ### The lifecycle word is exactly its three fields -/

theorem testBit_of_unpackField_eq (len shift w1 w2 i : Nat)
    (h : unpackField len shift w1 = unpackField len shift w2)
    (h1 : shift ≤ i) (h2 : i < shift + len) : w1.testBit i = w2.testBit i := by
  have hc := congrArg (fun x => Nat.testBit x (i - shift)) h
  simp only [unpackField_testBit] at hc
  have hj : i - shift < len := by omega
  have hsi : shift + (i - shift) = i := by omega
  rw [hsi] at hc
  simpa [hj] using hc

/-- The state, refcount and generation fields tile the lifecycle word:
words agreeing on all three fields are equal. -/
theorem word_ext (c : Params) (h : cfgOk c) (w1 w2 : Nat)
    (h1 : w1 < 2 ^ WIDTH) (h2 : w2 < 2 ^ WIDTH)
    (hst : lcState w1 = lcState w2) (hrf : wRefs c w1 = wRefs c w2)
    (hgn : wGen c w1 = wGen c w2) : w1 = w2 := by
  obtain ⟨_, _, _, _, _, _, hgtile, hreftile, hlcw⟩ := cfgFacts c h
  rw [lcState_eq_unpackField, lcState_eq_unpackField] at hst
  simp only [wRefs] at hrf
  simp only [wGen] at hgn
  apply Nat.eq_of_testBit_eq
  intro i
  rcases Nat.lt_or_ge i WIDTH with hiw | hiw
  · rcases Nat.lt_or_ge i 2 with hi2 | hi2
    · exact testBit_of_unpackField_eq 2 0 w1 w2 i hst (by omega) (by omega)
    · rcases Nat.lt_or_ge i (lcGenShift c) with hir | hir
      · refine testBit_of_unpackField_eq (refLen c) refShift w1 w2 i hrf ?_ ?_
        · simp only [refShift]; omega
        · simp only [refShift]
          simp only [lcGenShift, refShift] at hir
          omega
      · exact testBit_of_unpackField_eq (genLen c) (lcGenShift c) w1 w2 i hgn hir
          (by omega)
  · rw [Nat.testBit_lt_two_pow (lt_of_lt_of_le h1
        (Nat.pow_le_pow_right (by norm_num) hiw)),
      Nat.testBit_lt_two_pow (lt_of_lt_of_le h2
        (Nat.pow_le_pow_right (by norm_num) hiw))]

/-- Dropping the reference taken by a successful Slot::get restores the
lifecycle word exactly (Guard::release, non-final-marked branch). -/
theorem release_restores (c : Params) (h : cfgOk c) (w : Nat)
    (hw : w < 2 ^ WIDTH) (hr : wRefs c w = 0) (hrm : wRefs c w < refMax c) :
    packRefW c (wRefs c (getAcquireWord c w) - 1) (getAcquireWord c w) = w := by
  obtain ⟨hlt, hgen, hst, hrefs⟩ := getAcquireWord_facts c h w hw hrm
  rw [hrefs, hr]
  have hz : (0:Nat) ≤ fieldBits (refLen c) := Nat.zero_le _
  refine word_ext c h _ w (packRefW_lt c h _ _ hz hlt) hw ?_ ?_ ?_
  · rw [lcState_packRefW c h _ _ hz hlt, hst]
  · rw [wRefs_packRefW c h _ _ hz, hr]
  · rw [wGen_packRefW c h _ _ hz hlt, hgen]

/-- With at least one page the refcount field is nonempty, so a slot can
be referenced at least once. -/
theorem refMax_pos (c : Params) (h : cfgOk c) (hmp : 1 ≤ c.maxPages) :
    0 < refMax c := by
  obtain ⟨hElt, hshift, haddrlen, hgs, hgw, hgs2, hgtile, hreftile, hlcw⟩ := cfgFacts c h
  have h1 : 1 ≤ refLen c := by
    simp only [refLen, stateLen]
    omega
  have h2 : (2:Nat) ≤ 2 ^ refLen c := by
    calc (2:Nat) = 2 ^ 1 := by norm_num
    _ ≤ 2 ^ refLen c := Nat.pow_le_pow_right (by norm_num) h1
  simp only [refMax, fieldBits]
  omega

/-- Every slot address (page offset plus previous sizes) fits the
address field. -/
theorem slot_addr_le (c : Params) (h : cfgOk c) (pg off : Nat)
    (hpg : pg < c.maxPages) (hoff : off < pageSize c pg) :
    off + prevSzSum c pg ≤ addrBits c := by
  obtain ⟨hElt, hshift, haddrlen, hgs, hgw, hgs2, hgtile, hreftile, hlcw⟩ := cfgFacts c h
  have hI : actualInitialSz c = 2 ^ szExp c := actualInitialSz_eq_pow c
  have hIpos : 0 < actualInitialSz c := by
    rw [hI]; exact Nat.pos_pow_of_pos _ (by norm_num)
  have h1 : actualInitialSz c * 2 ^ (pg + 1) ≤ 2 ^ addrLen c := by
    rw [hI, ← Nat.pow_add, haddrlen]
    exact Nat.pow_le_pow_right (by norm_num) (by omega)
  have hps : pageSize c pg = actualInitialSz c * 2 ^ pg := rfl
  rw [hps] at hoff
  have hpv := prevSzSum_eq c pg
  have h3 : 1 ≤ (2:Nat) ^ pg := Nat.one_le_two_pow
  have h4 : actualInitialSz c * 2 ^ pg
      = actualInitialSz c * (2 ^ pg - 1) + actualInitialSz c := by
    have he : (2:Nat) ^ pg = (2 ^ pg - 1) + 1 := by omega
    calc actualInitialSz c * 2 ^ pg
        = actualInitialSz c * ((2 ^ pg - 1) + 1) := by rw [← he]
    _ = actualInitialSz c * (2 ^ pg - 1) + actualInitialSz c := by ring
  have h5 : actualInitialSz c * 2 ^ (pg + 1)
      = actualInitialSz c * 2 ^ pg + actualInitialSz c * 2 ^ pg := by
    rw [Nat.pow_succ]; ring
  simp only [addrBits, fieldBits]
  omega

/-- A value below a field width unpacks to itself at shift zero. -/
theorem unpackField_small (len w : Nat) (hw : w ≤ fieldBits len)
    (hfit : len ≤ WIDTH) : unpackField len 0 w = w := by
  have hp : packField len 0 0 w = w := by
    simp [packField, Nat.zero_and, Nat.zero_or, Nat.shiftLeft_zero]
  nth_rewrite 1 [← hp]
  exact unpackField_packField len 0 0 w hw (by omega)

/-- Decoding the key built by Slab::insert: thread id 0, the slot
address, and the slot generation are recovered exactly. -/
theorem insertKey_decode (c : Params) (h : cfgOk c) (a g : Nat)
    (ha : a ≤ addrBits c) (hg : g ≤ fieldBits (genLen c)) :
    unpackTid c (packTidK c 0 (packGenK c g a)) = 0 ∧
    unpackAddr c (packTidK c 0 (packGenK c g a)) = a ∧
    unpackGen c (packTidK c 0 (packGenK c g a)) = g := by
  obtain ⟨hElt, hshift, haddrlen, hgs, hgw, hgs2, hgtile, hreftile, hlcw⟩ := cfgFacts c h
  have htid : 1 ≤ tidLen c := by simp [tidLen]
  have hgsdef : genShift c = tidShift c + tidLen c := rfl
  have htsdef : tidShift c = addrLen c := rfl
  have hawLe : addrLen c ≤ WIDTH :=
    Nat.le_trans (Nat.le_of_succ_le hgs) (Nat.le_trans (Nat.le_add_right _ _) hgw)
  have halt : a < 2 ^ WIDTH := by
    simp only [addrBits, fieldBits] at ha
    have h1 : (2:Nat) ^ addrLen c ≤ 2 ^ WIDTH :=
      Nat.pow_le_pow_right (by norm_num) hawLe
    have h2 : (0:Nat) < 2 ^ addrLen c := Nat.pos_pow_of_pos _ (by norm_num)
    omega
  have hglt : packGenK c g a < 2 ^ WIDTH :=
    packField_lt_two_pow _ _ _ _ hg halt (by omega)
  have hfitTid : tidShift c + tidLen c ≤ WIDTH := by
    rw [← hgsdef]; omega
  refine ⟨?_, ?_, ?_⟩
  · rw [unpackTid, packTidK]
    exact unpackField_packField (tidLen c) (tidShift c) (packGenK c g a) 0
      (Nat.zero_le _) hfitTid
  · rw [unpackAddr, packTidK,
      unpackField_packField_disjoint _ _ _ _ _ _ (Nat.zero_le _) hglt
        (Or.inl (by simp only [htsdef]; omega)),
      packGenK,
      unpackField_packField_disjoint _ _ _ _ _ _ hg halt
        (Or.inl (by omega)),
      unpackField_small _ _ ha (by omega)]
  · rw [unpackGen, packTidK,
      unpackField_packField_disjoint _ _ _ _ _ _ (Nat.zero_le _) hglt
        (Or.inr (by simp only [hgsdef]; omega)),
      packGenK, unpackField_packField _ _ _ _ hg (by omega)]

set_option maxHeartbeats 800000 in
theorem pageInsert_char (c : Params) (h : cfgOk c) (i : Nat) (lh : Nat)
    (P P2 : PageState α) (v : α) (lh2 : Nat) (res : Option Nat)
    (hi : i < c.maxPages)
    (hSP : StructPage c i P) (hPI : pageInv c lh P)
    (hrun : pageInsert c lh P v = some (lh2, P2, res)) :
    StructPage c i P2 ∧ pageInv c lh2 P2 ∧ P2.size = P.size ∧ P2.prevSz = P.prevSz ∧
    (∀ slots, P.slab = some slots →
      ∃ slots2, P2.slab = some slots2 ∧ slots2.length = slots.length) ∧
    (∀ slots off sl, P.slab = some slots → slots.get? off = some sl →
      sl.item.isSome = true →
      ∃ slots2, P2.slab = some slots2 ∧ slots2.get? off = some sl) ∧
    (∀ slots off sl, P.slab = some slots → slots.get? off = some sl →
      ∃ slots2 sl2, P2.slab = some slots2 ∧ slots2.get? off = some sl2 ∧
        wGen c sl2.lifecycle = wGen c sl.lifecycle ∧ goodSlot c sl2) ∧
    (∀ kidx, res = some kidx →
      ∃ head gen slots2 sl2,
        kidx = packGenK c gen (head + P.prevSz) ∧ head < P.size ∧
        gen ≤ fieldBits (genLen c) ∧
        P2.slab = some slots2 ∧ slots2.get? head = some sl2 ∧
        sl2.item = some v ∧ wGen c sl2.lifecycle = gen ∧
        lcState sl2.lifecycle = stNotRemoved ∧ wRefs c sl2.lifecycle = 0) := by
  obtain ⟨hsz, hprev, hslots⟩ := hSP
  obtain ⟨hremote, hcase⟩ := hPI
  have hszpos : 1 ≤ P.size := by rw [hsz]; exact pageSize_pos c i
  have hsznull : P.size < addrNull c := by rw [hsz]; exact pageSize_lt_addrNull c h i hi
  by_cases hlh : lh < P.size
  · -- local free list head is used
    have hlhne : ¬ lh = addrNull c := by omega
    have hgh : getHead c lh P = (P, some lh) := by
      rw [getHead]
      simp only [if_pos hlh]
      rw [if_neg hlhne]
    rw [pageInsert, hgh] at hrun
    simp only at hrun
    rcases hPs : P.slab with _ | slots
    · -- allocation path
      have hlh0 : lh = 0 := by
        rcases hcase with ⟨_, h0⟩ | ⟨slots, fl, hsome, _⟩
        · exact h0
        · rw [hPs] at hsome; cases hsome
      subst hlh0
      rw [hPs] at hrun
      simp only [Option.isNone_none, if_true, ite_true] at hrun
      have hfresh0 : (freshSlots c P.size : List (SlotState α)).get? 0
          = some ⟨0, if 0 = P.size - 1 then addrNull c else 1, none⟩ :=
        freshSlots_get? c P.size 0 (by omega)
      rw [hfresh0] at hrun
      simp only at hrun
      -- Slot::insert on the fresh zero word always succeeds
      have hins := slotInsertOp_char c
        (⟨0, if 0 = P.size - 1 then addrNull c else 1, none⟩ : SlotState α) v
      have hrefs0 : wRefs c (0:Nat) = 0 := by rw [wRefs, unpackField_zero]
      rcases hins with ⟨hne0, _⟩ | ⟨_, heq⟩
      · exact absurd hrefs0 hne0
      · rw [heq] at hrun
        have hgen0 : wGen c (0:Nat) = 0 := by rw [wGen, unpackField_zero]
        obtain ⟨hwlt, hwgen, hwst, hwrefs⟩ :=
          insertWord_facts c h (wGen c (0:Nat)) (wGen_le_bits c 0)
        simp only [Option.some.injEq, Prod.mk.injEq] at hrun
        obtain ⟨hlh2, hP2, hres⟩ := hrun
        subst hlh2
        subst hP2
        subst hres
        set newSlot : SlotState α :=
          ⟨packGenW c (wGen c (0:Nat)) (packStateW stNotRemoved 0),
           if 0 = P.size - 1 then addrNull c else 1, some v⟩ with hns
        have hsetlen : ((freshSlots c P.size).set 0 newSlot : List (SlotState α)).length
            = P.size := by
          rw [length_set, freshSlots_length c P.size hszpos]
        have hget0 : ((freshSlots c P.size).set 0 newSlot : List (SlotState α)).get? 0
            = some newSlot :=
          get?_set_self _ _ _ (by rw [freshSlots_length c P.size hszpos]; omega)
        refine ⟨⟨hsz, hprev, ?_⟩, ?_, rfl, rfl, ?_, ?_, ?_, ?_⟩
        · -- structural facts of the new page
          intro slots2 hs2
          simp only [Option.some.injEq] at hs2
          subst hs2
          refine ⟨hsetlen, ?_⟩
          intro sl hmem
          rcases mem_set_of_mem _ _ _ _ hmem with hmem2 | hmem2
          · obtain ⟨hit, hlc⟩ := freshSlots_mem c P.size sl hmem2
            refine ⟨?_, ?_⟩
            · rw [hlc]
              exact Nat.pos_pow_of_pos _ (by norm_num)
            · rw [hlc, show lcState 0 = 0 by decide]
              omega
          · rw [hmem2]
            refine ⟨hwlt, ?_⟩
            show lcState (packGenW c (wGen c (0:Nat)) (packStateW stNotRemoved 0)) ≠ 2
            rw [hwst]
            decide
        · -- free list invariant of the new page
          refine ⟨hremote, Or.inr ?_⟩
          refine ⟨(freshSlots c P.size).set 0 newSlot, List.range' 1 (P.size - 1),
            rfl, ?_, List.nodup_range' _ _, ?_⟩
          · -- chain: the tail of the fresh chain survives the write at 0
            have hnotin : 0 ∉ List.range' 1 (P.size - 1) := by
              intro hmem
              have := List.mem_range'.mp hmem
              omega
            by_cases hone : 0 = P.size - 1
            · rw [if_pos hone]
              have hzero : P.size - 1 = 0 := by omega
              rw [hzero]
              exact Chain.nil
            · rw [if_neg hone]
              have hone2 : ¬ 1 = P.size := by omega
              have hchain : Chain c (freshSlots c P.size : List (SlotState α))
                  1 (List.range' 1 (P.size - 1)) := by
                have hc : Chain c (freshSlots c P.size : List (SlotState α))
                    (if 1 = P.size then addrNull c else 1) (List.range' 1 (P.size - 1)) :=
                  freshChain c P.size hszpos hsznull (P.size - 1) 1 (by omega)
                rw [if_neg hone2] at hc
                exact hc
              exact chain_set_outside c (freshSlots c P.size) 1
                (List.range' 1 (P.size - 1)) hchain 0 newSlot hnotin
          · intro sl hmem hsome
            rcases mem_set_of_mem _ _ _ _ hmem with hmem2 | hmem2
            · obtain ⟨hit, _⟩ := freshSlots_mem c P.size sl hmem2
              rw [hit] at hsome
              simp at hsome
            · rw [hmem2]
              exact hwrefs
        · intro slots hs
          cases hs
        · intro slots off sl hs
          cases hs
        · intro slots off sl hs
          cases hs
        · intro kidx hk
          simp only [Option.some.injEq] at hk
          exact ⟨0, wGen c (0:Nat), (freshSlots c P.size).set 0 newSlot, newSlot,
            hk.symm, hlh, wGen_le_bits c 0, rfl, hget0, rfl, hwgen, hwst, hwrefs⟩
    · -- the page is already allocated
      obtain ⟨fl, hchain, hnodup, hrefs0⟩ :
          ∃ fl, Chain c slots lh fl ∧ fl.Nodup ∧
            ∀ sl ∈ slots, sl.item.isSome = true → wRefs c sl.lifecycle = 0 := by
        rcases hcase with ⟨hn, _⟩ | ⟨slots0, fl, hsome, hchain, hnodup, hrefs0⟩
        · rw [hPs] at hn; cases hn
        · rw [hPs] at hsome
          obtain rfl : slots0 = slots := (Option.some_inj.mp hsome).symm
          exact ⟨fl, hchain, hnodup, hrefs0⟩
      have hlen : slots.length = P.size := (hslots slots hPs).1
      -- the chain cannot be empty because its head is a real offset
      rcases hchain with _ | ⟨_, sl, rest, hget, hitem, htail⟩
      · exact absurd rfl hlhne
      rw [hPs] at hrun
      simp only [Option.isNone_some] at hrun
      rw [if_neg (by simp)] at hrun
      rw [hPs] at hrun
      simp only at hrun
      rw [hget] at hrun
      simp only at hrun
      have hnotin : lh ∉ rest := by
        have := List.nodup_cons.mp hnodup
        exact this.1
      have hnodup2 : rest.Nodup := (List.nodup_cons.mp hnodup).2
      rcases slotInsertOp_char c sl v with ⟨hne0, heq⟩ | ⟨hzero, heq⟩
      · -- insert fails on a slot with leaked references; the head advances
        rw [heq] at hrun
        have hset : slots.set lh sl = slots := set_same slots lh sl hget
        simp only [Option.some.injEq, Prod.mk.injEq] at hrun
        obtain ⟨hlh2, hP2, hres⟩ := hrun
        rw [hset, ← hPs] at hP2
        subst hlh2
        subst hres
        subst hP2
        refine ⟨⟨hsz, hprev, hslots⟩, ?_, rfl, rfl, ?_, ?_, ?_, ?_⟩
        · exact ⟨hremote, Or.inr ⟨slots, rest, hPs, htail, hnodup2, hrefs0⟩⟩
        · intro slots1 hs1
          obtain rfl : slots = slots1 := Option.some_inj.mp hs1
          exact ⟨slots, hPs, rfl⟩
        · intro slots1 off sl1 hs1 hoff hsome1
          obtain rfl : slots = slots1 := Option.some_inj.mp hs1
          exact ⟨slots, hPs, hoff⟩
        · intro slots1 off sl1 hs1 hoff
          obtain rfl : slots = slots1 := Option.some_inj.mp hs1
          exact ⟨slots, sl1, hPs, hoff, rfl,
            (hslots slots hPs).2 sl1 (mem_of_get? _ _ _ hoff)⟩
        · intro kidx hk
          cases hk
      · -- insert succeeds: the head slot becomes occupied
        rw [heq] at hrun
        set newSlot : SlotState α :=
          ⟨packGenW c (wGen c sl.lifecycle) (packStateW stNotRemoved 0), sl.next, some v⟩
          with hns
        obtain ⟨hwlt, hwgen, hwst, hwrefs⟩ :=
          insertWord_facts c h (wGen c sl.lifecycle) (wGen_le_bits c sl.lifecycle)
        simp only [Option.some.injEq, Prod.mk.injEq] at hrun
        obtain ⟨hlh2, hP2, hres⟩ := hrun
        subst hlh2
        subst hres
        subst hP2
        have hlhlen : lh < slots.length := List.get?_eq_some.mp hget |>.choose
        have hget2 : (slots.set lh newSlot).get? lh = some newSlot :=
          get?_set_self _ _ _ hlhlen
        have hgood : goodSlot c newSlot := by
          refine ⟨hwlt, ?_⟩
          show lcState (packGenW c (wGen c sl.lifecycle) (packStateW stNotRemoved 0)) ≠ 2
          rw [hwst]
          decide
        refine ⟨⟨hsz, hprev, ?_⟩, ?_, rfl, rfl, ?_, ?_, ?_, ?_⟩
        · intro slots1 hs1
          simp only [Option.some.injEq] at hs1
          subst hs1
          constructor
          · rw [length_set]
            exact hlen
          · intro sl1 hmem
            rcases mem_set_of_mem _ _ _ _ hmem with hmem2 | hmem2
            · exact (hslots slots hPs).2 sl1 hmem2
            · rw [hmem2]
              exact hgood
        · refine ⟨hremote, Or.inr ⟨slots.set lh newSlot, rest, rfl, ?_, hnodup2, ?_⟩⟩
          · exact chain_set_outside c slots sl.next rest htail lh newSlot hnotin
          · intro sl1 hmem hsome1
            rcases mem_set_of_mem _ _ _ _ hmem with hmem2 | hmem2
            · exact hrefs0 sl1 hmem2 hsome1
            · rw [hmem2]
              exact hwrefs
        · intro slots1 hs1
          obtain rfl : slots = slots1 := Option.some_inj.mp hs1
          exact ⟨slots.set lh newSlot, rfl, by rw [length_set]⟩
        · intro slots1 off sl1 hs1 hoff hsome1
          obtain rfl : slots = slots1 := Option.some_inj.mp hs1
          have hoffne : off ≠ lh := by
            intro hEq
            rw [hEq, hget] at hoff
            simp only [Option.some.injEq] at hoff
            rw [← hoff, hitem] at hsome1
            simp at hsome1
          refine ⟨slots.set lh newSlot, rfl, ?_⟩
          rw [get?_set_ne _ _ _ _ (fun hEq => hoffne hEq.symm)]
          exact hoff
        · intro slots1 off sl1 hs1 hoff
          obtain rfl : slots = slots1 := Option.some_inj.mp hs1
          by_cases hoffeq : off = lh
          · subst hoffeq
            rw [hget] at hoff
            simp only [Option.some.injEq] at hoff
            subst hoff
            exact ⟨slots.set off newSlot, newSlot, rfl, hget2, hwgen, hgood⟩
          · refine ⟨slots.set lh newSlot, sl1, rfl, ?_, rfl, ?_⟩
            · rw [get?_set_ne _ _ _ _ (fun hEq => hoffeq hEq.symm)]
              exact hoff
            · exact (hslots slots hPs).2 sl1 (mem_of_get? _ _ _ hoff)
        · intro kidx hk
          simp only [Option.some.injEq] at hk
          exact ⟨lh, wGen c sl.lifecycle, slots.set lh newSlot, newSlot, hk.symm,
            hlh, wGen_le_bits c sl.lifecycle, rfl, hget2, rfl, hwgen, hwst, hwrefs⟩
  · -- the local list is exhausted; the transfer stack is empty
    have hpop : popAll c P = ({ P with remote := addrNull c }, none) := by
      rw [popAll, if_pos hremote]
    have hPeq : ({ P with remote := addrNull c } : PageState α) = P := by
      rw [← hremote]
    have hgh : getHead c lh P = (P, none) := by
      rw [getHead]
      simp only [if_neg hlh]
      rw [hpop, hPeq]
    rw [pageInsert, hgh] at hrun
    simp only [Option.some.injEq, Prod.mk.injEq] at hrun
    obtain ⟨hlh2, hP2, hres⟩ := hrun
    subst hlh2
    subst hP2
    subst hres
    refine ⟨⟨hsz, hprev, hslots⟩, ⟨hremote, hcase⟩, rfl, rfl, ?_, ?_, ?_, ?_⟩
    · intro slots1 hs1
      exact ⟨slots1, hs1, rfl⟩
    · intro slots1 off sl1 hs1 hoff hsome1
      exact ⟨slots1, hs1, hoff⟩
    · intro slots1 off sl1 hs1 hoff
      exact ⟨slots1, sl1, hs1, hoff, rfl,
        (hslots slots1 hs1).2 sl1 (mem_of_get? _ _ _ hoff)⟩
    · intro kidx hk
      cases hk

/-- Shared::get either leaves the page untouched and yields no value, or
the addressed slot matches the key generation in state NOT_REMOVED and
only its reference count is bumped. -/
theorem pageGet_char (c : Params) (P P2 : PageState α)
    (addr key : Nat) (res : Option α)
    (hrun : pageGet c P addr key = some (P2, res)) :
    (P2 = P ∧ res = none) ∨
    (∃ slots sl, P.slab = some slots ∧
      slots.get? (addr - P.prevSz) = some sl ∧
      unpackGen c key = wGen c sl.lifecycle ∧
      lcState sl.lifecycle = stNotRemoved ∧ lcState sl.lifecycle ≠ 2 ∧
      wRefs c sl.lifecycle < refMax c ∧ res = sl.item ∧
      P2 = { P with slab := some (slots.set (addr - P.prevSz)
              { sl with lifecycle := getAcquireWord c sl.lifecycle }) }) := by
  rcases hPs : P.slab with _ | slots
  · rw [pageGet, hPs] at hrun
    simp only [Option.some.injEq, Prod.mk.injEq] at hrun
    exact Or.inl ⟨hrun.1.symm, hrun.2.symm⟩
  · rw [pageGet, hPs] at hrun
    simp only at hrun
    rcases hoff : slots.get? (addr - P.prevSz) with _ | sl
    · rw [hoff] at hrun
      simp only [Option.some.injEq, Prod.mk.injEq] at hrun
      exact Or.inl ⟨hrun.1.symm, hrun.2.symm⟩
    · rw [hoff] at hrun
      simp only at hrun
      rcases hsg : slotGet c (unpackGen c key) sl with _ | p
      · rw [hsg] at hrun
        simp only at hrun
        cases hrun
      · obtain ⟨sl2, res2⟩ := p
        rw [hsg] at hrun
        simp only [Option.some.injEq, Prod.mk.injEq] at hrun
        obtain ⟨hP2, hres⟩ := hrun
        obtain ⟨hst2, hcases⟩ := slotGet_char c _ sl sl2 res2 hsg
        rcases hcases with ⟨hsl2, hres2, _⟩ | ⟨hgen, hstate, hrefs, hres2, hsl2⟩
        · left
          constructor
          · rw [← hP2, hsl2, set_same slots _ sl hoff, ← hPs]
          · rw [← hres, hres2]
        · right
          refine ⟨slots, sl, rfl, hoff, hgen, hstate, hst2, hrefs, ?_, ?_⟩
          · rw [← hres, hres2]
          · rw [← hP2, hsl2]

set_option maxHeartbeats 800000 in
/-- Shared::take through the local free list: a generation mismatch (or
an unallocated page or out-of-range offset) is a no-op; a matching
generation on an occupied slot takes the value, advances the generation
and pushes the slot at the head of the local list. -/
theorem pageTake_char (c : Params) (h : cfgOk c) (i lh : Nat) (P P2 : PageState α)
    (addr gen : Nat) (lh2 : Nat) (res : Option α)
    (hSP : StructPage c i P) (hPI : pageInv c lh P)
    (hvac : ∀ slots sl, P.slab = some slots →
      slots.get? (addr - P.prevSz) = some sl → sl.item = none →
      gen ≠ wGen c sl.lifecycle)
    (hrun : pageTake c true lh P addr gen = some (lh2, P2, res)) :
    StructPage c i P2 ∧ pageInv c lh2 P2 ∧ P2.size = P.size ∧ P2.prevSz = P.prevSz ∧
    (∀ slots, P.slab = some slots →
      ∃ slots2, P2.slab = some slots2 ∧ slots2.length = slots.length) ∧
    (∀ slots off sl, P.slab = some slots → slots.get? off = some sl →
      sl.item.isSome = true →
      (off = addr - P.prevSz ∧ gen = wGen c sl.lifecycle) ∨
      ∃ slots2, P2.slab = some slots2 ∧ slots2.get? off = some sl) ∧
    (∀ slots off sl, P.slab = some slots → slots.get? off = some sl →
      ∃ slots2 sl2, P2.slab = some slots2 ∧ slots2.get? off = some sl2 ∧
        (wGen c sl2.lifecycle = wGen c sl.lifecycle ∨
         (off = addr - P.prevSz ∧ wGen c sl2.lifecycle = genAdvance c gen))) ∧
    (∀ v, res = some v → ∃ slots sl slots2 sl2,
      P.slab = some slots ∧ slots.get? (addr - P.prevSz) = some sl ∧
      gen = wGen c sl.lifecycle ∧ sl.item = some v ∧
      P2.slab = some slots2 ∧ slots2.get? (addr - P.prevSz) = some sl2 ∧
      sl2.item = none ∧ wGen c sl2.lifecycle = genAdvance c gen) ∧
    (∀ slots sl, P.slab = some slots → slots.get? (addr - P.prevSz) = some sl →
      gen = wGen c sl.lifecycle →
      res = sl.item ∧ ∃ slots2 sl2, P2.slab = some slots2 ∧
        slots2.get? (addr - P.prevSz) = some sl2 ∧ sl2.item = none ∧
        wGen c sl2.lifecycle = genAdvance c gen) := by
  obtain ⟨hsz, hprev, hslots⟩ := hSP
  obtain ⟨hremote, hcase⟩ := hPI
  rcases hPs : P.slab with _ | slots
  · rw [pageTake, hPs] at hrun
    simp only [Option.some.injEq, Prod.mk.injEq] at hrun
    obtain ⟨hlh2, hP2, hres⟩ := hrun
    subst hlh2
    subst hP2
    subst hres
    refine ⟨⟨hsz, hprev, hslots⟩, ⟨hremote, hcase⟩, rfl, rfl, ?_, ?_, ?_, ?_, ?_⟩
    · intro slots1 hs1
      cases hs1
    · intro slots1 off sl1 hs1
      cases hs1
    · intro slots1 off sl1 hs1
      cases hs1
    · intro v hv
      cases hv
    · intro slots1 sl1 hs1
      cases hs1
  · rw [pageTake, hPs] at hrun
    simp only at hrun
    rcases hoff : slots.get? (addr - P.prevSz) with _ | slot
    · rw [hoff] at hrun
      simp only [Option.some.injEq, Prod.mk.injEq] at hrun
      obtain ⟨hlh2, hP2, hres⟩ := hrun
      subst hlh2
      subst hP2
      subst hres
      refine ⟨⟨hsz, hprev, hslots⟩, ⟨hremote, hcase⟩, rfl, rfl, ?_, ?_, ?_, ?_, ?_⟩
      · intro slots1 hs1
        obtain rfl : slots = slots1 := Option.some_inj.mp hs1
        exact ⟨slots, hPs, rfl⟩
      · intro slots1 off sl1 hs1 hoff1 hsome1
        obtain rfl : slots = slots1 := Option.some_inj.mp hs1
        exact Or.inr ⟨slots, hPs, hoff1⟩
      · intro slots1 off sl1 hs1 hoff1
        obtain rfl : slots = slots1 := Option.some_inj.mp hs1
        exact ⟨slots, sl1, hPs, hoff1, Or.inl rfl⟩
      · intro v hv
        cases hv
      · intro slots1 sl1 hs1 hoff1
        obtain rfl : slots = slots1 := Option.some_inj.mp hs1
        rw [hoff] at hoff1
        cases hoff1
    · rw [hoff] at hrun
      simp only at hrun
      rcases hsv : slotRemoveValueSeq c gen slot with _ | p
      · rw [hsv] at hrun
        simp only at hrun
        cases hrun
      · obtain ⟨sl2, res2, pushed⟩ := p
        rw [hsv] at hrun
        simp only at hrun
        obtain ⟨hB0, hcases⟩ := slotRemoveValueSeq_char c gen slot sl2 res2 pushed hsv
        rcases hcases with ⟨hne, hsl2, hres2, hpush⟩ | ⟨hgeq, hrefs0, hsl2, hres2, hpush⟩
        · -- generation mismatch: nothing happens
          rw [hsl2, hres2, hpush] at hrun
          rw [if_neg Bool.false_ne_true] at hrun
          simp only [Option.some.injEq, Prod.mk.injEq] at hrun
          obtain ⟨hlh2, hP2, hres⟩ := hrun
          rw [set_same slots _ slot hoff, ← hPs] at hP2
          subst hlh2
          subst hP2
          subst hres
          refine ⟨⟨hsz, hprev, hslots⟩, ⟨hremote, hcase⟩, rfl, rfl, ?_, ?_, ?_, ?_, ?_⟩
          · intro slots1 hs1
            obtain rfl : slots = slots1 := Option.some_inj.mp hs1
            exact ⟨slots, hPs, rfl⟩
          · intro slots1 off sl1 hs1 hoff1 hsome1
            obtain rfl : slots = slots1 := Option.some_inj.mp hs1
            exact Or.inr ⟨slots, hPs, hoff1⟩
          · intro slots1 off sl1 hs1 hoff1
            obtain rfl : slots = slots1 := Option.some_inj.mp hs1
            exact ⟨slots, sl1, hPs, hoff1, Or.inl rfl⟩
          · intro v hv
            cases hv
          · intro slots1 sl1 hs1 hoff1 hg1
            obtain rfl : slots = slots1 := Option.some_inj.mp hs1
            rw [hoff] at hoff1
            obtain rfl : slot = sl1 := Option.some_inj.mp hoff1
            exact absurd hg1 hne
        · -- matching generation: the value is taken and the slot freed
          subst hsl2
          subst hres2
          subst hpush
          simp only [if_true, Option.some.injEq, Prod.mk.injEq] at hrun
          obtain ⟨hlh2, hP2, hres⟩ := hrun
          subst hlh2
          subst hP2
          subst hres
          -- the addressed slot is occupied, for freeing it is allowed
          have hitem : slot.item.isSome = true := by
            rcases hit : slot.item with _ | w
            · exact absurd hgeq (hvac slots slot hPs hoff hit)
            · rfl
          obtain ⟨fl, hchain, hnodup, hrefs0all⟩ :
              ∃ fl, Chain c slots lh fl ∧ fl.Nodup ∧
                ∀ sl ∈ slots, sl.item.isSome = true → wRefs c sl.lifecycle = 0 := by
            rcases hcase with ⟨hn, _⟩ | ⟨slots0, fl, hsome, hchain, hnodup, hrefs0⟩
            · rw [hPs] at hn; cases hn
            · rw [hPs] at hsome
              obtain rfl : slots0 = slots := (Option.some_inj.mp hsome).symm
              exact ⟨fl, hchain, hnodup, hrefs0⟩
          have hofflen : addr - P.prevSz < slots.length :=
            List.get?_eq_some.mp hoff |>.choose
          have hgood : goodSlot c slot :=
            (hslots slots hPs).2 slot (mem_of_get? _ _ _ hoff)
          have hadvle : genAdvance c gen ≤ fieldBits (genLen c) := by
            have : genAdvance c gen < fieldBits (genLen c) :=
              Nat.mod_lt _ (by omega)
            omega
          obtain ⟨halt, hagen, hast, harefs⟩ :=
            advanceWord_facts c h (genAdvance c gen) slot.lifecycle hgood.1 hadvle
          set newSl : SlotState α :=
            ⟨packGenW c (genAdvance c gen) slot.lifecycle, lh, none⟩ with hns
          have hget2 : (slots.set (addr - P.prevSz) newSl).get? (addr - P.prevSz)
              = some newSl := get?_set_self _ _ _ hofflen
          have hnotin : addr - P.prevSz ∉ fl := by
            intro hmem
            obtain ⟨slx, hgx, hix⟩ := chain_mem c slots lh fl hchain _ hmem
            rw [hoff] at hgx
            obtain rfl : slot = slx := Option.some_inj.mp hgx
            rw [hix] at hitem
            cases hitem
          have hgood2 : goodSlot c newSl := by
            refine ⟨halt, ?_⟩
            show lcState (packGenW c (genAdvance c gen) slot.lifecycle) ≠ 2
            rw [hast]
            exact hgood.2
          refine ⟨⟨hsz, hprev, ?_⟩, ?_, rfl, rfl, ?_, ?_, ?_, ?_, ?_⟩
          · intro slots1 hs1
            simp only [Option.some.injEq] at hs1
            subst hs1
            constructor
            · rw [length_set, (hslots slots hPs).1]
            · intro slx hmem
              rcases mem_set_of_mem _ _ _ _ hmem with hmem2 | hmem2
              · exact (hslots slots hPs).2 slx hmem2
              · rw [hmem2]
                exact hgood2
          · refine ⟨hremote, Or.inr ⟨slots.set (addr - P.prevSz) newSl,
              (addr - P.prevSz) :: fl, rfl, ?_, ?_, ?_⟩⟩
            · refine Chain.cons _ newSl fl hget2 rfl ?_
              exact chain_set_outside c slots lh fl hchain _ newSl hnotin
            · exact List.nodup_cons.mpr ⟨hnotin, hnodup⟩
            · intro slx hmem hsomex
              rcases mem_set_of_mem _ _ _ _ hmem with hmem2 | hmem2
              · exact hrefs0all slx hmem2 hsomex
              · rw [hmem2] at hsomex
                cases hsomex
          · intro slots1 hs1
            obtain rfl : slots = slots1 := Option.some_inj.mp hs1
            exact ⟨slots.set (addr - P.prevSz) newSl, rfl, by rw [length_set]⟩
          · intro slots1 off sl1 hs1 hoff1 hsome1
            obtain rfl : slots = slots1 := Option.some_inj.mp hs1
            by_cases hoe : off = addr - P.prevSz
            · subst hoe
              rw [hoff1] at hoff
              obtain rfl : sl1 = slot := Option.some_inj.mp hoff
              exact Or.inl ⟨rfl, hgeq⟩
            · refine Or.inr ⟨slots.set (addr - P.prevSz) newSl, rfl, ?_⟩
              rw [get?_set_ne _ _ _ _ (fun hEq => hoe hEq.symm)]
              exact hoff1
          · intro slots1 off sl1 hs1 hoff1
            obtain rfl : slots = slots1 := Option.some_inj.mp hs1
            by_cases hoe : off = addr - P.prevSz
            · subst hoe
              refine ⟨slots.set (addr - P.prevSz) newSl, newSl, rfl, hget2,
                Or.inr ⟨rfl, ?_⟩⟩
              exact hagen
            · refine ⟨slots.set (addr - P.prevSz) newSl, sl1, rfl, ?_, Or.inl rfl⟩
              rw [get?_set_ne _ _ _ _ (fun hEq => hoe hEq.symm)]
              exact hoff1
          · intro v hv
            rw [hv] at hitem
            refine ⟨slots, slot, slots.set (addr - P.prevSz) newSl, newSl,
              rfl, hoff, hgeq, hv, rfl, hget2, rfl, hagen⟩
          · intro slots1 sl1 hs1 hoff1 hg1
            obtain rfl : slots = slots1 := Option.some_inj.mp hs1
            rw [hoff] at hoff1
            obtain rfl : slot = sl1 := Option.some_inj.mp hoff1
            exact ⟨rfl, slots.set (addr - P.prevSz) newSl, newSl, rfl, hget2,
              rfl, hagen⟩

set_option maxHeartbeats 800000 in
/-- Shared::remove through the local free list: a generation mismatch is
a no-op; a matching generation frees an occupied, unreferenced slot
(marking then removing in place) and pushes it onto the local list. -/
theorem pageRemove_char (c : Params) (h : cfgOk c) (i lh : Nat) (P P2 : PageState α)
    (addr gen : Nat) (lh2 : Nat) (ok : Bool)
    (hSP : StructPage c i P) (hPI : pageInv c lh P)
    (hvac : ∀ slots sl, P.slab = some slots →
      slots.get? (addr - P.prevSz) = some sl → sl.item = none →
      gen ≠ wGen c sl.lifecycle)
    (hrun : pageRemove c true lh P addr gen = some (lh2, P2, ok)) :
    StructPage c i P2 ∧ pageInv c lh2 P2 ∧ P2.size = P.size ∧ P2.prevSz = P.prevSz ∧
    (∀ slots, P.slab = some slots →
      ∃ slots2, P2.slab = some slots2 ∧ slots2.length = slots.length) ∧
    (∀ slots off sl, P.slab = some slots → slots.get? off = some sl →
      sl.item.isSome = true →
      (off = addr - P.prevSz ∧ gen = wGen c sl.lifecycle) ∨
      ∃ slots2, P2.slab = some slots2 ∧ slots2.get? off = some sl) ∧
    (∀ slots off sl, P.slab = some slots → slots.get? off = some sl →
      ∃ slots2 sl2, P2.slab = some slots2 ∧ slots2.get? off = some sl2 ∧
        (wGen c sl2.lifecycle = wGen c sl.lifecycle ∨
         (off = addr - P.prevSz ∧ wGen c sl2.lifecycle = genAdvance c gen))) := by
  obtain ⟨hsz, hprev, hslots⟩ := hSP
  obtain ⟨hremote, hcase⟩ := hPI
  rcases hPs : P.slab with _ | slots
  · rw [pageRemove, hPs] at hrun
    simp only [Option.some.injEq, Prod.mk.injEq] at hrun
    obtain ⟨hlh2, hP2, hok⟩ := hrun
    subst hlh2
    subst hP2
    refine ⟨⟨hsz, hprev, hslots⟩, ⟨hremote, hcase⟩, rfl, rfl, ?_, ?_, ?_⟩
    · intro slots1 hs1
      cases hs1
    · intro slots1 off sl1 hs1
      cases hs1
    · intro slots1 off sl1 hs1
      cases hs1
  · rw [pageRemove, hPs] at hrun
    simp only at hrun
    rcases hoff : slots.get? (addr - P.prevSz) with _ | slot
    · rw [hoff] at hrun
      simp only [Option.some.injEq, Prod.mk.injEq] at hrun
      obtain ⟨hlh2, hP2, hok⟩ := hrun
      subst hlh2
      subst hP2
      refine ⟨⟨hsz, hprev, hslots⟩, ⟨hremote, hcase⟩, rfl, rfl, ?_, ?_, ?_⟩
      · intro slots1 hs1
        obtain rfl : slots = slots1 := Option.some_inj.mp hs1
        exact ⟨slots, hPs, rfl⟩
      · intro slots1 off sl1 hs1 hoff1 hsome1
        obtain rfl : slots = slots1 := Option.some_inj.mp hs1
        exact Or.inr ⟨slots, hPs, hoff1⟩
      · intro slots1 off sl1 hs1 hoff1
        obtain rfl : slots = slots1 := Option.some_inj.mp hs1
        exact ⟨slots, sl1, hPs, hoff1, Or.inl rfl⟩
    · rw [hoff] at hrun
      simp only at hrun
      obtain ⟨fl, hchain, hnodup, hrefs0all⟩ :
          ∃ fl, Chain c slots lh fl ∧ fl.Nodup ∧
            ∀ sl ∈ slots, sl.item.isSome = true → wRefs c sl.lifecycle = 0 := by
        rcases hcase with ⟨hn, _⟩ | ⟨slots0, fl, hsome, hchain, hnodup, hrefs0⟩
        · rw [hPs] at hn; cases hn
        · rw [hPs] at hsome
          obtain rfl : slots0 = slots := (Option.some_inj.mp hsome).symm
          exact ⟨fl, hchain, hnodup, hrefs0⟩
      have hgood : goodSlot c slot :=
        (hslots slots hPs).2 slot (mem_of_get? _ _ _ hoff)
      rcases hsv : slotRemoveSeq c gen slot with _ | p
      · rw [hsv] at hrun
        simp only at hrun
        cases hrun
      · obtain ⟨sl2, ok2, pushed⟩ := p
        rw [hsv] at hrun
        simp only at hrun
        rcases slotRemoveSeq_char c h gen slot sl2 ok2 pushed hgood.1 hsv with
          ⟨hne, hsl2, hok2, hpush⟩ | ⟨hgeq, hrpos, _, _, _⟩ |
          ⟨hgeq, hrefs0, hB0, hsl2, hok2, hpush⟩
        · -- generation mismatch: nothing happens
          rw [hsl2, hok2, hpush] at hrun
          rw [if_neg Bool.false_ne_true] at hrun
          simp only [Option.some.injEq, Prod.mk.injEq] at hrun
          obtain ⟨hlh2, hP2, hok⟩ := hrun
          rw [set_same slots _ slot hoff, ← hPs] at hP2
          subst hlh2
          subst hP2
          refine ⟨⟨hsz, hprev, hslots⟩, ⟨hremote, hcase⟩, rfl, rfl, ?_, ?_, ?_⟩
          · intro slots1 hs1
            obtain rfl : slots = slots1 := Option.some_inj.mp hs1
            exact ⟨slots, hPs, rfl⟩
          · intro slots1 off sl1 hs1 hoff1 hsome1
            obtain rfl : slots = slots1 := Option.some_inj.mp hs1
            exact Or.inr ⟨slots, hPs, hoff1⟩
          · intro slots1 off sl1 hs1 hoff1
            obtain rfl : slots = slots1 := Option.some_inj.mp hs1
            exact ⟨slots, sl1, hPs, hoff1, Or.inl rfl⟩
        · -- a referenced slot cannot be addressed between operations
          exfalso
          have hitem : slot.item.isSome = true := by
            rcases hit : slot.item with _ | w
            · exact absurd hgeq (hvac slots slot hPs hoff hit)
            · rfl
          have := hrefs0all slot (mem_of_get? _ _ _ hoff) hitem
          omega
        · -- matching generation: the slot is freed in place
          subst hsl2
          subst hok2
          subst hpush
          simp only [if_true, Option.some.injEq, Prod.mk.injEq] at hrun
          obtain ⟨hlh2, hP2, hok⟩ := hrun
          subst hlh2
          subst hP2
          have hitem : slot.item.isSome = true := by
            rcases hit : slot.item with _ | w
            · exact absurd hgeq (hvac slots slot hPs hoff hit)
            · rfl
          have hofflen : addr - P.prevSz < slots.length :=
            List.get?_eq_some.mp hoff |>.choose
          have hadvle : genAdvance c gen ≤ fieldBits (genLen c) := by
            have : genAdvance c gen < fieldBits (genLen c) :=
              Nat.mod_lt _ (by omega)
            omega
          obtain ⟨hmlt, hmgen, hmst, hmrefs⟩ :=
            markWord_facts c h slot.lifecycle hgood.1
          obtain ⟨halt, hagen, hast, harefs⟩ :=
            advanceWord_facts c h (genAdvance c gen)
              (packStateW stMarked slot.lifecycle) hmlt hadvle
          set newSl : SlotState α :=
            ⟨packGenW c (genAdvance c gen) (packStateW stMarked slot.lifecycle),
             lh, none⟩ with hns
          have hget2 : (slots.set (addr - P.prevSz) newSl).get? (addr - P.prevSz)
              = some newSl := get?_set_self _ _ _ hofflen
          have hnotin : addr - P.prevSz ∉ fl := by
            intro hmem
            obtain ⟨slx, hgx, hix⟩ := chain_mem c slots lh fl hchain _ hmem
            rw [hoff] at hgx
            obtain rfl : slot = slx := Option.some_inj.mp hgx
            rw [hix] at hitem
            cases hitem
          have hgood2 : goodSlot c newSl := by
            refine ⟨halt, ?_⟩
            show lcState (packGenW c (genAdvance c gen)
              (packStateW stMarked slot.lifecycle)) ≠ 2
            rw [hast, hmst]
            decide
          refine ⟨⟨hsz, hprev, ?_⟩, ?_, rfl, rfl, ?_, ?_, ?_⟩
          · intro slots1 hs1
            simp only [Option.some.injEq] at hs1
            subst hs1
            constructor
            · rw [length_set, (hslots slots hPs).1]
            · intro slx hmem
              rcases mem_set_of_mem _ _ _ _ hmem with hmem2 | hmem2
              · exact (hslots slots hPs).2 slx hmem2
              · rw [hmem2]
                exact hgood2
          · refine ⟨hremote, Or.inr ⟨slots.set (addr - P.prevSz) newSl,
              (addr - P.prevSz) :: fl, rfl, ?_, ?_, ?_⟩⟩
            · refine Chain.cons _ newSl fl hget2 rfl ?_
              exact chain_set_outside c slots lh fl hchain _ newSl hnotin
            · exact List.nodup_cons.mpr ⟨hnotin, hnodup⟩
            · intro slx hmem hsomex
              rcases mem_set_of_mem _ _ _ _ hmem with hmem2 | hmem2
              · exact hrefs0all slx hmem2 hsomex
              · rw [hmem2] at hsomex
                cases hsomex
          · intro slots1 hs1
            obtain rfl : slots = slots1 := Option.some_inj.mp hs1
            exact ⟨slots.set (addr - P.prevSz) newSl, rfl, by rw [length_set]⟩
          · intro slots1 off sl1 hs1 hoff1 hsome1
            obtain rfl : slots = slots1 := Option.some_inj.mp hs1
            by_cases hoe : off = addr - P.prevSz
            · subst hoe
              rw [hoff1] at hoff
              obtain rfl : sl1 = slot := Option.some_inj.mp hoff
              exact Or.inl ⟨rfl, hgeq⟩
            · refine Or.inr ⟨slots.set (addr - P.prevSz) newSl, rfl, ?_⟩
              rw [get?_set_ne _ _ _ _ (fun hEq => hoe hEq.symm)]
              exact hoff1
          · intro slots1 off sl1 hs1 hoff1
            obtain rfl : slots = slots1 := Option.some_inj.mp hs1
            by_cases hoe : off = addr - P.prevSz
            · subst hoe
              refine ⟨slots.set (addr - P.prevSz) newSl, newSl, rfl, hget2,
                Or.inr ⟨rfl, ?_⟩⟩
              exact hagen
            · refine ⟨slots.set (addr - P.prevSz) newSl, sl1, rfl, ?_, Or.inl rfl⟩
              rw [get?_set_ne _ _ _ _ (fun hEq => hoe hEq.symm)]
              exact hoff1

/-- How any page evolves under operations that never disturb occupied
slots: sizes stay, occupied slots stay exactly, and every slot keeps its
generation. -/
def pagePres (c : Params) (P P2 : PageState α) : Prop :=
  P2.size = P.size ∧ P2.prevSz = P.prevSz ∧
  (∀ slots, P.slab = some slots →
    ∃ slots2, P2.slab = some slots2 ∧ slots2.length = slots.length) ∧
  (∀ slots off sl, P.slab = some slots → slots.get? off = some sl →
    sl.item.isSome = true →
    ∃ slots2, P2.slab = some slots2 ∧ slots2.get? off = some sl) ∧
  (∀ slots off sl, P.slab = some slots → slots.get? off = some sl →
    ∃ slots2 sl2, P2.slab = some slots2 ∧ slots2.get? off = some sl2 ∧
      wGen c sl2.lifecycle = wGen c sl.lifecycle)

theorem pagePres_refl (c : Params) (P : PageState α) : pagePres c P P :=
  ⟨rfl, rfl, fun slots hs => ⟨slots, hs, rfl⟩,
   fun slots off sl hs hoff _ => ⟨slots, hs, hoff⟩,
   fun slots off sl hs hoff => ⟨slots, sl, hs, hoff, rfl⟩⟩

theorem pagePres_trans (c : Params) (P1 P2 P3 : PageState α)
    (h12 : pagePres c P1 P2) (h23 : pagePres c P2 P3) : pagePres c P1 P3 := by
  obtain ⟨hs12, hp12, hl12, hi12, hg12⟩ := h12
  obtain ⟨hs23, hp23, hl23, hi23, hg23⟩ := h23
  refine ⟨hs23.trans hs12, hp23.trans hp12, ?_, ?_, ?_⟩
  · intro slots hs
    obtain ⟨slots2, hs2, hlen2⟩ := hl12 slots hs
    obtain ⟨slots3, hs3, hlen3⟩ := hl23 slots2 hs2
    exact ⟨slots3, hs3, hlen3.trans hlen2⟩
  · intro slots off sl hs hoff hsome
    obtain ⟨slots2, hs2, hoff2⟩ := hi12 slots off sl hs hoff hsome
    exact hi23 slots2 off sl hs2 hoff2 hsome
  · intro slots off sl hs hoff
    obtain ⟨slots2, sl2, hs2, hoff2, hg2⟩ := hg12 slots off sl hs hoff
    obtain ⟨slots3, sl3, hs3, hoff3, hg3⟩ := hg23 slots2 off sl2 hs2 hoff2
    exact ⟨slots3, sl3, hs3, hoff3, hg3.trans hg2⟩

/-- Shared::insert never disturbs occupied slots or generations. -/
theorem pageInsert_pres (c : Params) (h : cfgOk c) (i : Nat) (lh : Nat)
    (P P2 : PageState α) (v : α) (lh2 : Nat) (res : Option Nat)
    (hi : i < c.maxPages)
    (hSP : StructPage c i P) (hPI : pageInv c lh P)
    (hrun : pageInsert c lh P v = some (lh2, P2, res)) : pagePres c P P2 := by
  obtain ⟨_, _, hsz, hprev, hlen, hitem, hgen, _⟩ :=
    pageInsert_char c h i lh P P2 v lh2 res hi hSP hPI hrun
  refine ⟨hsz, hprev, hlen, hitem, ?_⟩
  intro slots off sl hs hoff
  obtain ⟨slots2, sl2, hs2, hoff2, hg2, _⟩ := hgen slots off sl hs hoff
  exact ⟨slots2, sl2, hs2, hoff2, hg2⟩

/-- Shard evolution that preserves every page as pagePres does. -/
def shardPres (c : Params) (sh sh2 : ShardState α) : Prop :=
  ∀ j P, sh.shared.get? j = some P →
    ∃ P2, sh2.shared.get? j = some P2 ∧ pagePres c P P2

theorem shardPres_refl (c : Params) (sh : ShardState α) : shardPres c sh sh :=
  fun j P hj => ⟨P, hj, pagePres_refl c P⟩

theorem shardPres_trans (c : Params) (sh1 sh2 sh3 : ShardState α)
    (h12 : shardPres c sh1 sh2) (h23 : shardPres c sh2 sh3) :
    shardPres c sh1 sh3 := by
  intro j P hj
  obtain ⟨P2, hj2, hp2⟩ := h12 j P hj
  obtain ⟨P3, hj3, hp3⟩ := h23 j P2 hj2
  exact ⟨P3, hj3, pagePres_trans c P P2 P3 hp2 hp3⟩

set_option maxHeartbeats 800000 in
/-- The first-fit page loop of Shard::insert: the shard invariant is
preserved, no occupied slot or generation is disturbed, and a returned
packed index denotes a freshly occupied slot holding the value at the
packed generation. -/
theorem shardInsertLoop_char (c : Params) (h : cfgOk c) (v : α) :
    ∀ (fuel i : Nat) (sh sh2 : ShardState α) (res : Option Nat),
      shardInv c sh →
      shardInsertLoop c v fuel i sh = some (sh2, res) →
      shardInv c sh2 ∧ sh2.tid = sh.tid ∧ shardPres c sh sh2 ∧
      (∀ kidx, res = some kidx →
        ∃ pg off gen P2 slots2 sl2,
          kidx = packGenK c gen (off + prevSzSum c pg) ∧ pg < c.maxPages ∧
          off < pageSize c pg ∧ gen ≤ fieldBits (genLen c) ∧
          sh2.shared.get? pg = some P2 ∧ P2.slab = some slots2 ∧
          slots2.get? off = some sl2 ∧ sl2.item = some v ∧
          wGen c sl2.lifecycle = gen ∧ lcState sl2.lifecycle = stNotRemoved ∧
          wRefs c sl2.lifecycle = 0) := by
  intro fuel
  induction fuel with
  | zero =>
    intro i sh sh2 res hSI hrun
    simp only [shardInsertLoop, Option.some.injEq, Prod.mk.injEq] at hrun
    obtain ⟨hsh, hres⟩ := hrun
    subst hsh
    refine ⟨hSI, rfl, shardPres_refl c sh, ?_⟩
    intro kidx hk
    rw [← hres] at hk
    cases hk
  | succ fuel ih =>
    intro i sh sh2 res hSI hrun
    simp only [shardInsertLoop] at hrun
    rcases hgp : sh.shared.get? i with _ | P
    · rw [hgp] at hrun
      simp only [Option.some.injEq, Prod.mk.injEq] at hrun
      obtain ⟨hsh, hres⟩ := hrun
      subst hsh
      refine ⟨hSI, rfl, shardPres_refl c sh, ?_⟩
      intro kidx hk
      rw [← hres] at hk
      cases hk
    · rw [hgp] at hrun
      simp only at hrun
      rcases hlh : sh.localHeads.get? i with _ | lh
      · rw [hlh] at hrun
        simp only at hrun
        cases hrun
      · rw [hlh] at hrun
        simp only at hrun
        rcases hpi : pageInsert c lh P v with _ | q
        · rw [hpi] at hrun
          simp only at hrun
          cases hrun
        · obtain ⟨lh2, P2, res2⟩ := q
          rw [hpi] at hrun
          simp only at hrun
          obtain ⟨hheads, hshared, hSP, hPI⟩ := hSI
          have hilen : i < sh.shared.length :=
            List.get?_eq_some.mp hgp |>.choose
          have hi : i < c.maxPages := by rw [← hshared]; exact hilen
          have hillen : i < sh.localHeads.length :=
            List.get?_eq_some.mp hlh |>.choose
          have hchar := pageInsert_char c h i lh P P2 v lh2 res2 hi
            (hSP i P hgp) (hPI i P lh hgp hlh) hpi
          obtain ⟨hSP2, hPI2, hsz2, hprev2, _, _, _, hkey⟩ := hchar
          have hpres : pagePres c P P2 :=
            pageInsert_pres c h i lh P P2 v lh2 res2 hi
              (hSP i P hgp) (hPI i P lh hgp hlh) hpi
          set sh3 : ShardState α :=
            ⟨sh.tid, sh.localHeads.set i lh2, sh.shared.set i P2⟩ with hsh3
          have hSI3 : shardInv c sh3 := by
            refine ⟨by rw [hsh3]; simp only [length_set]; exact hheads,
              by rw [hsh3]; simp only [length_set]; exact hshared, ?_, ?_⟩
            · intro j Q hj
              rw [hsh3] at hj
              simp only at hj
              by_cases hji : j = i
              · subst hji
                rw [get?_set_self _ _ _ hilen] at hj
                obtain rfl : P2 = Q := Option.some_inj.mp hj
                exact hSP2
              · rw [get?_set_ne _ _ _ _ (fun hEq => hji hEq.symm)] at hj
                exact hSP j Q hj
            · intro j Q lhq hj hlq
              rw [hsh3] at hj hlq
              simp only at hj hlq
              by_cases hji : j = i
              · subst hji
                rw [get?_set_self _ _ _ hilen] at hj
                rw [get?_set_self _ _ _ hillen] at hlq
                obtain rfl : P2 = Q := Option.some_inj.mp hj
                obtain rfl : lh2 = lhq := Option.some_inj.mp hlq
                exact hPI2
              · rw [get?_set_ne _ _ _ _ (fun hEq => hji hEq.symm)] at hj
                rw [get?_set_ne _ _ _ _ (fun hEq => hji hEq.symm)] at hlq
                exact hPI j Q lhq hj hlq
          have hpres3 : shardPres c sh sh3 := by
            intro j Q hj
            rw [hsh3]
            simp only
            by_cases hji : j = i
            · subst hji
              rw [hgp] at hj
              obtain rfl : P = Q := Option.some_inj.mp hj
              exact ⟨P2, get?_set_self _ _ _ hilen, hpres⟩
            · refine ⟨Q, ?_, pagePres_refl c Q⟩
              rw [get?_set_ne _ _ _ _ (fun hEq => hji hEq.symm)]
              exact hj
          rcases res2 with _ | packed
          · -- page full or head leaked: move to the next page
            simp only at hrun
            obtain ⟨hSI2, htid2, hpres2, hkey2⟩ := ih (i + 1) sh3 sh2 res hSI3 hrun
            exact ⟨hSI2, htid2.trans rfl, shardPres_trans c sh sh3 sh2 hpres3 hpres2,
              hkey2⟩
          · -- success on this page
            simp only [Option.some.injEq, Prod.mk.injEq] at hrun
            obtain ⟨hsh, hres⟩ := hrun
            subst hsh
            refine ⟨hSI3, rfl, hpres3, ?_⟩
            intro kidx hk
            rw [← hres] at hk
            obtain rfl : packed = kidx := Option.some_inj.mp hk
            obtain ⟨head, gen, slots2, sl2, hpk, hhd, hgle, hs2, hoff2, hit2,
              hwg2, hst2, hwr2⟩ := hkey packed rfl
            obtain ⟨hszP, hprevP, _⟩ := hSP i P hgp
            refine ⟨i, head, gen, P2, slots2, sl2, ?_, hi, ?_, hgle, ?_,
              hs2, hoff2, hit2, hwg2, hst2, hwr2⟩
            · rw [hpk, hprevP]
            · rw [← hszP]; exact hhd
            · rw [hsh3]
              simp only
              exact get?_set_self _ _ _ hilen

set_option maxHeartbeats 800000 in
/-- Slab::insert on the modelled thread: the invariant is preserved, no
shard other than 0 moves, no occupied slot or generation is disturbed,
and a returned key is live for the inserted value. -/
theorem slabInsert_char (c : Params) (h : cfgOk c) (S S2 : SlabState α) (v : α)
    (res : Option Nat) (hInv : Inv c S)
    (hrun : slabInsert c S v = some (S2, res)) :
    Inv c S2 ∧
    (∀ j, j ≠ 0 → S2.shards.get? j = S.shards.get? j) ∧
    (∀ sh, S.shards.get? 0 = some sh →
      ∃ sh2, S2.shards.get? 0 = some sh2 ∧ shardPres c sh sh2) ∧
    (∀ k w, live c S k w → live c S2 k w) ∧
    (∀ k1, res = some k1 → live c S2 k1 v) := by
  obtain ⟨hlen, hshinv, hpristine⟩ := hInv
  rw [slabInsert] at hrun
  rcases hg0 : S.shards.get? 0 with _ | sh0
  · rw [hg0] at hrun
    simp only at hrun
    cases hrun
  · rw [hg0] at hrun
    simp only at hrun
    rcases hsi : shardInsert c sh0 v with _ | q
    · rw [hsi] at hrun
      simp only at hrun
      cases hrun
    · obtain ⟨sh2, res2⟩ := q
      rw [hsi] at hrun
      simp only [Option.some.injEq, Prod.mk.injEq] at hrun
      obtain ⟨hS2, hres⟩ := hrun
      subst hS2
      rw [shardInsert] at hsi
      obtain ⟨hSI2, htid2, hpres2, hkey2⟩ :=
        shardInsertLoop_char c h v sh0.shared.length 0 sh0 sh2 res2
          (hshinv 0 sh0 hg0) hsi
      have h0len : 0 < S.shards.length := List.get?_eq_some.mp hg0 |>.choose
      have hg02 : (S.shards.set 0 sh2).get? 0 = some sh2 :=
        get?_set_self _ _ _ h0len
      have hother : ∀ j, j ≠ 0 → (S.shards.set 0 sh2).get? j = S.shards.get? j := by
        intro j hj
        exact get?_set_ne _ _ _ _ (fun hEq => hj hEq.symm)
      have hlive : ∀ k (w : α), live c S k w →
          live c (⟨S.shards.set 0 sh2⟩ : SlabState α) k w := by
        intro k w hl
        obtain ⟨hT, hKP, sh, P, slots, sl, hgsh, hgP, hslab, hgsl, hit, hwg,
          hst, hwr⟩ := hl
        rw [hg0] at hgsh
        obtain rfl : sh0 = sh := Option.some_inj.mp hgsh
        obtain ⟨P2, hgP2, hpp⟩ := hpres2 (keyPage c k) P hgP
        obtain ⟨slots2, hslab2, hgsl2⟩ :=
          hpp.2.2.2.1 slots (keyOff c k) sl hslab hgsl (by rw [hit]; rfl)
        exact ⟨hT, hKP, sh2, P2, slots2, sl, hg02, hgP2, hslab2, hgsl2,
          hit, hwg, hst, hwr⟩
      refine ⟨?_, hother, ?_, hlive, ?_⟩
      · refine ⟨by rw [length_set]; exact hlen, ?_, ?_⟩
        · intro j sh hj
          by_cases hj0 : j = 0
          · subst hj0
            rw [hg02] at hj
            obtain rfl : sh2 = sh := Option.some_inj.mp hj
            exact hSI2
          · rw [hother j hj0] at hj
            exact hshinv j sh hj
        · intro j sh hj hj0
          rw [hother j hj0] at hj
          exact hpristine j sh hj hj0
      · intro sh hsh
        obtain rfl : sh0 = sh := Option.some_inj.mp hsh
        exact ⟨sh2, hg02, hpres2⟩
      · intro k1 hk1
        rw [← hres] at hk1
        rcases res2 with _ | kidx
        · cases hk1
        · simp only [Option.map_some', Option.some.injEq] at hk1
          obtain ⟨pg, off, gen, P2, slots2, sl2, hpk, hpg, hoff, hgle, hgP2,
            hslab2, hgsl2, hit2, hwg2, hst2, hwr2⟩ := hkey2 kidx rfl
          have ha : off + prevSzSum c pg ≤ addrBits c :=
            slot_addr_le c h pg off hpg hoff
          obtain ⟨hT, hA, hG⟩ :=
            insertKey_decode c h (off + prevSzSum c pg) gen ha hgle
          rw [← hpk, hk1] at hT hA hG
          have hKP : keyPage c k1 = pg := by
            rw [keyPage, hA, Nat.add_comm]
            exact addrIndex_of_offset c h pg off hpg hoff
          have hKO : keyOff c k1 = off := by
            rw [keyOff, hA, hKP]
            omega
          refine ⟨hT, by rw [hKP]; exact hpg, sh2, P2, slots2, sl2, hg02,
            by rw [hKP]; exact hgP2, hslab2, by rw [hKO]; exact hgsl2,
            hit2, by rw [hG]; exact hwg2, hst2, hwr2⟩

/-- The freshly built slab satisfies the invariant. -/
theorem Inv_slabNew (c : Params) : Inv c (slabNew c : SlabState α) := by
  have hshard : ∀ j, j < maxShards c →
      (slabNew c : SlabState α).shards.get? j = some (shardNew c j) := by
    intro j hj
    rw [slabNew]
    simp only
    rw [List.get?_map, List.get?_range hj]
    rfl
  have hlen : (slabNew c : SlabState α).shards.length = maxShards c := by
    simp [slabNew]
  have hpage : ∀ i, i < c.maxPages →
      (shardNew c i : ShardState α).shared.get? i = some (pageNew c (pageSize c i) (prevSzSum c i)) := by
    intro i hi
    rw [shardNew]
    simp only
    rw [List.get?_map, List.get?_range hi]
    rfl
  refine ⟨hlen, ?_, ?_⟩
  · intro j sh hj
    have hjlt : j < maxShards c := by
      have := List.get?_eq_some.mp hj |>.choose
      rw [hlen] at this
      exact this
    rw [hshard j hjlt] at hj
    obtain rfl : shardNew c j = sh := Option.some_inj.mp hj
    refine ⟨by simp [shardNew], by simp [shardNew], ?_, ?_⟩
    · intro i P hP
      have hilt : i < c.maxPages := by
        have := List.get?_eq_some.mp hP |>.choose
        simpa [shardNew] using this
      rw [shardNew] at hP
      simp only at hP
      rw [List.get?_map, List.get?_range hilt] at hP
      simp only [Option.map_some', Option.some.injEq] at hP
      rw [← hP]
      exact ⟨rfl, rfl, by intro slots hs; cases hs⟩
    · intro i P lh hP hlh
      have hilt : i < c.maxPages := by
        have := List.get?_eq_some.mp hP |>.choose
        simpa [shardNew] using this
      rw [shardNew] at hP hlh
      simp only at hP hlh
      rw [List.get?_map, List.get?_range hilt] at hP
      simp only [Option.map_some', Option.some.injEq] at hP
      simp only [List.get?_eq_getElem?, List.getElem?_replicate, hilt,
        if_pos, Option.some.injEq] at hlh
      rw [← hP, ← hlh]
      exact ⟨rfl, Or.inl ⟨rfl, rfl⟩⟩
  · intro j sh hj hj0 i P hP
    have hjlt : j < maxShards c := by
      have := List.get?_eq_some.mp hj |>.choose
      rw [hlen] at this
      exact this
    rw [hshard j hjlt] at hj
    obtain rfl : shardNew c j = sh := Option.some_inj.mp hj
    have hilt : i < c.maxPages := by
      have := List.get?_eq_some.mp hP |>.choose
      simpa [shardNew] using this
    rw [shardNew] at hP
    simp only at hP
    rw [List.get?_map, List.get?_range hilt] at hP
    simp only [Option.map_some', Option.some.injEq] at hP
    rw [← hP]
    rfl

set_option maxHeartbeats 800000 in
/-- A live key reads its value: Slab::get returns a guard for v. -/
theorem live_get (c : Params) (h : cfgOk c) (S : SlabState α) (k : Nat) (v : α)
    (hInv : Inv c S) (hl : live c S k v) :
    ∃ S2, slabGet c S k = some (S2, some v) := by
  obtain ⟨hlen, hshinv, _⟩ := hInv
  obtain ⟨hT, hKP, sh, P, slots, sl, hgsh, hgP, hslab, hgsl, hit, hwg,
    hst, hwr⟩ := hl
  obtain ⟨hheads, hshared, hSP, hPI⟩ := hshinv 0 sh hgsh
  obtain ⟨hsz, hprev, hgood⟩ := hSP (keyPage c k) P hgP
  have hoffeq : unpackAddr c k - P.prevSz = keyOff c k := by
    rw [hprev, keyOff]
  have hKPd : addrIndex c (unpackAddr c k) = keyPage c k := rfl
  have hnb : ¬ sh.shared.length < addrIndex c (unpackAddr c k) := by
    rw [hKPd, hshared]
    omega
  have hns2 : ¬ lcState sl.lifecycle = 2 := by
    rw [hst]
    decide
  have hncond : ¬ (unpackGen c k ≠ wGen c sl.lifecycle ∨
      lcState sl.lifecycle ≠ stNotRemoved) := by
    simp [hwg, hst]
  have hnr : ¬ refMax c ≤ wRefs c sl.lifecycle := by
    rw [hwr]
    simp only [Nat.not_le]
    exact refMax_pos c h (by omega)
  have hx : slabGet c S k = slabGet c S k := rfl
  nth_rewrite 2 [slabGet] at hx
  rw [hT, hgsh] at hx
  simp only at hx
  rw [shardGet] at hx
  rw [if_neg hnb, hKPd, hgP] at hx
  simp only at hx
  rw [pageGet, hslab] at hx
  simp only at hx
  rw [hoffeq, hgsl] at hx
  simp only at hx
  rw [slotGet] at hx
  rw [if_neg hns2, if_neg hncond, if_neg hnr] at hx
  simp only at hx
  rw [hit] at hx
  exact ⟨_, hx⟩

set_option maxHeartbeats 800000 in
/-- A key whose generation no longer matches its slot reads nothing and
leaves the slab untouched. -/
theorem stale_get (c : Params) (h : cfgOk c) (S : SlabState α) (k : Nat)
    (sh : ShardState α) (P : PageState α) (slots : List (SlotState α))
    (sl : SlotState α) (hInv : Inv c S)
    (hT : unpackTid c k = 0) (hKP : keyPage c k < c.maxPages)
    (hgsh : S.shards.get? 0 = some sh) (hgP : sh.shared.get? (keyPage c k) = some P)
    (hslab : P.slab = some slots) (hgsl : slots.get? (keyOff c k) = some sl)
    (hgen : wGen c sl.lifecycle ≠ unpackGen c k) :
    slabGet c S k = some (S, none) := by
  obtain ⟨hlen, hshinv, _⟩ := hInv
  obtain ⟨hheads, hshared, hSP, hPI⟩ := hshinv 0 sh hgsh
  obtain ⟨hsz, hprev, hgood⟩ := hSP (keyPage c k) P hgP
  have hgoodsl : goodSlot c sl :=
    (hgood slots hslab).2 sl (mem_of_get? _ _ _ hgsl)
  have hoffeq : unpackAddr c k - P.prevSz = keyOff c k := by
    rw [hprev, keyOff]
  have hKPd : addrIndex c (unpackAddr c k) = keyPage c k := rfl
  have hnb : ¬ sh.shared.length < addrIndex c (unpackAddr c k) := by
    rw [hKPd, hshared]
    omega
  have hP2 : ({ P with slab := some (slots.set (keyOff c k) sl) } : PageState α) = P := by
    rw [set_same slots _ sl hgsl, ← hslab]
  have hsh2 : ({ sh with shared := sh.shared.set (keyPage c k) P } : ShardState α) = sh := by
    rw [set_same sh.shared _ P hgP]
  have hS2 : (⟨S.shards.set 0 sh⟩ : SlabState α) = S := by
    rw [set_same S.shards _ sh hgsh]
  have hx : slabGet c S k = slabGet c S k := rfl
  nth_rewrite 2 [slabGet] at hx
  rw [hT, hgsh] at hx
  simp only at hx
  rw [shardGet] at hx
  rw [if_neg hnb, hKPd, hgP] at hx
  simp only at hx
  rw [pageGet, hslab] at hx
  simp only at hx
  rw [hoffeq, hgsl] at hx
  simp only at hx
  rw [slotGet] at hx
  rw [if_neg (fun hEq => hgoodsl.2 hEq)] at hx
  rw [if_pos (Or.inl (fun hEq => hgen hEq.symm))] at hx
  simp only at hx
  rw [hP2, hsh2, hS2] at hx
  exact hx

/-- Slab::get either leaves the slab untouched with no value, or acquires
a reference on the addressed, generation-matching slot. -/
theorem slabGet_char (c : Params) (S S1 : SlabState α) (k : Nat)
    (res : Option α)
    (hrun : slabGet c S k = some (S1, res)) :
    (S1 = S ∧ res = none) ∨
    (∃ sh P slots sl,
      S.shards.get? (unpackTid c k) = some sh ∧
      sh.shared.get? (addrIndex c (unpackAddr c k)) = some P ∧
      P.slab = some slots ∧
      slots.get? (unpackAddr c k - P.prevSz) = some sl ∧
      ¬ sh.shared.length < addrIndex c (unpackAddr c k) ∧
      unpackGen c k = wGen c sl.lifecycle ∧ lcState sl.lifecycle = stNotRemoved ∧
      lcState sl.lifecycle ≠ 2 ∧ wRefs c sl.lifecycle < refMax c ∧
      res = sl.item ∧
      S1 = ⟨S.shards.set (unpackTid c k)
             ⟨sh.tid, sh.localHeads, sh.shared.set (addrIndex c (unpackAddr c k))
               { P with slab := some (slots.set (unpackAddr c k - P.prevSz)
                   { sl with lifecycle := getAcquireWord c sl.lifecycle }) }⟩⟩) := by
  rw [slabGet] at hrun
  rcases hgsh : S.shards.get? (unpackTid c k) with _ | sh
  · rw [hgsh] at hrun
    simp only [Option.some.injEq, Prod.mk.injEq] at hrun
    exact Or.inl ⟨hrun.1.symm, hrun.2.symm⟩
  · rw [hgsh] at hrun
    simp only at hrun
    rcases hsg : shardGet c sh k with _ | q
    · rw [hsg] at hrun
      simp only at hrun
      cases hrun
    · obtain ⟨sh2, res2⟩ := q
      rw [hsg] at hrun
      simp only [Option.some.injEq, Prod.mk.injEq] at hrun
      obtain ⟨hS1, hres⟩ := hrun
      rw [shardGet] at hsg
      by_cases hb : sh.shared.length < addrIndex c (unpackAddr c k)
      · rw [if_pos hb] at hsg
        simp only [Option.some.injEq, Prod.mk.injEq] at hsg
        obtain ⟨hsh2, hres2⟩ := hsg
        left
        constructor
        · rw [← hS1, ← hsh2, set_same S.shards _ sh hgsh]
        · rw [← hres, ← hres2]
      · rw [if_neg hb] at hsg
        rcases hgp : sh.shared.get? (addrIndex c (unpackAddr c k)) with _ | P
        · rw [hgp] at hsg
          simp only at hsg
          cases hsg
        · rw [hgp] at hsg
          simp only at hsg
          rcases hpg : pageGet c P (unpackAddr c k) k with _ | q2
          · rw [hpg] at hsg
            simp only at hsg
            cases hsg
          · obtain ⟨P2, res3⟩ := q2
            rw [hpg] at hsg
            simp only [Option.some.injEq, Prod.mk.injEq] at hsg
            obtain ⟨hsh2, hres2⟩ := hsg
            rcases pageGet_char c P P2 (unpackAddr c k) k res3 hpg with
              ⟨hP2, hres3⟩ | ⟨slots, sl, hslab, hoff, hgen, hstate, hst2, hrm,
                hres3, hP2⟩
            · left
              constructor
              · rw [← hS1, ← hsh2, hP2, set_same sh.shared _ P hgp,
                  set_same S.shards _ sh hgsh]
              · rw [← hres, ← hres2, hres3]
            · right
              refine ⟨sh, P, slots, sl, rfl, hgp, hslab, hoff, hb, hgen,
                hstate, hst2, hrm, ?_, ?_⟩
              · rw [← hres, ← hres2, hres3]
              · rw [← hS1, ← hsh2, hP2]

set_option maxHeartbeats 800000 in
/-- Dropping the guard returned by a successful occupied-slot get
reverses the acquire exactly: Guard::drop restores the slab state. -/
theorem releaseGuard_after_get (c : Params) (h : cfgOk c) (S : SlabState α)
    (k : Nat) (sh : ShardState α) (P : PageState α) (slots : List (SlotState α))
    (sl : SlotState α)
    (hgsh : S.shards.get? (unpackTid c k) = some sh)
    (hgp : sh.shared.get? (addrIndex c (unpackAddr c k)) = some P)
    (hslab : P.slab = some slots)
    (hoff : slots.get? (unpackAddr c k - P.prevSz) = some sl)
    (hwlt : sl.lifecycle < 2 ^ WIDTH)
    (hstate : lcState sl.lifecycle = stNotRemoved)
    (hr0 : wRefs c sl.lifecycle = 0)
    (hrm : wRefs c sl.lifecycle < refMax c) :
    slabReleaseGuard c (⟨S.shards.set (unpackTid c k)
        ⟨sh.tid, sh.localHeads, sh.shared.set (addrIndex c (unpackAddr c k))
          { P with slab := some (slots.set (unpackAddr c k - P.prevSz)
              { sl with lifecycle := getAcquireWord c sl.lifecycle }) }⟩⟩ : SlabState α) k
      = some S := by
  obtain ⟨haclt, hacgen, hacst, hacrefs⟩ :=
    getAcquireWord_facts c h sl.lifecycle hwlt hrm
  have htlen : unpackTid c k < S.shards.length :=
    List.get?_eq_some.mp hgsh |>.choose
  have hplen : addrIndex c (unpackAddr c k) < sh.shared.length :=
    List.get?_eq_some.mp hgp |>.choose
  have hslen : unpackAddr c k - P.prevSz < slots.length :=
    List.get?_eq_some.mp hoff |>.choose
  set slotA : SlotState α :=
    { sl with lifecycle := getAcquireWord c sl.lifecycle } with hsa
  set PA : PageState α :=
    { P with slab := some (slots.set (unpackAddr c k - P.prevSz) slotA) } with hpa
  set shA : ShardState α :=
    ⟨sh.tid, sh.localHeads, sh.shared.set (addrIndex c (unpackAddr c k)) PA⟩ with hsha
  have hrel0 : slotReleaseOp c slotA = (sl, false) := by
    rw [slotReleaseOp]
    have hcond : ¬ (wRefs c slotA.lifecycle = 1 ∧
        lcState slotA.lifecycle = stMarked) := by
      intro hc
      have h1 : lcState slotA.lifecycle = stMarked := hc.2
      rw [show slotA.lifecycle = getAcquireWord c sl.lifecycle from rfl,
        hacst, hstate] at h1
      exact absurd h1 (by decide)
    rw [if_neg hcond]
    have hres : packRefW c (wRefs c slotA.lifecycle - 1) slotA.lifecycle
        = sl.lifecycle := release_restores c h sl.lifecycle hwlt hr0 hrm
    rw [hres]
  have hg1 : (S.shards.set (unpackTid c k) shA).get? (unpackTid c k)
      = some shA := get?_set_self _ _ _ htlen
  have hg2 : (sh.shared.set (addrIndex c (unpackAddr c k)) PA).get?
      (addrIndex c (unpackAddr c k)) = some PA := get?_set_self _ _ _ hplen
  have hg4 : (slots.set (unpackAddr c k - P.prevSz) slotA).get?
      (unpackAddr c k - P.prevSz) = some slotA := get?_set_self _ _ _ hslen
  have hP3 : ({ P with slab := some ((slots.set (unpackAddr c k - P.prevSz) slotA).set (unpackAddr c k - P.prevSz) sl) } : PageState α) = P := by
    rw [List.set_set, set_same slots _ sl hoff, ← hslab]
  have hsh3 : ((⟨sh.tid, sh.localHeads, (sh.shared.set (addrIndex c (unpackAddr c k)) PA).set (addrIndex c (unpackAddr c k)) P⟩ : ShardState α)) = sh := by
    rw [List.set_set, set_same sh.shared _ P hgp]
  have hS3 : ((⟨(S.shards.set (unpackTid c k) shA).set (unpackTid c k) sh⟩ :
      SlabState α)) = S := by
    rw [List.set_set, set_same S.shards _ sh hgsh]
  have hx : slabReleaseGuard c (⟨S.shards.set (unpackTid c k) shA⟩ : SlabState α) k
      = slabReleaseGuard c (⟨S.shards.set (unpackTid c k) shA⟩ : SlabState α) k := rfl
  nth_rewrite 2 [slabReleaseGuard] at hx
  simp only at hx
  rw [hg1] at hx
  simp only at hx
  rw [hg2] at hx
  simp only at hx
  rw [hg4] at hx
  simp only at hx
  rw [hrel0] at hx
  simp only at hx
  rw [if_neg Bool.false_ne_true] at hx
  rw [hP3, hsh3, hS3] at hx
  exact hx

set_option maxHeartbeats 1000000 in
/-- One full Slab::get operation (acquire, read, drop): the invariant is
preserved and every live key stays live. -/
theorem stepOp_get_char (c : Params) (h : cfgOk c) (S S2 : SlabState α) (k2 : Nat)
    (r : OpResult α) (hInv : Inv c S)
    (hrun : stepOp c S (Op.get k2) = some (S2, r)) :
    Inv c S2 ∧ ∀ k v, live c S k v → live c S2 k v := by
  rw [stepOp] at hrun
  rcases hsg : slabGet c S k2 with _ | p
  · rw [hsg] at hrun
    simp only at hrun
    cases hrun
  · obtain ⟨S1, res⟩ := p
    rw [hsg] at hrun
    rcases slabGet_char c S S1 k2 res hsg with ⟨hS1, hres⟩ |
      ⟨sh, P, slots, sl, hgsh, hgp, hslab, hoff, hb, hgen, hstate, hst2,
        hrm, hres, hS1⟩
    · subst hS1
      subst hres
      simp only [Option.some.injEq, Prod.mk.injEq] at hrun
      obtain ⟨hS2, _⟩ := hrun
      subst hS2
      exact ⟨hInv, fun k v hl => hl⟩
    · obtain ⟨hlen, hshinv, hpristine⟩ := hInv
      have ht0 : unpackTid c k2 = 0 := by
        by_contra ht
        have := hpristine (unpackTid c k2) sh hgsh ht
          (addrIndex c (unpackAddr c k2)) P hgp
        rw [this] at hslab
        cases hslab
      obtain ⟨hheads, hshared, hSP, hPI⟩ := hshinv _ sh hgsh
      obtain ⟨hsz, hprev, hgoodP⟩ := hSP _ P hgp
      have hwlt : sl.lifecycle < 2 ^ WIDTH :=
        ((hgoodP slots hslab).2 sl (mem_of_get? _ _ _ hoff)).1
      have htlen : unpackTid c k2 < S.shards.length :=
        List.get?_eq_some.mp hgsh |>.choose
      have hplen : addrIndex c (unpackAddr c k2) < sh.shared.length :=
        List.get?_eq_some.mp hgp |>.choose
      have hslen : unpackAddr c k2 - P.prevSz < slots.length :=
        List.get?_eq_some.mp hoff |>.choose
      have hpllen : addrIndex c (unpackAddr c k2) < sh.localHeads.length := by
        rw [hheads, ← hshared]
        exact hplen
      rcases hlh : sh.localHeads.get? (addrIndex c (unpackAddr c k2)) with _ | lh
      · exact absurd (List.get?_eq_none.mp hlh) (by omega)
      obtain ⟨hrem, hflcase⟩ := hPI _ P lh hgp hlh
      obtain ⟨fl, hchain, hnodup, hrefs0all⟩ :
          ∃ fl, Chain c slots lh fl ∧ fl.Nodup ∧
            ∀ s0 ∈ slots, s0.item.isSome = true → wRefs c s0.lifecycle = 0 := by
        rcases hflcase with ⟨hn, _⟩ | ⟨slots0, fl, hsome, hchain, hnodup, hr0⟩
        · rw [hn] at hslab; cases hslab
        · rw [hslab] at hsome
          obtain rfl : slots0 = slots := (Option.some_inj.mp hsome).symm
          exact ⟨fl, hchain, hnodup, hr0⟩
      obtain ⟨haclt, hacgen, hacst, hacrefs⟩ :=
        getAcquireWord_facts c h sl.lifecycle hwlt hrm
      rcases hit : sl.item with _ | v0
      · -- a vacant slot was acquired and the reference is leaked
        rw [hres, hit] at hrun
        simp only [Option.some.injEq, Prod.mk.injEq] at hrun
        obtain ⟨hS2, _⟩ := hrun
        rw [hS1] at hS2
        subst hS2
        set slotA : SlotState α :=
          { sl with lifecycle := getAcquireWord c sl.lifecycle } with hsa
        have hgoodA : goodSlot c slotA := by
          refine ⟨haclt, ?_⟩
          show lcState (getAcquireWord c sl.lifecycle) ≠ 2
          rw [hacst]
          exact hst2
        constructor
        · refine ⟨by rw [length_set]; exact hlen, ?_, ?_⟩
          · intro j shx hj
            by_cases hjt : j = unpackTid c k2
            · subst hjt
              rw [get?_set_self _ _ _ htlen] at hj
              obtain rfl : _ = shx := Option.some_inj.mp hj
              refine ⟨hheads, by rw [length_set]; exact hshared, ?_, ?_⟩
              · intro i Q hQ
                by_cases hip : i = addrIndex c (unpackAddr c k2)
                · subst hip
                  rw [get?_set_self _ _ _ hplen] at hQ
                  obtain rfl : _ = Q := Option.some_inj.mp hQ
                  refine ⟨hsz, hprev, ?_⟩
                  intro slots1 hs1
                  simp only [Option.some.injEq] at hs1
                  subst hs1
                  refine ⟨by rw [length_set]; exact (hgoodP slots hslab).1, ?_⟩
                  intro s0 hmem
                  rcases mem_set_of_mem _ _ _ _ hmem with hm | hm
                  · exact (hgoodP slots hslab).2 s0 hm
                  · rw [hm]
                    exact hgoodA
                · rw [get?_set_ne _ _ _ _ (fun hEq => hip hEq.symm)] at hQ
                  exact hSP i Q hQ
              · intro i Q lhq hQ hlq
                by_cases hip : i = addrIndex c (unpackAddr c k2)
                · subst hip
                  rw [get?_set_self _ _ _ hplen] at hQ
                  obtain rfl : _ = Q := Option.some_inj.mp hQ
                  rw [hlh] at hlq
                  obtain rfl : lh = lhq := Option.some_inj.mp hlq
                  refine ⟨hrem, Or.inr ⟨slots.set (unpackAddr c k2 - P.prevSz) slotA,
                    fl, rfl, ?_, hnodup, ?_⟩⟩
                  · exact chain_set_congr c slots lh fl hchain _ sl slotA hoff rfl rfl
                  · intro s0 hmem hsome0
                    rcases mem_set_of_mem _ _ _ _ hmem with hm | hm
                    · exact hrefs0all s0 hm hsome0
                    · rw [hm, hsa] at hsome0
                      simp only at hsome0
                      rw [hit] at hsome0
                      cases hsome0
                · rw [get?_set_ne _ _ _ _ (fun hEq => hip hEq.symm)] at hQ
                  exact hPI i Q lhq hQ hlq
            · rw [get?_set_ne _ _ _ _ (fun hEq => hjt hEq.symm)] at hj
              exact hshinv j shx hj
          · intro j shx hj hj0
            have hjt : j ≠ unpackTid c k2 := by rw [ht0]; exact hj0
            rw [get?_set_ne _ _ _ _ (fun hEq => hjt hEq.symm)] at hj
            exact hpristine j shx hj hj0
        · intro k v hl
          obtain ⟨hT, hKP, shk, Pk, slotsk, slk, hgshk, hgpk, hslabk, hgslk,
            hitk, hwgk, hstk, hwrk⟩ := hl
          rw [ht0] at hgsh
          rw [hgsh] at hgshk
          obtain rfl : sh = shk := Option.some_inj.mp hgshk
          have hget0 : (S.shards.set (unpackTid c k2)
              (⟨sh.tid, sh.localHeads, sh.shared.set (addrIndex c (unpackAddr c k2))
                { P with slab := some (slots.set (unpackAddr c k2 - P.prevSz) slotA) }⟩ :
                ShardState α)).get? 0 = some ⟨sh.tid, sh.localHeads,
              sh.shared.set (addrIndex c (unpackAddr c k2))
                { P with slab := some (slots.set (unpackAddr c k2 - P.prevSz) slotA) }⟩ := by
            rw [ht0]
            exact get?_set_self _ _ _ (by rw [← ht0]; exact htlen)
          by_cases hpg : keyPage c k = addrIndex c (unpackAddr c k2)
          · rw [hpg] at hgpk
            rw [hgp] at hgpk
            obtain rfl : P = Pk := Option.some_inj.mp hgpk
            rw [hslab] at hslabk
            obtain rfl : slots = slotsk := Option.some_inj.mp hslabk
            by_cases hoe : keyOff c k = unpackAddr c k2 - P.prevSz
            · rw [hoe, hoff] at hgslk
              obtain rfl : sl = slk := Option.some_inj.mp hgslk
              rw [hit] at hitk
              cases hitk
            · refine ⟨hT, hKP, _,
                { P with slab := some (slots.set (unpackAddr c k2 - P.prevSz) slotA) },
                slots.set (unpackAddr c k2 - P.prevSz) slotA,
                slk, hget0, ?_, rfl, ?_, hitk, hwgk, hstk, hwrk⟩
              · rw [hpg]
                exact get?_set_self _ _ _ hplen
              · rw [get?_set_ne _ _ _ _ (fun hEq => hoe hEq.symm)]
                exact hgslk
          · refine ⟨hT, hKP, _, Pk, slotsk, slk, hget0, ?_, hslabk, hgslk,
              hitk, hwgk, hstk, hwrk⟩
            rw [get?_set_ne _ _ _ _ (fun hEq => hpg hEq.symm)]
            exact hgpk
      · -- an occupied slot was read; dropping the guard restores the state
        have hr0 : wRefs c sl.lifecycle = 0 :=
          hrefs0all sl (mem_of_get? _ _ _ hoff) (by rw [hit]; rfl)
        rw [hres, hit] at hrun
        simp only at hrun
        rw [hS1] at hrun
        rw [releaseGuard_after_get c h S k2 sh P slots sl hgsh hgp hslab hoff
          hwlt hstate hr0 hrm] at hrun
        simp only [Option.some.injEq, Prod.mk.injEq] at hrun
        obtain ⟨hS2, _⟩ := hrun
        subst hS2
        exact ⟨⟨hlen, hshinv, hpristine⟩, fun k v hl => hl⟩

set_option maxHeartbeats 1000000 in
/-- Slab::take with a benign key: the invariant is preserved, live keys
that do not alias the taken key stay live, and taking a live key removes
its value and advances the slot generation. -/
theorem slabTake_char (c : Params) (h : cfgOk c) (S S2 : SlabState α) (k2 : Nat)
    (res : Option α) (hInv : Inv c S) (hallow : ¬ vacantHit c S k2)
    (hrun : slabTake c S k2 = some (S2, res)) :
    Inv c S2 ∧
    (∀ k v, live c S k v → ¬ sameKey c k k2 → live c S2 k v) ∧
    (∀ v, live c S k2 v → res = some v ∧
      ∃ sh2 P2 slots2 sl2,
        S2.shards.get? 0 = some sh2 ∧ sh2.shared.get? (keyPage c k2) = some P2 ∧
        P2.slab = some slots2 ∧ slots2.get? (keyOff c k2) = some sl2 ∧
        sl2.item = none ∧ wGen c sl2.lifecycle = genAdvance c (unpackGen c k2)) := by
  obtain ⟨hlen, hshinv, hpristine⟩ := hInv
  rw [slabTake] at hrun
  rcases hgsh : S.shards.get? (unpackTid c k2) with _ | sh
  · rw [hgsh] at hrun
    simp only at hrun
    cases hrun
  · rw [hgsh] at hrun
    simp only at hrun
    have hSeq : (⟨S.shards.set (unpackTid c k2) sh⟩ : SlabState α) = S := by
      rw [set_same S.shards _ sh hgsh]
    by_cases ht0 : unpackTid c k2 = 0
    · rw [if_pos ht0] at hrun
      rw [shardTakeLocal] at hrun
      rcases hgp : sh.shared.get? (addrIndex c (unpackAddr c k2)) with _ | P
      · rw [hgp] at hrun
        simp only [Option.some.injEq, Prod.mk.injEq] at hrun
        obtain ⟨hS2, hres⟩ := hrun
        rw [hSeq] at hS2
        subst hS2
        subst hres
        refine ⟨⟨hlen, hshinv, hpristine⟩, fun k v hl _ => hl, ?_⟩
        intro v hl
        obtain ⟨hT, hKP, shk, Pk, slotsk, slk, hgshk, hgpk, _⟩ := hl
        rw [ht0] at hgsh
        rw [hgsh] at hgshk
        obtain rfl : sh = shk := Option.some_inj.mp hgshk
        rw [show keyPage c k2 = addrIndex c (unpackAddr c k2) from rfl, hgp] at hgpk
        cases hgpk
      · rw [hgp] at hrun
        simp only at hrun
        have hplen : addrIndex c (unpackAddr c k2) < sh.shared.length :=
          List.get?_eq_some.mp hgp |>.choose
        obtain ⟨hheads, hshared, hSP, hPI⟩ := hshinv _ sh hgsh
        have hpllen : addrIndex c (unpackAddr c k2) < sh.localHeads.length := by
          rw [hheads, ← hshared]
          exact hplen
        rcases hlh : sh.localHeads.get? (addrIndex c (unpackAddr c k2)) with _ | lh
        · exact absurd (List.get?_eq_none.mp hlh) (by omega)
        rw [hlh] at hrun
        simp only at hrun
        rcases hpt : pageTake c true lh P (unpackAddr c k2) (unpackGen c k2)
            with _ | q
        · rw [hpt] at hrun
          simp only at hrun
          cases hrun
        · obtain ⟨lh2, P2, res2⟩ := q
          rw [hpt] at hrun
          simp only [Option.some.injEq, Prod.mk.injEq] at hrun
          obtain ⟨hS2, hres⟩ := hrun
          subst hres
          have hvac : ∀ slots sl, P.slab = some slots →
              slots.get? (unpackAddr c k2 - P.prevSz) = some sl → sl.item = none →
              unpackGen c k2 ≠ wGen c sl.lifecycle := by
            intro slots sl hs ho hi hg
            exact hallow ⟨sh, P, slots, sl, hgsh, hgp, hs, ho, hi, hg.symm⟩
          obtain ⟨hSP2, hPI2, hsz2, hprev2, hlen6, hitem6, hgen7, _, hmatch9⟩ :=
            pageTake_char c h (addrIndex c (unpackAddr c k2)) lh P P2
              (unpackAddr c k2) (unpackGen c k2) lh2 res2
              (hSP _ P hgp) (hPI _ P lh hgp hlh) hvac hpt
          obtain ⟨hszP, hprevP, _⟩ := hSP _ P hgp
          rw [← hS2]
          clear hS2
          have hg02 : ((⟨S.shards.set (unpackTid c k2)
              ⟨sh.tid, sh.localHeads.set (addrIndex c (unpackAddr c k2)) lh2,
               sh.shared.set (addrIndex c (unpackAddr c k2)) P2⟩⟩ : SlabState α)).shards.get? 0
              = some ⟨sh.tid, sh.localHeads.set (addrIndex c (unpackAddr c k2)) lh2,
               sh.shared.set (addrIndex c (unpackAddr c k2)) P2⟩ := by
            show (S.shards.set (unpackTid c k2) _).get? 0 = _
            rw [ht0]
            exact get?_set_self _ _ _ (by rw [← ht0]; exact List.get?_eq_some.mp hgsh |>.choose)
          refine ⟨?_, ?_, ?_⟩
          · refine ⟨by simp only; rw [length_set]; exact hlen, ?_, ?_⟩
            · intro j shx hj
              simp only at hj
              by_cases hjt : j = unpackTid c k2
              · subst hjt
                rw [get?_set_self _ _ _ (List.get?_eq_some.mp hgsh |>.choose)] at hj
                obtain rfl : _ = shx := Option.some_inj.mp hj
                refine ⟨by rw [length_set]; exact hheads,
                  by rw [length_set]; exact hshared, ?_, ?_⟩
                · intro i Q hQ
                  by_cases hip : i = addrIndex c (unpackAddr c k2)
                  · subst hip
                    rw [get?_set_self _ _ _ hplen] at hQ
                    obtain rfl : P2 = Q := Option.some_inj.mp hQ
                    exact hSP2
                  · rw [get?_set_ne _ _ _ _ (fun hEq => hip hEq.symm)] at hQ
                    exact hSP i Q hQ
                · intro i Q lhq hQ hlq
                  by_cases hip : i = addrIndex c (unpackAddr c k2)
                  · subst hip
                    rw [get?_set_self _ _ _ hplen] at hQ
                    rw [get?_set_self _ _ _ hpllen] at hlq
                    obtain rfl : P2 = Q := Option.some_inj.mp hQ
                    obtain rfl : lh2 = lhq := Option.some_inj.mp hlq
                    exact hPI2
                  · rw [get?_set_ne _ _ _ _ (fun hEq => hip hEq.symm)] at hQ
                    rw [get?_set_ne _ _ _ _ (fun hEq => hip hEq.symm)] at hlq
                    exact hPI i Q lhq hQ hlq
              · rw [get?_set_ne _ _ _ _ (fun hEq => hjt hEq.symm)] at hj
                exact hshinv j shx hj
            · intro j shx hj hj0
              simp only at hj
              have hjt : j ≠ unpackTid c k2 := by rw [ht0]; exact hj0
              rw [get?_set_ne _ _ _ _ (fun hEq => hjt hEq.symm)] at hj
              exact hpristine j shx hj hj0
          · intro k v hl hnsk
            obtain ⟨hT, hKP, shk, Pk, slotsk, slk, hgshk, hgpk, hslabk, hgslk,
              hitk, hwgk, hstk, hwrk⟩ := hl
            rw [ht0] at hgsh
            rw [hgsh] at hgshk
            obtain rfl : sh = shk := Option.some_inj.mp hgshk
            by_cases hpg : keyPage c k = addrIndex c (unpackAddr c k2)
            · rw [hpg, hgp] at hgpk
              obtain rfl : P = Pk := Option.some_inj.mp hgpk
              rcases hitem6 slotsk (keyOff c k) slk hslabk hgslk
                  (by rw [hitk]; rfl) with ⟨hoe, hgE⟩ | ⟨slots2, hs2, hoff2⟩
              · exfalso
                have hak : unpackAddr c k ≤ addrBits c := by
                  have := unpackField_lt_two_pow (addrLen c) 0 k
                  simp only [unpackAddr, addrBits, fieldBits]
                  simp only [unpackAddr] at this ⊢
                  omega
                have hak2 : unpackAddr c k2 ≤ addrBits c := by
                  have := unpackField_lt_two_pow (addrLen c) 0 k2
                  simp only [unpackAddr, addrBits, fieldBits]
                  simp only [unpackAddr] at this ⊢
                  omega
                have hle1 : prevSzSum c (keyPage c k) ≤ unpackAddr c k :=
                  prevSzSum_addrIndex_le c h (unpackAddr c k) hak
                have hle2 : prevSzSum c (keyPage c k2) ≤ unpackAddr c k2 :=
                  prevSzSum_addrIndex_le c h (unpackAddr c k2) hak2
                have hkp2 : keyPage c k2 = addrIndex c (unpackAddr c k2) := rfl
                have hA : unpackAddr c k = unpackAddr c k2 := by
                  rw [keyOff, hprevP, hpg] at hoe
                  rw [hpg] at hle1
                  rw [hkp2] at hle2
                  omega
                have hG : unpackGen c k = unpackGen c k2 := by
                  rw [← hwgk, hgE]
                have hT2 : unpackTid c k = unpackTid c k2 := by
                  rw [hT, ht0]
                exact hnsk (decode_sameKey c h k k2 hA hT2 hG)
              · refine ⟨hT, hKP, _, P2, slots2, slk, hg02, ?_, hs2, hoff2,
                  hitk, hwgk, hstk, hwrk⟩
                rw [hpg]
                exact get?_set_self _ _ _ hplen
            · refine ⟨hT, hKP, _, Pk, slotsk, slk, hg02, ?_, hslabk, hgslk,
                hitk, hwgk, hstk, hwrk⟩
              rw [get?_set_ne _ _ _ _ (fun hEq => hpg hEq.symm)]
              exact hgpk
          · intro v hl
            obtain ⟨hT, hKP, shk, Pk, slotsk, slk, hgshk, hgpk, hslabk, hgslk,
              hitk, hwgk, hstk, hwrk⟩ := hl
            rw [ht0] at hgsh
            rw [hgsh] at hgshk
            obtain rfl : sh = shk := Option.some_inj.mp hgshk
            have hkp2 : keyPage c k2 = addrIndex c (unpackAddr c k2) := rfl
            rw [hkp2, hgp] at hgpk
            obtain rfl : P = Pk := Option.some_inj.mp hgpk
            have hoffeq : keyOff c k2 = unpackAddr c k2 - P.prevSz := by
              rw [keyOff, hprevP, hkp2]
            rw [hoffeq] at hgslk
            obtain ⟨hres2, slots2, sl2, hs2, hoff2, hitem2, hgen2⟩ :=
              hmatch9 slotsk slk hslabk hgslk hwgk.symm
            refine ⟨by rw [hres2, hitk], _, P2, slots2, sl2, hg02, ?_, hs2,
              ?_, hitem2, hgen2⟩
            · rw [hkp2]
              exact get?_set_self _ _ _ hplen
            · rw [hoffeq]
              exact hoff2
    · rw [if_neg ht0] at hrun
      rw [shardTakeRemote] at hrun
      rcases hgp : sh.shared.get? (addrIndex c (unpackAddr c k2)) with _ | P
      · rw [hgp] at hrun
        simp only [Option.some.injEq, Prod.mk.injEq] at hrun
        obtain ⟨hS2, hres⟩ := hrun
        rw [hSeq] at hS2
        subst hS2
        subst hres
        refine ⟨⟨hlen, hshinv, hpristine⟩, fun k v hl _ => hl, ?_⟩
        intro v hl
        exact absurd hl.1 ht0
      · have hslabnone : P.slab = none := hpristine _ sh hgsh ht0 _ P hgp
        rw [hgp] at hrun
        simp only at hrun
        have hpt : pageTake c false 0 P (unpackAddr c k2) (unpackGen c k2)
            = some (0, P, none) := by
          rw [pageTake, hslabnone]
        rw [hpt] at hrun
        simp only [Option.some.injEq, Prod.mk.injEq] at hrun
        obtain ⟨hS2, hres⟩ := hrun
        have hsh2 : ({ sh with shared := sh.shared.set (addrIndex c (unpackAddr c k2)) P } : ShardState α) = sh := by
          rw [set_same sh.shared _ P hgp]
        rw [hsh2, hSeq] at hS2
        subst hS2
        subst hres
        refine ⟨⟨hlen, hshinv, hpristine⟩, fun k v hl _ => hl, ?_⟩
        intro v hl
        exact absurd hl.1 ht0

set_option maxHeartbeats 1000000 in
/-- Slab::remove with a benign key: the invariant is preserved and live
keys that do not alias the removed key stay live. -/
theorem slabRemove_char (c : Params) (h : cfgOk c) (S S2 : SlabState α) (k2 : Nat)
    (ok : Bool) (hInv : Inv c S) (hallow : ¬ vacantHit c S k2)
    (hrun : slabRemove c S k2 = some (S2, ok)) :
    Inv c S2 ∧
    (∀ k v, live c S k v → ¬ sameKey c k k2 → live c S2 k v) := by
  obtain ⟨hlen, hshinv, hpristine⟩ := hInv
  rw [slabRemove] at hrun
  rcases hgsh : S.shards.get? (unpackTid c k2) with _ | sh
  · rw [hgsh] at hrun
    simp only [Option.some.injEq, Prod.mk.injEq] at hrun
    obtain ⟨hS2, _⟩ := hrun
    subst hS2
    exact ⟨⟨hlen, hshinv, hpristine⟩, fun k v hl _ => hl⟩
  · rw [hgsh] at hrun
    simp only at hrun
    have hSeq : (⟨S.shards.set (unpackTid c k2) sh⟩ : SlabState α) = S := by
      rw [set_same S.shards _ sh hgsh]
    by_cases ht0 : unpackTid c k2 = 0
    · rw [if_pos ht0] at hrun
      rw [shardRemoveLocal] at hrun
      by_cases hb : sh.shared.length < addrIndex c (unpackAddr c k2)
      · rw [if_pos hb] at hrun
        simp only [Option.some.injEq, Prod.mk.injEq] at hrun
        obtain ⟨hS2, _⟩ := hrun
        rw [hSeq] at hS2
        subst hS2
        exact ⟨⟨hlen, hshinv, hpristine⟩, fun k v hl _ => hl⟩
      · rw [if_neg hb] at hrun
        obtain ⟨hheads, hshared, hSP, hPI⟩ := hshinv _ sh hgsh
        rcases hgp : sh.shared.get? (addrIndex c (unpackAddr c k2)) with _ | P
        · rw [hgp] at hrun
          rcases hlh : sh.localHeads.get? (addrIndex c (unpackAddr c k2)) with _ | lh
          · rw [hlh] at hrun
            simp only at hrun
            cases hrun
          · rw [hlh] at hrun
            simp only at hrun
            cases hrun
        · rw [hgp] at hrun
          have hplen : addrIndex c (unpackAddr c k2) < sh.shared.length :=
            List.get?_eq_some.mp hgp |>.choose
          have hpllen : addrIndex c (unpackAddr c k2) < sh.localHeads.length := by
            rw [hheads, ← hshared]
            exact hplen
          rcases hlh : sh.localHeads.get? (addrIndex c (unpackAddr c k2)) with _ | lh
          · exact absurd (List.get?_eq_none.mp hlh) (by omega)
          rw [hlh] at hrun
          simp only at hrun
          rcases hpr : pageRemove c true lh P (unpackAddr c k2) (unpackGen c k2)
              with _ | q
          · rw [hpr] at hrun
            simp only at hrun
            cases hrun
          · obtain ⟨lh2, P2, ok2⟩ := q
            rw [hpr] at hrun
            simp only [Option.some.injEq, Prod.mk.injEq] at hrun
            obtain ⟨hS2, hok⟩ := hrun
            have hvac : ∀ slots sl, P.slab = some slots →
                slots.get? (unpackAddr c k2 - P.prevSz) = some sl → sl.item = none →
                unpackGen c k2 ≠ wGen c sl.lifecycle := by
              intro slots sl hs ho hi hg
              exact hallow ⟨sh, P, slots, sl, hgsh, hgp, hs, ho, hi, hg.symm⟩
            obtain ⟨hSP2, hPI2, hsz2, hprev2, hlen6, hitem6, hgen7⟩ :=
              pageRemove_char c h (addrIndex c (unpackAddr c k2)) lh P P2
                (unpackAddr c k2) (unpackGen c k2) lh2 ok2
                (hSP _ P hgp) (hPI _ P lh hgp hlh) hvac hpr
            obtain ⟨hszP, hprevP, _⟩ := hSP _ P hgp
            rw [← hS2]
            clear hS2
            have hg02 : ((⟨S.shards.set (unpackTid c k2)
                ⟨sh.tid, sh.localHeads.set (addrIndex c (unpackAddr c k2)) lh2,
                 sh.shared.set (addrIndex c (unpackAddr c k2)) P2⟩⟩ : SlabState α)).shards.get? 0
                = some ⟨sh.tid, sh.localHeads.set (addrIndex c (unpackAddr c k2)) lh2,
                 sh.shared.set (addrIndex c (unpackAddr c k2)) P2⟩ := by
              show (S.shards.set (unpackTid c k2) _).get? 0 = _
              rw [ht0]
              exact get?_set_self _ _ _ (by rw [← ht0]; exact List.get?_eq_some.mp hgsh |>.choose)
            refine ⟨?_, ?_⟩
            · refine ⟨by simp only; rw [length_set]; exact hlen, ?_, ?_⟩
              · intro j shx hj
                simp only at hj
                by_cases hjt : j = unpackTid c k2
                · subst hjt
                  rw [get?_set_self _ _ _ (List.get?_eq_some.mp hgsh |>.choose)] at hj
                  obtain rfl : _ = shx := Option.some_inj.mp hj
                  refine ⟨by rw [length_set]; exact hheads,
                    by rw [length_set]; exact hshared, ?_, ?_⟩
                  · intro i Q hQ
                    by_cases hip : i = addrIndex c (unpackAddr c k2)
                    · subst hip
                      rw [get?_set_self _ _ _ hplen] at hQ
                      obtain rfl : P2 = Q := Option.some_inj.mp hQ
                      exact hSP2
                    · rw [get?_set_ne _ _ _ _ (fun hEq => hip hEq.symm)] at hQ
                      exact hSP i Q hQ
                  · intro i Q lhq hQ hlq
                    by_cases hip : i = addrIndex c (unpackAddr c k2)
                    · subst hip
                      rw [get?_set_self _ _ _ hplen] at hQ
                      rw [get?_set_self _ _ _ hpllen] at hlq
                      obtain rfl : P2 = Q := Option.some_inj.mp hQ
                      obtain rfl : lh2 = lhq := Option.some_inj.mp hlq
                      exact hPI2
                    · rw [get?_set_ne _ _ _ _ (fun hEq => hip hEq.symm)] at hQ
                      rw [get?_set_ne _ _ _ _ (fun hEq => hip hEq.symm)] at hlq
                      exact hPI i Q lhq hQ hlq
                · rw [get?_set_ne _ _ _ _ (fun hEq => hjt hEq.symm)] at hj
                  exact hshinv j shx hj
              · intro j shx hj hj0
                simp only at hj
                have hjt : j ≠ unpackTid c k2 := by rw [ht0]; exact hj0
                rw [get?_set_ne _ _ _ _ (fun hEq => hjt hEq.symm)] at hj
                exact hpristine j shx hj hj0
            · intro k v hl hnsk
              obtain ⟨hT, hKP, shk, Pk, slotsk, slk, hgshk, hgpk, hslabk, hgslk,
                hitk, hwgk, hstk, hwrk⟩ := hl
              rw [ht0] at hgsh
              rw [hgsh] at hgshk
              obtain rfl : sh = shk := Option.some_inj.mp hgshk
              by_cases hpg : keyPage c k = addrIndex c (unpackAddr c k2)
              · rw [hpg, hgp] at hgpk
                obtain rfl : P = Pk := Option.some_inj.mp hgpk
                rcases hitem6 slotsk (keyOff c k) slk hslabk hgslk
                    (by rw [hitk]; rfl) with ⟨hoe, hgE⟩ | ⟨slots2, hs2, hoff2⟩
                · exfalso
                  have hak : unpackAddr c k ≤ addrBits c := by
                    have := unpackField_lt_two_pow (addrLen c) 0 k
                    simp only [unpackAddr, addrBits, fieldBits]
                    simp only [unpackAddr] at this ⊢
                    omega
                  have hak2 : unpackAddr c k2 ≤ addrBits c := by
                    have := unpackField_lt_two_pow (addrLen c) 0 k2
                    simp only [unpackAddr, addrBits, fieldBits]
                    simp only [unpackAddr] at this ⊢
                    omega
                  have hle1 : prevSzSum c (keyPage c k) ≤ unpackAddr c k :=
                    prevSzSum_addrIndex_le c h (unpackAddr c k) hak
                  have hle2 : prevSzSum c (keyPage c k2) ≤ unpackAddr c k2 :=
                    prevSzSum_addrIndex_le c h (unpackAddr c k2) hak2
                  have hkp2 : keyPage c k2 = addrIndex c (unpackAddr c k2) := rfl
                  have hA : unpackAddr c k = unpackAddr c k2 := by
                    rw [keyOff, hprevP, hpg] at hoe
                    rw [hpg] at hle1
                    rw [hkp2] at hle2
                    omega
                  have hG : unpackGen c k = unpackGen c k2 := by
                    rw [← hwgk, hgE]
                  have hT2 : unpackTid c k = unpackTid c k2 := by
                    rw [hT, ht0]
                  exact hnsk (decode_sameKey c h k k2 hA hT2 hG)
                · refine ⟨hT, hKP, _, P2, slots2, slk, hg02, ?_, hs2, hoff2,
                    hitk, hwgk, hstk, hwrk⟩
                  rw [hpg]
                  exact get?_set_self _ _ _ hplen
              · refine ⟨hT, hKP, _, Pk, slotsk, slk, hg02, ?_, hslabk, hgslk,
                  hitk, hwgk, hstk, hwrk⟩
                rw [get?_set_ne _ _ _ _ (fun hEq => hpg hEq.symm)]
                exact hgpk
    · rw [if_neg ht0] at hrun
      rw [shardRemoveRemote] at hrun
      by_cases hb : sh.shared.length < addrIndex c (unpackAddr c k2)
      · rw [if_pos hb] at hrun
        simp only [Option.some.injEq, Prod.mk.injEq] at hrun
        obtain ⟨hS2, _⟩ := hrun
        rw [hSeq] at hS2
        subst hS2
        exact ⟨⟨hlen, hshinv, hpristine⟩, fun k v hl _ => hl⟩
      · rw [if_neg hb] at hrun
        rcases hgp : sh.shared.get? (addrIndex c (unpackAddr c k2)) with _ | P
        · rw [hgp] at hrun
          simp only at hrun
          cases hrun
        · have hslabnone : P.slab = none := hpristine _ sh hgsh ht0 _ P hgp
          rw [hgp] at hrun
          simp only at hrun
          have hpr : pageRemove c false 0 P (unpackAddr c k2) (unpackGen c k2)
              = some (0, P, false) := by
            rw [pageRemove, hslabnone]
          rw [hpr] at hrun
          simp only [Option.some.injEq, Prod.mk.injEq] at hrun
          obtain ⟨hS2, _⟩ := hrun
          have hsh2 : ({ sh with shared := sh.shared.set (addrIndex c (unpackAddr c k2)) P } : ShardState α) = sh := by
            rw [set_same sh.shared _ P hgp]
          rw [hsh2, hSeq] at hS2
          subst hS2
          exact ⟨⟨hlen, hshinv, hpristine⟩, fun k v hl _ => hl⟩

/-- Any single successful benign operation preserves the invariant and
every live key it does not explicitly free. -/
theorem stepOp_preserves (c : Params) (h : cfgOk c) (S S1 : SlabState α)
    (op : Op α) (r : OpResult α) (k : Nat) (v : α)
    (hInv : Inv c S) (hallow : AllowedOp c S op)
    (havoid : ∀ k2, op = Op.rm k2 ∨ op = Op.take k2 → ¬ sameKey c k k2)
    (hrun : stepOp c S op = some (S1, r)) (hlive : live c S k v) :
    Inv c S1 ∧ live c S1 k v := by
  cases op with
  | ins v2 =>
    rw [stepOp] at hrun
    rcases hsi : slabInsert c S v2 with _ | p
    · rw [hsi] at hrun
      cases hrun
    · obtain ⟨S2, res⟩ := p
      rw [hsi] at hrun
      simp only [Option.map_some', Option.some.injEq, Prod.mk.injEq] at hrun
      obtain ⟨hS1, _⟩ := hrun
      subst hS1
      obtain ⟨hI, _, _, hlp, _⟩ := slabInsert_char c h S S2 v2 res hInv hsi
      exact ⟨hI, hlp k v hlive⟩
  | get k2 =>
    obtain ⟨hI, hlp⟩ := stepOp_get_char c h S S1 k2 r hInv hrun
    exact ⟨hI, hlp k v hlive⟩
  | rm k2 =>
    rw [stepOp] at hrun
    rcases hsr : slabRemove c S k2 with _ | p
    · rw [hsr] at hrun
      cases hrun
    · obtain ⟨S2, ok⟩ := p
      rw [hsr] at hrun
      simp only [Option.map_some', Option.some.injEq, Prod.mk.injEq] at hrun
      obtain ⟨hS1, _⟩ := hrun
      subst hS1
      obtain ⟨hI, hlp⟩ := slabRemove_char c h S S2 k2 ok hInv hallow hsr
      exact ⟨hI, hlp k v hlive (havoid k2 (Or.inl rfl))⟩
  | take k2 =>
    rw [stepOp] at hrun
    rcases hst : slabTake c S k2 with _ | p
    · rw [hst] at hrun
      cases hrun
    · obtain ⟨S2, res⟩ := p
      rw [hst] at hrun
      simp only [Option.map_some', Option.some.injEq, Prod.mk.injEq] at hrun
      obtain ⟨hS1, _⟩ := hrun
      subst hS1
      obtain ⟨hI, hlp, _⟩ := slabTake_char c h S S2 k2 res hInv hallow hst
      exact ⟨hI, hlp k v hlive (havoid k2 (Or.inr rfl))⟩

/-- A whole benign run preserves the invariant and liveness of the
protected key. -/
theorem SafeRun_preserves (c : Params) (h : cfgOk c) (k : Nat) (v : α)
    (S S2 : SlabState α) (hrun : SafeRun c k S S2)
    (hInv : Inv c S) (hlive : live c S k v) :
    Inv c S2 ∧ live c S2 k v := by
  induction hrun with
  | refl S => exact ⟨hInv, hlive⟩
  | step S Sa Sb op r hallow havoid hstep hrest ih =>
    obtain ⟨hI, hl⟩ :=
      stepOp_preserves c h S Sa op r k v hInv hallow havoid hstep hlive
    exact ih hI hl

/-! ### Claim C1: insert/get agreement until removal -/

/-- Counterexample to claim C1 as stated: on the two-slot configuration,
removing the forged key 1 (never returned by insert; it addresses a
vacant slot at that slot's current generation) pushes an already-free
slot onto the free list again. The corrupted list then hands the same
slot out twice: two inserts both return key 17, and get 17 dereferences
to 12 rather than the value 11 whose insert returned key 17 first, even
though remove(17)/take(17) were never called. -/
theorem c1_counterexample :
    ((runOps tinyParams (slabNew tinyParams)
        [Op.ins 10, Op.rm 1, Op.ins 11, Op.ins 12]).map
      (fun p => (p.2, (slabGet tinyParams p.1 17).map Prod.snd)))
    = some ([OpResult.key (some 0), OpResult.removed false,
             OpResult.key (some 17), OpResult.key (some 17)],
            some (some 12)) := by decide

/-- Claim C1 (corrected): after insert(v) returns key k, get(k)
dereferences to v across any sequence of successful operations, provided
(as the unchecked-key counterexample requires) that no remove/take in
the sequence addresses a vacant slot at a matching generation and that
no removed or taken key aliases k in all three packed fields. -/
theorem c1_insert_get_safe (c : Params) (h : cfgOk c) (S0 S1 S2 : SlabState α)
    (v : α) (k : Nat)
    (hInv : Inv c S0)
    (hins : slabInsert c S0 v = some (S1, some k))
    (hrun : SafeRun c k S1 S2) :
    ∃ S3, slabGet c S2 k = some (S3, some v) := by
  obtain ⟨hI1, _, _, _, hlk⟩ := slabInsert_char c h S0 S1 v (some k) hInv hins
  obtain ⟨hI2, hl2⟩ := SafeRun_preserves c h k v S1 S2 hrun hI1 (hlk k rfl)
  exact live_get c h S2 k v hI2 hl2

/-- Witness for claim C1 at the miniature configuration: inserting 10
into the fresh slab returns key 0, and get 0 dereferences to 10. -/
theorem c1_witness :
    slabInsert tinyParams (slabNew tinyParams : SlabState Nat) 10
      = some (⟨[⟨0, [1], [⟨8, 2, 0, some [⟨0, 1, some 10⟩, ⟨0, 8, none⟩]⟩]⟩]⟩,
              some 0) ∧
    ∃ S3, slabGet tinyParams
        (⟨[⟨0, [1], [⟨8, 2, 0, some [⟨0, 1, some 10⟩, ⟨0, 8, none⟩]⟩]⟩]⟩ :
          SlabState Nat) 0
      = some (S3, some 10) :=
  ⟨by decide,
   c1_insert_get_safe tinyParams (by decide) (slabNew tinyParams)
     (⟨[⟨0, [1], [⟨8, 2, 0, some [⟨0, 1, some 10⟩, ⟨0, 8, none⟩]⟩]⟩]⟩ :
       SlabState Nat)
     (⟨[⟨0, [1], [⟨8, 2, 0, some [⟨0, 1, some 10⟩, ⟨0, 8, none⟩]⟩]⟩]⟩ :
       SlabState Nat)
     10 0 (Inv_slabNew tinyParams) (by decide) (SafeRun.refl _)⟩

/-! ### Claim C2: the generation guard against ABA -/

/-- Counterexample to claim C2 as stated: with one generation bit,
Generation::BITS = 2^1 - 1 = 1, so Generation::advance is modulo 1 and
the generation never changes. After insert 5 gives key 0, take 0 yields
5 and recycles the slot, and insert 6 returns key 0 again; the stale key
0 then reads the recycled slot: get 0 yields 6, not None. -/
theorem c2_counterexample :
    (runOps oneGenBitParams (slabNew oneGenBitParams)
       [Op.ins 5, Op.take 0, Op.ins 6, Op.get 0]).map Prod.snd
    = some [OpResult.key (some 0), OpResult.took (some 5),
            OpResult.key (some 0), OpResult.got (some 6)] ∧
    fieldBits (genLen oneGenBitParams) = 1 := by decide

/-- Claim C2 (corrected): after k1 = insert(a); take(k1); insert(b),
get(k1) returns None (and the take yielded a), even when both keys map
to the same slot: the take advances the slot generation, so the old
key's generation mismatches. This requires the generation field to hold
at least two distinct values (Generation::BITS at least 2), which the
one-generation-bit counterexample violates. -/
theorem c2_generation_aba_guard (c : Params) (h : cfgOk c)
    (hB : 2 ≤ fieldBits (genLen c)) (S0 S1 S2 S3 : SlabState α)
    (a b : α) (k1 : Nat) (res : Option α) (res2 : Option Nat)
    (hInv : Inv c S0)
    (hins : slabInsert c S0 a = some (S1, some k1))
    (htake : slabTake c S1 k1 = some (S2, res))
    (hins2 : slabInsert c S2 b = some (S3, res2)) :
    res = some a ∧ slabGet c S3 k1 = some (S3, none) := by
  obtain ⟨hI1, _, _, _, hlk⟩ := slabInsert_char c h S0 S1 a (some k1) hInv hins
  have hlive1 : live c S1 k1 a := hlk k1 rfl
  have hallow : ¬ vacantHit c S1 k1 := by
    intro hv
    obtain ⟨sh, P, slots, sl, hgsh, hgP, hslab, hgsl, hitem, hwg⟩ := hv
    obtain ⟨hT, hKP, shl, Pl, slotsl, sll, hgshl, hgPl, hslabl, hgsll, hitl,
      hwgl, hstl, hwrl⟩ := hlive1
    rw [hT] at hgsh
    rw [hgshl] at hgsh
    obtain rfl : shl = sh := Option.some_inj.mp hgsh
    rw [hgPl] at hgP
    obtain rfl : Pl = P := Option.some_inj.mp hgP
    rw [hslabl] at hslab
    obtain rfl : slotsl = slots := Option.some_inj.mp hslab
    obtain ⟨hlen1, hshinv1, _⟩ := hI1
    obtain ⟨_, _, hSP1, _⟩ := hshinv1 _ shl hgshl
    obtain ⟨_, hprev1, _⟩ := hSP1 _ Pl hgPl
    have hoffeq : unpackAddr c k1 - Pl.prevSz = keyOff c k1 := by
      rw [hprev1, keyOff]
    rw [hoffeq] at hgsl
    rw [hgsll] at hgsl
    obtain rfl : sll = sl := Option.some_inj.mp hgsl
    rw [hitl] at hitem
    cases hitem
  obtain ⟨hI2, _, hlk2⟩ := slabTake_char c h S1 S2 k1 res hI1 hallow htake
  obtain ⟨hres, sh2, P2, slots2, sl2, hgsh2, hgP2, hslab2, hgsl2, hit2, hg2⟩ :=
    hlk2 a hlive1
  obtain ⟨hI3, _, hpres3, _⟩ := slabInsert_char c h S2 S3 b res2 hI2 hins2
  obtain ⟨sh3, hgsh3, hsp3⟩ := hpres3 sh2 hgsh2
  obtain ⟨P3, hgP3, hpp3⟩ := hsp3 (keyPage c k1) P2 hgP2
  obtain ⟨slots3, sl3, hslab3, hgsl3, hg3⟩ :=
    hpp3.2.2.2.2 slots2 (keyOff c k1) sl2 hslab2 hgsl2
  have hne : wGen c sl3.lifecycle ≠ unpackGen c k1 := by
    rw [hg3, hg2]
    exact genAdvance_ne c hB (unpackGen c k1)
      (unpackField_lt_two_pow (genLen c) (genShift c) k1)
  exact ⟨hres, stale_get c h S3 k1 sh3 P3 slots3 sl3 hI3 hlive1.1 hlive1.2.1
    hgsh3 hgP3 hslab3 hgsl3 hne⟩

/-- Witness for claim C2 at the miniature configuration: insert 10 gives
key 0, take 0 yields 10, insert 11 reuses the slot at an advanced
generation, and the stale key 0 reads None. -/
theorem c2_witness :
    (some 10 : Option Nat) = some 10 ∧
    slabGet tinyParams
        (⟨[⟨0, [1], [⟨8, 2, 0, some [⟨16, 1, some 11⟩, ⟨0, 8, none⟩]⟩]⟩]⟩ :
          SlabState Nat) 0
      = some (⟨[⟨0, [1], [⟨8, 2, 0, some [⟨16, 1, some 11⟩, ⟨0, 8, none⟩]⟩]⟩]⟩,
              none) :=
  c2_generation_aba_guard tinyParams (by decide) (by decide)
    (slabNew tinyParams)
    (⟨[⟨0, [1], [⟨8, 2, 0, some [⟨0, 1, some 10⟩, ⟨0, 8, none⟩]⟩]⟩]⟩ :
      SlabState Nat)
    (⟨[⟨0, [0], [⟨8, 2, 0, some [⟨16, 1, none⟩, ⟨0, 8, none⟩]⟩]⟩]⟩ :
      SlabState Nat)
    (⟨[⟨0, [1], [⟨8, 2, 0, some [⟨16, 1, some 11⟩, ⟨0, 8, none⟩]⟩]⟩]⟩ :
      SlabState Nat)
    10 11 0 (some 10) (some 16)
    (Inv_slabNew tinyParams) (by decide) (by decide) (by decide)
